import Mathlib

/-!
# SLOG: transaction utilities, local log, global Paxos and lock manager

A shallow embedding of the transaction helpers of SLOG
(`common/proto_utils.cpp`), of the local log of its interleaver, of the commit
hook of its global Paxos (`module/consensus.cpp`), of the keys of its lock table,
of its key-value stored procedure and of its DDR lock manager, and the
properties they satisfy.

Conventions of the embedding.

* A protobuf message is a structure; an optional sub-message is an `Option`
  and its getter falls back to the default message, as protobuf does.
* A protobuf `map<string, ValueEntry>` is the list of its entries in the
  order in which the map iterates over them.  The order is not fixed by
  protobuf, so statements relating two maps are made up to permutation.
* `uint32`/`uint64` fields are natural numbers, `int32` fields are integers;
  the narrowing of a `uint32` into an `int32` field is `toInt32`.
* The preprocessor symbol `REMASTER_PROTOCOL_COUNTERLESS` is fixed by the build
  and is a boolean parameter of the functions whose body it guards.
* A C++ exception is the `error` case of `Except`; so is a failed `CHECK` and
  an access outside a container, after which nothing is defined.
* A function that takes a `Transaction*` and may modify or delete the object
  returns, next to its result, what the argument points to afterwards.
* A `std::unordered_map` whose entries are only looked up is a function from
  its keys, to the default value or to `none` for a key without an entry.
* A component whose implementation is not among the sources at hand is
  modelled from the specification; its definitions say so.
-/

namespace slog

/-! ## Data model -/

/-- Keys are byte strings. -/
abbrev Key := String

/-- Values are byte strings. -/
abbrev Value := String

/-- Identifier of a transaction (`uint64`). -/
abbrev TxnId := Nat

/-- Identifier of a batch (`uint32`). -/
abbrev BatchId := Nat

/-- The enum `TransactionType`. -/
inductive TransactionType where
  | UNKNOWN
  | SINGLE_HOME
  | MULTI_HOME_OR_LOCK_ONLY
  deriving DecidableEq, Repr, Inhabited

/-- The enum `TransactionStatus`. -/
inductive TransactionStatus where
  | NOT_STARTED
  | COMMITTED
  | ABORTED
  deriving DecidableEq, Repr, Inhabited

/-- The enum `KeyType`. -/
inductive KeyType where
  | READ
  | WRITE
  deriving DecidableEq, Repr, Inhabited

/-- The message `MasterMetadata`: the master replica of a key and its remaster counter. -/
structure MasterMetadata where
  master : Nat
  counter : Nat
  deriving DecidableEq, Repr

/-- The default `MasterMetadata` message, returned by the getter of an unset field. -/
instance : Inhabited MasterMetadata := ⟨⟨0, 0⟩⟩

/-- The message `ValueEntry`: what a transaction holds for one key. -/
structure ValueEntry where
  value : Value
  new_value : Value
  type : KeyType
  metadata : Option MasterMetadata
  deriving DecidableEq, Repr

/-- The default `ValueEntry` message. -/
instance : Inhabited ValueEntry := ⟨⟨"", "", KeyType.READ, none⟩⟩

/-- The presence test `has_metadata()`. -/
def ValueEntry.has_metadata (v : ValueEntry) : Bool :=
  v.metadata.isSome

/-- The getter `metadata()`: the stored message, or the default one when the field is unset. -/
def ValueEntry.get_metadata (v : ValueEntry) : MasterMetadata :=
  v.metadata.getD default

/-- The `oneof procedure` of a transaction, with the case `PROCEDURE_NOT_SET`. -/
inductive Procedure where
  | not_set
  | code (code : String)
  | remaster (new_master : Nat) (is_new_master_lock_only : Bool)
  deriving DecidableEq, Repr, Inhabited

/-- The test `procedure_case() == Transaction::kRemaster`. -/
def Procedure.is_remaster : Procedure → Bool
  | Procedure.remaster _ _ => true
  | _ => false

/-- The message `TransactionInternal`. -/
structure TransactionInternal where
  id : TxnId
  type : TransactionType
  home : Int
  coordinating_server : Nat
  involved_replicas : List Nat
  involved_partitions : List Nat
  active_partitions : List Nat
  events : List Nat
  event_times : List Int
  event_machines : List Int
  deriving DecidableEq, Repr

/-- The message `Transaction`.  `keys` lists the entries of the protobuf map
in iteration order. -/
structure Transaction where
  internal : TransactionInternal
  keys : List (Key × ValueEntry)
  procedure : Procedure
  status : TransactionStatus
  abort_reason : String
  deleted_keys : List Key
  deriving DecidableEq, Repr

/-- The message `internal::Batch`. -/
structure Batch where
  id : BatchId
  transaction_type : TransactionType
  transactions : List Transaction
  events : List Nat
  event_times : List Int
  event_machines : List Int
  deriving DecidableEq, Repr

/-- Value of a `uint32` once stored in an `int32` field (two's complement). -/
def toInt32 (n : Nat) : Int :=
  if n % 2 ^ 32 < 2 ^ 31 then ((n % 2 ^ 32 : Nat) : Int) else ((n % 2 ^ 32 : Nat) : Int) - 2 ^ 32

/-! ## `SetTransactionType` -/

/-- The first loop of `SetTransactionType`: the flag `master_metadata_is_complete`
is cleared at the first entry without metadata, and the loop stops there. -/
def metadataCompleteLoop : List (Key × ValueEntry) → Bool → Bool
  | [], master_metadata_is_complete => master_metadata_is_complete
  | kv :: rest, master_metadata_is_complete =>
    if !kv.2.has_metadata then false
    else metadataCompleteLoop rest master_metadata_is_complete

/-- The second loop of `SetTransactionType`: the flag `is_single_home` is cleared
at the first entry whose master differs from `home`, and the loop stops there. -/
def singleHomeLoop (home : Nat) : List (Key × ValueEntry) → Bool → Bool
  | [], is_single_home => is_single_home
  | kv :: rest, is_single_home =>
    if kv.2.get_metadata.master ≠ home then false
    else singleHomeLoop home rest is_single_home

/-- The expression `txn.keys().begin()->second`: the entry the map iterates first. -/
def beginEntry (keys : List (Key × ValueEntry)) : ValueEntry :=
  (keys.head?.map Prod.snd).getD default

/-- The function `SetTransactionType`: returns the type and the updated transaction. -/
def SetTransactionType (REMASTER_PROTOCOL_COUNTERLESS : Bool) (txn : Transaction) :
    TransactionType × Transaction :=
  let master_metadata_is_complete := metadataCompleteLoop txn.keys (!txn.keys.isEmpty)
  if !master_metadata_is_complete then
    (TransactionType.UNKNOWN,
      { txn with internal := { txn.internal with type := TransactionType.UNKNOWN } })
  else
    let home := (beginEntry txn.keys).get_metadata.master
    let is_single_home := singleHomeLoop home txn.keys true
    let is_single_home :=
      if REMASTER_PROTOCOL_COUNTERLESS && txn.procedure.is_remaster then false else is_single_home
    if is_single_home then
      (TransactionType.SINGLE_HOME,
        { txn with internal :=
            { txn.internal with type := TransactionType.SINGLE_HOME, home := toInt32 home } })
    else
      (TransactionType.MULTI_HOME_OR_LOCK_ONLY,
        { txn with internal :=
            { txn.internal with type := TransactionType.MULTI_HOME_OR_LOCK_ONLY, home := -1 } })

/-! ## `MergeTransaction` -/

/-- The two `std::runtime_error`s thrown by `MergeTransaction`. -/
inductive MergeError where
  | different_ids (txn_id other_id : TxnId)
  | different_types (txn_type other_type : TransactionType)
  deriving DecidableEq, Repr

/-- The call `Map::insert` of protobuf: the entry is added unless its key is
already present, in which case the map is left as it is. -/
def mapInsert (keys : List (Key × ValueEntry)) (kv : Key × ValueEntry) : List (Key × ValueEntry) :=
  if keys.any (fun e => e.1 == kv.1) then keys else keys ++ [kv]

/-- The function `MergeTransaction`: the merged `txn`, or the exception thrown. -/
def MergeTransaction (txn other : Transaction) : Except MergeError Transaction :=
  if txn.internal.id ≠ other.internal.id then
    Except.error (MergeError.different_ids txn.internal.id other.internal.id)
  else if txn.internal.type ≠ other.internal.type then
    Except.error (MergeError.different_types txn.internal.type other.internal.type)
  else
    let txn :=
      if other.status = TransactionStatus.ABORTED then
        { txn with status := TransactionStatus.ABORTED, abort_reason := other.abort_reason }
      else if txn.status ≠ TransactionStatus.ABORTED then
        { txn with keys := other.keys.foldl mapInsert txn.keys }
      else txn
    Except.ok
      { txn with internal :=
          { txn.internal with
              events := txn.internal.events ++ other.internal.events,
              event_times := txn.internal.event_times ++ other.internal.event_times,
              event_machines := txn.internal.event_machines ++ other.internal.event_machines } }

/-- Merging the results `others` into `txn` one after the other, as the
coordinating server does; the first exception ends the fold. -/
def mergeAll (txn : Transaction) (others : List Transaction) : Except MergeError Transaction :=
  others.foldlM MergeTransaction txn

/-! ## Batches -/

/-- The test helper `MakeBatch`: a new batch with the given id and type holding
`txns` in order; its event lists are empty. -/
def MakeBatch (batch_id : BatchId) (txns : List Transaction) (batch_type : TransactionType) :
    Batch :=
  txns.foldl (fun batch txn => { batch with transactions := batch.transactions ++ [txn] })
    { id := batch_id, transaction_type := batch_type, transactions := [],
      events := [], event_times := [], event_machines := [] }

/-- The three `MergeFrom` calls of `Unbatch`: the events recorded on the batch
are appended to those of the transaction. -/
def transferEvents (batch : Batch) (txn : Transaction) : Transaction :=
  { txn with internal :=
      { txn.internal with
          events := txn.internal.events ++ batch.events,
          event_times := txn.internal.event_times ++ batch.event_times,
          event_machines := txn.internal.event_machines ++ batch.event_machines } }

/-- The loop of `Unbatch`, counting `i + 1` down: each round releases the last
transaction of the batch, transfers the events and stores it at index `i` of
`buffer`.  A slot of the buffer that was never written holds a null pointer,
`none`.  The counter starts at the number of transactions, so the branch for
a batch that has run out of transactions is never taken. -/
def unbatchLoop (batch : Batch) :
    Nat → List Transaction → List (Option Transaction) → List Transaction × List (Option Transaction)
  | 0, transactions, buffer => (transactions, buffer)
  | i + 1, transactions, buffer =>
    match transactions.getLast? with
    | none => (transactions, buffer)
    | some txn =>
      unbatchLoop batch i transactions.dropLast (buffer.set i (some (transferEvents batch txn)))

/-- The function `Unbatch`: the batch, emptied of its transactions, and the
returned vector. -/
def Unbatch (batch : Batch) : Batch × List (Option Transaction) :=
  let buffer := List.replicate batch.transactions.length (none : Option Transaction)
  let r := unbatchLoop batch batch.transactions.length batch.transactions buffer
  ({ batch with transactions := r.1 }, r.2)

/-! ## Splitting a transaction by home and by partition -/

/-- The part of the class `Configuration` that the transaction helpers use:
the number of replicas, the number of partitions and the map from keys to
partitions.  The class itself is fixed by the deployment and is a parameter
here. -/
structure Configuration where
  num_replicas : Nat
  num_partitions : Nat
  partition_of_key : Key → Nat

/-- The ways in which a helper can end without returning: a `CHECK` that fails
and aborts the process, and an access outside a container, whose behaviour is
undefined. -/
inductive Fault where
  | check_failed
  | out_of_range
  deriving DecidableEq, Repr

/-- What a call leaves behind when it takes a `Transaction*` and returns one:
the object returned (`none` for `nullptr`) and the object the argument points
to after the call (`none` once it has been deleted). -/
structure Generated where
  returned : Option Transaction
  original : Option Transaction
  deriving DecidableEq, Repr

/-- The setter `mutable_remaster()->set_is_new_master_lock_only(true)`; it is
only called on a transaction whose procedure is a remaster. -/
def Procedure.set_is_new_master_lock_only : Procedure → Procedure
  | Procedure.remaster new_master _ => Procedure.remaster new_master true
  | _ => Procedure.remaster 0 true

/-- The test `procedure_case() == kRemaster && remaster().new_master() == lo_master`. -/
def Procedure.is_remaster_to (procedure : Procedure) (lo_master : Nat) : Bool :=
  match procedure with
  | Procedure.remaster new_master _ => new_master == lo_master
  | _ => false

/-- The function `GenerateLockOnlyTxn`.  The transaction is copied unless
`in_place` is set, its home becomes `lo_master`, and in the counterless build
a remaster to `lo_master` is flagged; the keys are left as they are. -/
def GenerateLockOnlyTxn (REMASTER_PROTOCOL_COUNTERLESS : Bool) (txn : Transaction)
    (lo_master : Nat) (in_place : Bool) : Generated :=
  let lock_only_txn : Transaction :=
    { txn with internal := { txn.internal with home := toInt32 lo_master } }
  let lock_only_txn : Transaction :=
    if REMASTER_PROTOCOL_COUNTERLESS && lock_only_txn.procedure.is_remaster_to lo_master then
      { lock_only_txn with procedure := lock_only_txn.procedure.set_is_new_master_lock_only }
    else lock_only_txn
  { returned := some lock_only_txn,
    original := if in_place then some lock_only_txn else some txn }

/-- The state of the first loop of `GeneratePartitionedTxn`: the entries kept so
far, the vector `involved_replicas` and the flag `is_redundant`. -/
structure PartitionState where
  keys : List (Key × ValueEntry)
  involved_replicas : List Bool
  is_redundant : Bool
  deriving DecidableEq, Repr

/-- The first loop of `GeneratePartitionedTxn` over the entries of the map: an
entry of another partition is erased; for an entry of the target partition the
bit of its master is set in `involved_replicas` and `is_redundant` is cleared
when the master, cast to `int`, is the home of the transaction.  The write
`involved_replicas[master]` is not checked in the source: when the master is
not an index of the vector its behaviour is undefined in C++, and a run may
well go on and return.  `out_of_range` stands for such a run: it says that
the source fixes no result, not that the call stops, and the properties of the
function are stated of the runs that stay inside the vector. -/
def partitionedLoop (config : Configuration) (partition : Nat) (home : Int) :
    List (Key × ValueEntry) → PartitionState → Except Fault PartitionState
  | [], state => Except.ok state
  | kv :: rest, state =>
    if config.partition_of_key kv.1 ≠ partition then
      partitionedLoop config partition home rest state
    else
      let master := kv.2.get_metadata.master
      if master < state.involved_replicas.length then
        partitionedLoop config partition home rest
          { keys := state.keys ++ [kv],
            involved_replicas := state.involved_replicas.set master true,
            is_redundant := state.is_redundant && decide (toInt32 master ≠ home) }
      else Except.error Fault.out_of_range

/-- The loops that turn a vector of flags into the increasing list of the
indices whose flag is set. -/
def setIndices (flags : List Bool) : List Nat :=
  (List.range flags.length).filter (fun r => flags.getD r false)

/-- The function `GeneratePartitionedTxn`.  It returns `nullptr` and deletes the
transaction it worked on when no key is left or the part is redundant;
otherwise it returns that transaction, with `involved_replicas` rebuilt when
the type is `MULTI_HOME_OR_LOCK_ONLY`. -/
def GeneratePartitionedTxn (config : Configuration) (txn : Transaction) (partition : Nat)
    (in_place : Bool) : Except Fault Generated :=
  let involved_replicas := List.replicate config.num_replicas false
  let is_redundant := !txn.procedure.is_remaster
  match partitionedLoop config partition txn.internal.home txn.keys
      { keys := [], involved_replicas := involved_replicas, is_redundant := is_redundant } with
  | Except.error fault => Except.error fault
  | Except.ok state =>
    let new_txn : Transaction := { txn with keys := state.keys }
    if new_txn.keys.isEmpty || state.is_redundant then
      Except.ok { returned := none, original := if in_place then none else some txn }
    else
      let new_txn : Transaction :=
        if new_txn.internal.type = TransactionType.MULTI_HOME_OR_LOCK_ONLY then
          { new_txn with internal :=
              { new_txn.internal with involved_replicas := setIndices state.involved_replicas } }
        else new_txn
      Except.ok { returned := some new_txn,
                  original := if in_place then some new_txn else some txn }

/-! ## `PopulateInvolvedReplicas` and `PopulateInvolvedPartitions` -/

/-- The algorithm `std::unique`: of each run of equal neighbours the first is kept. -/
def unique : List Nat → List Nat
  | [] => []
  | [a] => [a]
  | a :: b :: rest => if a = b then unique (b :: rest) else a :: unique (b :: rest)

/-- The algorithm `std::sort` on numbers: the increasing arrangement of the vector. -/
def sort (v : List Nat) : List Nat :=
  v.insertionSort (fun a b => a ≤ b)

/-- The loop of `PopulateInvolvedReplicas` over the entries of the map: each
entry must pass `CHECK(has_metadata())` and its master is pushed back. -/
def mastersLoop : List (Key × ValueEntry) → List Nat → Except Fault (List Nat)
  | [], involved_replicas => Except.ok involved_replicas
  | kv :: rest, involved_replicas =>
    if kv.2.has_metadata then mastersLoop rest (involved_replicas ++ [kv.2.get_metadata.master])
    else Except.error Fault.check_failed

/-- The new master of a remaster transaction, pushed by
`PopulateInvolvedReplicas` in the counterless build. -/
def Procedure.new_masters : Procedure → List Nat
  | Procedure.remaster new_master _ => [new_master]
  | _ => []

/-- The function `PopulateInvolvedReplicas`.  A transaction of unknown type is
left alone; for a single-home one the field is cleared and receives the master
of the first entry, which is undefined without entries and aborts if that entry
has no metadata; otherwise the sorted masters without repetition, with the new
master of a remaster in the counterless build, are added to the field. -/
def PopulateInvolvedReplicas (REMASTER_PROTOCOL_COUNTERLESS : Bool) (txn : Transaction) :
    Except Fault Transaction :=
  if txn.internal.type = TransactionType.UNKNOWN then Except.ok txn
  else if txn.internal.type = TransactionType.SINGLE_HOME then
    match txn.keys with
    | [] => Except.error Fault.out_of_range
    | kv :: _ =>
      if kv.2.has_metadata then
        Except.ok { txn with internal :=
          { txn.internal with involved_replicas := [] ++ [kv.2.get_metadata.master] } }
      else Except.error Fault.check_failed
  else
    match mastersLoop txn.keys [] with
    | Except.error fault => Except.error fault
    | Except.ok involved_replicas =>
      let involved_replicas :=
        if REMASTER_PROTOCOL_COUNTERLESS then involved_replicas ++ txn.procedure.new_masters
        else involved_replicas
      Except.ok { txn with internal :=
        { txn.internal with
            involved_replicas := txn.internal.involved_replicas ++ unique (sort involved_replicas) } }

/-- The state of the first loop of `PopulateInvolvedPartitions`: the vectors
`involved_partitions` and `active_partitions`. -/
structure PartitionFlags where
  involved_partitions : List Bool
  active_partitions : List Bool
  deriving DecidableEq, Repr

/-- The first loop of `PopulateInvolvedPartitions` over the entries of the map:
the bit of the partition of the key is set in `involved_partitions` and, for a
key that is written, in `active_partitions`; this is undefined when the
partition is not an index of the vectors. -/
def partitionsLoop (config : Configuration) :
    List (Key × ValueEntry) → PartitionFlags → Except Fault PartitionFlags
  | [], flags => Except.ok flags
  | kv :: rest, flags =>
    let partition := config.partition_of_key kv.1
    if partition < flags.involved_partitions.length then
      partitionsLoop config rest
        { involved_partitions := flags.involved_partitions.set partition true,
          active_partitions :=
            if kv.2.type = KeyType.WRITE then flags.active_partitions.set partition true
            else flags.active_partitions }
    else Except.error Fault.out_of_range

/-- The function `PopulateInvolvedPartitions`: the partitions whose bit is set
are added, in increasing order, to `involved_partitions` and `active_partitions`. -/
def PopulateInvolvedPartitions (config : Configuration) (txn : Transaction) :
    Except Fault Transaction :=
  match partitionsLoop config txn.keys
      { involved_partitions := List.replicate config.num_partitions false,
        active_partitions := List.replicate config.num_partitions false } with
  | Except.error fault => Except.error fault
  | Except.ok flags =>
    Except.ok { txn with internal :=
      { txn.internal with
          involved_partitions :=
            txn.internal.involved_partitions ++ setIndices flags.involved_partitions,
          active_partitions :=
            txn.internal.active_partitions ++ setIndices flags.active_partitions } }

/-! ## Keys of the lock table -/

/-- The type `KeyReplica`: the key of the lock table, a string. -/
abbrev KeyReplica := String

/-- The function `std::to_string` on an unsigned number: its decimal digits. -/
def to_string (n : Nat) : String :=
  Nat.repr n

/-- The function `MakeKeyReplica`: the key, a colon and the master in decimal. -/
def MakeKeyReplica (key : Key) (master : Nat) : KeyReplica :=
  let master_str := to_string master
  let new_key := ""
  let new_key := new_key ++ key
  let new_key := new_key ++ ":"
  let new_key := new_key ++ master_str
  new_key

/-- The number that a string of decimal digits stands for. -/
def digitsValue (digits : List Char) : Nat :=
  digits.foldl (fun value c => 10 * value + (c.toNat - 48)) 0

/-! ## Global Paxos -/

/-- The type `MachineId`. -/
abbrev MachineId := Nat

/-- The type `Channel`. -/
abbrev Channel := Nat

/-- The constant `kMultiHomeOrdererChannel`. -/
def kMultiHomeOrdererChannel : Channel := 4

/-- The methods of the configuration that the global Paxos reads. The
configuration itself is a parameter of the development. -/
structure PaxosConfiguration where
  num_replicas : Nat
  leader_partition_for_multi_home_ordering : Nat
  MakeMachineId : Nat → Nat → MachineId

/-- The message `BatchOrder`. -/
structure BatchOrder where
  slot : Nat
  batch_id : Nat
  deriving DecidableEq, Repr

/-- The requests of an envelope that the Paxos modules fill in; a fresh envelope
holds none. -/
inductive Envelope where
  | empty
  | forward_batch_batch_order (order : BatchOrder)
  | local_queue_order (queue_id slot : Nat)
  deriving DecidableEq, Repr

/-- One call of `Send` with a list of destinations. -/
structure SentEnvelope where
  env : Envelope
  to_machine_ids : List MachineId
  to_channel : Channel
  deriving DecidableEq, Repr

/-- The member of `GlobalPaxos` that `OnCommit` reads. -/
structure GlobalPaxos where
  multihome_orderers_ : List MachineId
  deriving DecidableEq, Repr

/-- The constructor `GlobalPaxos::GlobalPaxos`: the loop over the replicas. -/
def GlobalPaxos.create (config : PaxosConfiguration) : GlobalPaxos :=
  { multihome_orderers_ :=
      (List.range config.num_replicas).foldl
        (fun orderers rep =>
          orderers ++ [config.MakeMachineId rep config.leader_partition_for_multi_home_ordering])
        [] }

/-- The method `GlobalPaxos::OnCommit`: the calls of `Send` it makes. -/
def GlobalPaxos.OnCommit (self : GlobalPaxos) (slot value : Nat) (is_leader : Bool) :
    List SentEnvelope :=
  if !is_leader then []
  else
    let order : BatchOrder := { slot := slot, batch_id := value }
    let env := Envelope.forward_batch_batch_order order
    [{ env := env, to_machine_ids := self.multihome_orderers_,
       to_channel := kMultiHomeOrdererChannel }]

/-! ## The local log of the interleaver

The class `LocalLog` is declared in `module/interleaver.h`, which is not among
the sources at hand; only its unit tests are.  It is modelled here from the
description of the interleaver in the specification. -/

/-- Identifier of a slot of the local log. -/
abbrev SlotId := Nat

/-- Identifier of a queue of batches. -/
abbrev QueueId := Nat

/-- Modelled from the spec: the state that `LocalLog` (`module/interleaver.h`,
missing) keeps for one queue.  `buffer` is the reorder buffer indexed by
position, `ready` the FIFO of the batches whose position has been contiguously
filled, oldest first, and `next_position` the first position not yet released. -/
structure BatchQueue where
  next_position : Nat
  buffer : List (Nat × BatchId)
  ready : List (Nat × BatchId)
  deriving DecidableEq, Repr

/-- Modelled from the spec: the class `LocalLog` (`module/interleaver.h`,
missing): the queues of batches and the priority queue of pending slots, kept
in increasing order of `slot_id`, each slot with the queue it names. -/
structure LocalLog where
  queues : QueueId → BatchQueue
  slots : List (SlotId × QueueId)

/-- Modelled from the spec: a fresh `LocalLog` (`module/interleaver.h`,
missing), without batches and without slots. -/
def LocalLog.fresh : LocalLog :=
  { queues := fun _ => { next_position := 0, buffer := [], ready := [] }, slots := [] }

/-- Taking a batch out of a reorder buffer: its first occurrence is removed. -/
def removeFirst (e : Nat × BatchId) : List (Nat × BatchId) → List (Nat × BatchId)
  | [] => []
  | x :: rest => if x = e then rest else x :: removeFirst e rest

/-- Modelled from the spec: the release of batches in contiguous order inside
`LocalLog::AddBatchId` (`module/interleaver.cpp`, missing): as long as the
reorder buffer holds a batch at `next_position`, it moves to the FIFO of ready
batches.  Each round takes one batch out of the buffer, so as many rounds as
the buffer has batches suffice. -/
def releaseReady : Nat → BatchQueue → BatchQueue
  | 0, queue => queue
  | rounds + 1, queue =>
    match queue.buffer.find? (fun e => e.1 == queue.next_position) with
    | none => queue
    | some e =>
      releaseReady rounds
        { next_position := queue.next_position + 1,
          buffer := removeFirst e queue.buffer,
          ready := queue.ready ++ [e] }

/-- Modelled from the spec: `LocalLog::AddBatchId(queue_id, position, batch_id)`
(`module/interleaver.cpp`, missing): the batch enters the reorder buffer of its
queue, and the batches that are now contiguous are released. -/
def LocalLog.AddBatchId (log : LocalLog) (queue_id : QueueId) (position : Nat)
    (batch_id : BatchId) : LocalLog :=
  let queue := log.queues queue_id
  let buffer := queue.buffer ++ [(position, batch_id)]
  let queue := releaseReady buffer.length { queue with buffer := buffer }
  { log with queues := fun q => if q = queue_id then queue else log.queues q }

/-- Modelled from the spec: the insertion into the priority queue of pending
slots of `LocalLog` (`module/interleaver.h`, missing), which is ordered by
`slot_id`: the slot goes before the first pending slot that is not smaller. -/
def insertSlot (slot : SlotId × QueueId) : List (SlotId × QueueId) → List (SlotId × QueueId)
  | [] => [slot]
  | head :: rest =>
    if slot.1 ≤ head.1 then slot :: head :: rest else head :: insertSlot slot rest

/-- Modelled from the spec: `LocalLog::AddSlot(slot_id, queue_id)`
(`module/interleaver.cpp`, missing): the slot enters the priority queue of
pending slots. -/
def LocalLog.AddSlot (log : LocalLog) (slot_id : SlotId) (queue_id : QueueId) : LocalLog :=
  { log with slots := insertSlot (slot_id, queue_id) log.slots }

/-- Modelled from the spec: `LocalLog::HasNextBatch()` (`module/interleaver.cpp`,
missing): whether the queue named by the head slot has a ready batch. -/
def LocalLog.HasNextBatch (log : LocalLog) : Bool :=
  match log.slots with
  | [] => false
  | (_, queue_id) :: _ => !(log.queues queue_id).ready.isEmpty

/-- One entry of the local log: the pair `(slot, batch_id)` that `NextBatch`
returns, with the queue and the position the batch came from. -/
structure LogEntry where
  slot : SlotId
  queue_id : QueueId
  position : Nat
  batch_id : BatchId
  deriving DecidableEq, Repr

/-- Modelled from the spec: the body of `LocalLog::NextBatch()`
(`module/interleaver.cpp`, missing): when the queue named by the head slot has a
ready batch, the slot and the oldest ready batch of that queue are popped and
form the next entry of the log; otherwise there is none. -/
def LocalLog.NextEntry (log : LocalLog) : Option (LogEntry × LocalLog) :=
  match log.slots with
  | [] => none
  | (slot_id, queue_id) :: slots =>
    match (log.queues queue_id).ready with
    | [] => none
    | (position, batch_id) :: ready =>
      some
        ({ slot := slot_id, queue_id := queue_id, position := position, batch_id := batch_id },
          { queues := fun q =>
              if q = queue_id then { log.queues queue_id with ready := ready } else log.queues q,
            slots := slots })

/-- Modelled from the spec: `LocalLog::NextBatch()` (`module/interleaver.cpp`,
missing): the pair `(slot_id, batch_id)` of the next entry, and the log after it. -/
def LocalLog.NextBatch (log : LocalLog) : Option ((SlotId × BatchId) × LocalLog) :=
  log.NextEntry.map (fun r => ((r.1.slot, r.1.batch_id), r.2))

/-- The calls that a user of `LocalLog` can make. -/
inductive Call where
  | AddBatchId (queue_id : QueueId) (position : Nat) (batch_id : BatchId)
  | AddSlot (slot_id : SlotId) (queue_id : QueueId)
  | HasNextBatch
  | NextBatch
  deriving DecidableEq, Repr

/-- The effect of one call: the log after it and the entry it returned, if any.
A call of `NextBatch` while there is no next batch returns nothing and leaves
the log as it is. -/
def LocalLog.step (log : LocalLog) : Call → LocalLog × Option LogEntry
  | Call.AddBatchId queue_id position batch_id => (log.AddBatchId queue_id position batch_id, none)
  | Call.AddSlot slot_id queue_id => (log.AddSlot slot_id queue_id, none)
  | Call.HasNextBatch => (log, none)
  | Call.NextBatch =>
    match log.NextEntry with
    | none => (log, none)
    | some (entry, log') => (log', some entry)

/-- A sequence of calls on a log: the log after them and the entries that the
calls of `NextBatch` returned so far, in order. -/
def runFrom (start : LocalLog × List LogEntry) (calls : List Call) : LocalLog × List LogEntry :=
  calls.foldl (fun state call => ((state.1.step call).1, state.2 ++ (state.1.step call).2.toList))
    start

/-- A sequence of calls on a fresh log. -/
def run (calls : List Call) : LocalLog × List LogEntry :=
  runFrom (LocalLog.fresh, []) calls

/-- The pairs `(slot, batch_id)` that the calls of `NextBatch` returned. -/
def returned (calls : List Call) : List (SlotId × BatchId) :=
  (run calls).2.map (fun e => (e.slot, e.batch_id))

/-- The slot that a call adds, with its queue. -/
def Call.slot? : Call → Option (SlotId × QueueId)
  | Call.AddSlot slot_id queue_id => some (slot_id, queue_id)
  | _ => none

/-- The batch that a call adds to a queue, with its position. -/
def Call.batch? (queue_id : QueueId) : Call → Option (Nat × BatchId)
  | Call.AddBatchId q position batch_id => if q = queue_id then some (position, batch_id) else none
  | _ => none

/-- The slots added by a sequence of calls, each with its queue. -/
def addedSlots (calls : List Call) : List (SlotId × QueueId) :=
  calls.filterMap Call.slot?

/-- The batches added to a queue by a sequence of calls, each with its position. -/
def addedBatches (queue_id : QueueId) (calls : List Call) : List (Nat × BatchId) :=
  calls.filterMap (Call.batch? queue_id)

/-- The entries of the log that came from a queue, as batches with their position. -/
def entriesOf (queue_id : QueueId) (entries : List LogEntry) : List (Nat × BatchId) :=
  (entries.filter (fun e => decide (e.queue_id = queue_id))).map (fun e => (e.position, e.batch_id))

/-- Whether a call respects the order of the slots: a slot that is added is not
pending already and is greater than every slot returned so far. -/
def slotInOrder (state : LocalLog × List LogEntry) : Call → Bool
  | Call.AddSlot slot_id _ =>
    state.2.all (fun e => decide (e.slot < slot_id))
      && state.1.slots.all (fun x => decide (x.1 ≠ slot_id))
  | _ => true

/-- Whether every call of a sequence on a fresh log respects the order of the slots. -/
def slotsInOrder (calls : List Call) : Bool :=
  (calls.foldl
    (fun acc call =>
      (((acc.1.1.step call).1, acc.1.2 ++ (acc.1.1.step call).2.toList),
        acc.2 && slotInOrder acc.1 call))
    ((LocalLog.fresh, []), true)).2

/-- The slots of the entries of the log, each with its queue. -/
def slotsOf (entries : List LogEntry) : List (SlotId × QueueId) :=
  entries.map (fun e => (e.slot, e.queue_id))

/-- What holds of the log and of the entries returned after a sequence of calls
on a fresh log: every added slot is pending or returned, and only those; the
pending slots are in increasing order; every batch added to a queue is
returned, ready or in the reorder buffer, and only those; the batches of a
queue that are returned or ready are those of the positions below
`next_position`, in order; and no batch of the buffer is at `next_position`. -/
structure LogInvariant (calls : List Call) (state : LocalLog × List LogEntry) : Prop where
  slots_perm : (addedSlots calls).Perm (slotsOf state.2 ++ state.1.slots)
  slots_sorted : state.1.slots.Pairwise (fun a b => a.1 ≤ b.1)
  batches_perm : ∀ q, (addedBatches q calls).Perm
    (entriesOf q state.2 ++ ((state.1.queues q).ready ++ (state.1.queues q).buffer))
  contiguous : ∀ q, (entriesOf q state.2).map Prod.fst ++ ((state.1.queues q).ready).map Prod.fst
    = List.range (state.1.queues q).next_position
  released : ∀ q, ∀ e ∈ (state.1.queues q).buffer, e.1 ≠ (state.1.queues q).next_position

/-- What holds, in addition, when every call respected the order of the slots:
the pending slots are strictly increasing, every returned slot is smaller than
every pending one, and the returned slots are strictly increasing. -/
structure SlotInvariant (state : LocalLog × List LogEntry) : Prop where
  pending_strict : state.1.slots.Pairwise (fun a b => a.1 < b.1)
  returned_below : ∀ e ∈ state.2, ∀ x ∈ state.1.slots, e.slot < x.1
  returned_strict : state.2.Pairwise (fun a b => a.slot < b.slot)

/-- Modelled from the spec: the loop that drains a `LocalLog`
(`module/interleaver.cpp`, missing), as the interleaver and the unit tests run
it: while `HasNextBatch()` holds, `NextBatch()` is called and its pair is
collected.  Each round pops a slot; `rounds` bounds the number of rounds. -/
def drain : Nat → LocalLog → List (SlotId × BatchId)
  | 0, _ => []
  | rounds + 1, log =>
    if log.HasNextBatch then
      match log.NextBatch with
      | some (pair, log') => pair :: drain rounds log'
      | none => []
    else []

/-- Whether a call feeds the log: `AddBatchId` and `AddSlot`. -/
def Call.isInput : Call → Bool
  | Call.AddBatchId _ _ _ => true
  | Call.AddSlot _ _ => true
  | _ => false

/-- The queue and the position that a call of `AddBatchId` names. -/
def Call.batchKey? : Call → Option (QueueId × Nat)
  | Call.AddBatchId queue_id position _ => some (queue_id, position)
  | _ => none

/-! ## The key-value stored procedure

The class `KeyValueStoredProcedures` is declared in `benchmark/stored_procedures.h`,
which is not among the sources at hand; only its unit tests are.  It is modelled
here from the specification and from what those tests observe. -/

/-- Modelled from the spec: one command of a well-formed program of the
key-value stored procedure (`benchmark/stored_procedures.cpp`, missing, and with
it the reading of the commands out of the text of the code). -/
inductive Command where
  | SET (key : Key) (value : Value)
  | DEL (key : Key)
  deriving DecidableEq, Repr

/-- Modelled from the spec: the key that a command of the key-value stored
procedure (`benchmark/stored_procedures.cpp`, missing) names. -/
def Command.key : Command → Key
  | Command.SET key _ => key
  | Command.DEL key => key

/-- Modelled from the spec: whether a key is in the declared write set, the test
that the key-value stored procedure (`benchmark/stored_procedures.cpp`, missing)
makes before a write. -/
def isWriteKey (key : Key) (keys : List (Key × ValueEntry)) : Bool :=
  keys.any (fun e => decide (e.1 = key) && decide (e.2.type = KeyType.WRITE))

/-- Modelled from the spec: the write of a value to a key of the write set by
the key-value stored procedure (`benchmark/stored_procedures.cpp`, missing). -/
def setNewValue (key : Key) (value : Value) (keys : List (Key × ValueEntry)) :
    List (Key × ValueEntry) :=
  keys.map (fun e =>
    if e.1 = key ∧ e.2.type = KeyType.WRITE then (e.1, { e.2 with new_value := value }) else e)

/-- Modelled from the spec: the effect of one command of the key-value stored
procedure (`benchmark/stored_procedures.cpp`, missing): `SET` stores the value
and `DEL` records the key as deleted, both only for a key of the declared write
set. -/
def Command.apply (txn : Transaction) : Command → Transaction
  | Command.SET key value =>
    if isWriteKey key txn.keys then { txn with keys := setNewValue key value txn.keys } else txn
  | Command.DEL key =>
    if isWriteKey key txn.keys then { txn with deleted_keys := txn.deleted_keys ++ [key] } else txn

/-- Modelled from the spec: `KeyValueStoredProcedures::Execute`
(`benchmark/stored_procedures.cpp`, missing) on a well-formed program: the
commands run in order and the transaction is committed. -/
def Execute (program : List Command) (txn : Transaction) : Transaction :=
  { program.foldl Command.apply txn with status := TransactionStatus.COMMITTED }

/-- The keys of a transaction with their types: what the transaction declares. -/
def declaredKeys (txn : Transaction) : List (Key × KeyType) :=
  txn.keys.map (fun e => (e.1, e.2.type))

/-! ## The DDR lock manager

The classes `LockQueueTail` and `DDRLockManager` are declared in
`module/scheduler_components/ddr_lock_manager.h`; their methods are defined in
`ddr_lock_manager.cpp`, which is not among the sources at hand.  The data is
taken from the header, the methods are modelled from the description of the
lock manager in the specification. -/

/-- The class `LockQueueTail`: the tail of the lock queue of one `KeyReplica`. -/
structure LockQueueTail where
  write_lock_requester_ : Option TxnId
  read_lock_requesters_ : List TxnId
  deriving DecidableEq, Repr

/-- Modelled from the spec: `LockQueueTail::AcquireReadLock`
(`ddr_lock_manager.cpp`, missing): the transaction joins the readers of the
tail; its predecessor is the writer of the tail, if any. -/
def LockQueueTail.AcquireReadLock (tail : LockQueueTail) (txn_id : TxnId) :
    Option TxnId × LockQueueTail :=
  (tail.write_lock_requester_,
    { tail with read_lock_requesters_ := tail.read_lock_requesters_ ++ [txn_id] })

/-- Modelled from the spec: `LockQueueTail::AcquireWriteLock`
(`ddr_lock_manager.cpp`, missing): the transaction becomes the writer of a new
tail; its predecessors are the writer and the readers of the old tail. -/
def LockQueueTail.AcquireWriteLock (tail : LockQueueTail) (txn_id : TxnId) :
    List TxnId × LockQueueTail :=
  (tail.write_lock_requester_.toList ++ tail.read_lock_requesters_,
    { write_lock_requester_ := some txn_id, read_lock_requesters_ := [] })

/-- The struct `TxnInfo`. -/
structure TxnInfo where
  waited_by : List TxnId
  waiting_for_cnt : Int
  pending_parts : Int
  deriving DecidableEq, Repr

/-- The default `TxnInfo`, as the member initialisers of the struct give it. -/
instance : Inhabited TxnInfo := ⟨⟨[], 0, 0⟩⟩

/-- The method `TxnInfo::is_ready`. -/
def TxnInfo.is_ready (info : TxnInfo) : Bool :=
  info.waiting_for_cnt == 0 && info.pending_parts == 0

/-- The members of the class `DDRLockManager`: the two maps, a key without an
entry being mapped to the empty tail in `lock_table_` and to `none` in `txn_info_`. -/
structure DDRLockManager where
  lock_table_ : KeyReplica → LockQueueTail
  txn_info_ : TxnId → Option TxnInfo

/-- A lock manager with empty maps. -/
def DDRLockManager.fresh : DDRLockManager :=
  { lock_table_ := fun _ => { write_lock_requester_ := none, read_lock_requesters_ := [] },
    txn_info_ := fun _ => none }

/-- The enum `AcquireLocksResult`, without the result `ABORT`, which comes from
the remaster manager and not from the state of the lock manager. -/
inductive AcquireLocksResult where
  | ACQUIRED
  | WAITING
  deriving DecidableEq, Repr

/-- Modelled from the spec: `DDRLockManager::AcceptTransaction`
(`ddr_lock_manager.cpp`, missing): the number of parts that the transaction is
expected to have is added to `pending_parts`, which the lock-only parts that
came before have brought below zero; the result tells whether the transaction
is ready. -/
def DDRLockManager.AcceptTransaction (mgr : DDRLockManager) (txn_id : TxnId)
    (expected_num_lo : Nat) : DDRLockManager × Bool :=
  let info := (mgr.txn_info_ txn_id).getD default
  let info := { info with pending_parts := info.pending_parts + expected_num_lo }
  ({ mgr with txn_info_ := fun t => if t = txn_id then some info else mgr.txn_info_ t },
    info.is_ready)

/-- Modelled from the spec: the loop of `DDRLockManager::AcquireLocks`
(`ddr_lock_manager.cpp`, missing) over the locks to request: each lock is
requested at the tail of its `KeyReplica` and the predecessors it yields are
collected. -/
def acquireLoop (txn_id : TxnId) :
    List (KeyReplica × KeyType) → (KeyReplica → LockQueueTail) → List TxnId →
      (KeyReplica → LockQueueTail) × List TxnId
  | [], table, blocking => (table, blocking)
  | (key_replica, KeyType.READ) :: rest, table, blocking =>
    let r := (table key_replica).AcquireReadLock txn_id
    acquireLoop txn_id rest (fun k => if k = key_replica then r.2 else table k)
      (blocking ++ r.1.toList)
  | (key_replica, KeyType.WRITE) :: rest, table, blocking =>
    let r := (table key_replica).AcquireWriteLock txn_id
    acquireLoop txn_id rest (fun k => if k = key_replica then r.2 else table k)
      (blocking ++ r.1)

/-- Modelled from the spec: `DDRLockManager::AcquireLocks`
(`ddr_lock_manager.cpp`, missing) for a part of a transaction that requests the
given locks: one pending part less; the locks are requested in order; each
distinct predecessor that still has a `TxnInfo` gets the transaction into its
`waited_by`, and the transaction waits for one more. -/
def DDRLockManager.AcquireLocks (mgr : DDRLockManager) (txn_id : TxnId)
    (locks : List (KeyReplica × KeyType)) : DDRLockManager × AcquireLocksResult :=
  let info := (mgr.txn_info_ txn_id).getD default
  let info := { info with pending_parts := info.pending_parts - 1 }
  let txn_info := fun t => if t = txn_id then some info else mgr.txn_info_ t
  let r := acquireLoop txn_id locks mgr.lock_table_ []
  let blocking := r.2.dedup.filter (fun b => (txn_info b).isSome)
  let txn_info := fun t =>
    (txn_info t).map (fun i =>
      { waited_by := if t ∈ blocking then i.waited_by ++ [txn_id] else i.waited_by,
        waiting_for_cnt :=
          if t = txn_id then i.waiting_for_cnt + blocking.length else i.waiting_for_cnt,
        pending_parts := i.pending_parts })
  ({ lock_table_ := r.1, txn_info_ := txn_info },
    match txn_info txn_id with
    | some i => if i.is_ready then AcquireLocksResult.ACQUIRED else AcquireLocksResult.WAITING
    | none => AcquireLocksResult.WAITING)

/-- Modelled from the spec: `DDRLockManager::ReleaseLocks`
(`ddr_lock_manager.cpp`, missing): every transaction waits for one less for each
time it is in `waited_by` of the released one; those that became ready are
returned; the released transaction is erased from `txn_info_` and stays in the
tails. -/
def DDRLockManager.ReleaseLocks (mgr : DDRLockManager) (txn_id : TxnId) :
    DDRLockManager × List TxnId :=
  match mgr.txn_info_ txn_id with
  | none => (mgr, [])
  | some info =>
    let txn_info := fun t =>
      if t = txn_id then none
      else (mgr.txn_info_ t).map (fun i =>
        { i with waiting_for_cnt := i.waiting_for_cnt - info.waited_by.count t })
    ({ mgr with txn_info_ := txn_info },
      info.waited_by.dedup.filter (fun w =>
        match txn_info w with
        | some i => i.is_ready
        | none => false))

/-- The calls that the scheduler makes on the lock manager. -/
inductive LockCall where
  | AcceptTransaction (txn_id : TxnId) (expected_num_lo : Nat)
  | AcquireLocks (txn_id : TxnId) (locks : List (KeyReplica × KeyType))
  | ReleaseLocks (txn_id : TxnId)
  deriving DecidableEq, Repr

/-- The lock manager after one call. -/
def DDRLockManager.step (mgr : DDRLockManager) : LockCall → DDRLockManager
  | LockCall.AcceptTransaction txn_id expected_num_lo =>
    (mgr.AcceptTransaction txn_id expected_num_lo).1
  | LockCall.AcquireLocks txn_id locks => (mgr.AcquireLocks txn_id locks).1
  | LockCall.ReleaseLocks txn_id => (mgr.ReleaseLocks txn_id).1

/-- The lock manager after a sequence of calls on a fresh one. -/
def runLocks (calls : List LockCall) : DDRLockManager :=
  calls.foldl DDRLockManager.step DDRLockManager.fresh

/-- The relation `waited_by` stored in `txn_info_`: `w` is in `waited_by` of `p`. -/
def waitedBy (mgr : DDRLockManager) (p w : TxnId) : Prop :=
  ∃ info, mgr.txn_info_ p = some info ∧ w ∈ info.waited_by

/-- Whether a transaction has a `TxnInfo` that is ready. -/
def isReady (mgr : DDRLockManager) (txn_id : TxnId) : Bool :=
  match mgr.txn_info_ txn_id with
  | some info => info.is_ready
  | none => false

/-- The transactions of the calls of `AcquireLocks`, in order. -/
def acquirers (calls : List LockCall) : List TxnId :=
  calls.filterMap (fun call =>
    match call with
    | LockCall.AcquireLocks txn_id _ => some txn_id
    | _ => none)

/-- Whether the locks of every call of `AcquireLocks` are on distinct `KeyReplica`s. -/
def distinctLocks (calls : List LockCall) : Bool :=
  calls.all (fun call =>
    match call with
    | LockCall.AcquireLocks _ locks => decide (locks.map Prod.fst).Nodup
    | _ => true)

/-- The requests on a `KeyReplica` by the transactions not yet released, in the
order in which they were made: a call of `AcquireLocks` adds its requests, a
call of `ReleaseLocks` takes away those of its transaction. -/
def heldLocks (key_replica : KeyReplica) (calls : List LockCall) : List (TxnId × KeyType) :=
  calls.foldl
    (fun held call =>
      match call with
      | LockCall.AcceptTransaction _ _ => held
      | LockCall.AcquireLocks txn_id locks =>
        held ++ (locks.filter (fun l => decide (l.1 = key_replica))).map (fun l => (txn_id, l.2))
      | LockCall.ReleaseLocks txn_id => held.filter (fun e => decide (e.1 ≠ txn_id)))
    []

/-- Whether a call of `ReleaseLocks` is on a transaction that is ready, or has
no `TxnInfo`. -/
def releaseAllowed (mgr : DDRLockManager) : LockCall → Bool
  | LockCall.ReleaseLocks txn_id =>
    match mgr.txn_info_ txn_id with
    | some info => info.is_ready
    | none => true
  | _ => true

/-- Whether every call of `ReleaseLocks` of a sequence on a fresh lock manager
is on a transaction that is ready, or has no `TxnInfo`. -/
def releasesReady (calls : List LockCall) : Bool :=
  (calls.foldl (fun acc call => (acc.1.step call, acc.2 && releaseAllowed acc.1 call))
    (DDRLockManager.fresh, true)).2

/-- The transactions that a tail names. -/
def tailIds (tail : LockQueueTail) : List TxnId :=
  tail.write_lock_requester_.toList ++ tail.read_lock_requesters_

/-- What holds of the lock manager when every transaction acquires its locks in
one call, on distinct `KeyReplica`s; `order` lists the transactions in the order
of their calls of `AcquireLocks`: the tails name such transactions only, and
every transaction in a `waited_by` came later than the owner of the `waited_by`. -/
structure RankInvariant (order : List TxnId) (mgr : DDRLockManager) : Prop where
  tails : ∀ k, ∀ t ∈ tailIds (mgr.lock_table_ k), t ∈ order
  edges : ∀ p w, waitedBy mgr p w → List.indexOf p order < List.indexOf w order ∧ w ∈ order

/-- The `TxnInfo`s after the first step of `AcceptTransaction` and of
`AcquireLocks`: the transaction has a `TxnInfo`, with `pending_parts` changed. -/
def touchInfo (txn_id : TxnId) (change : Int) (infos : TxnId → Option TxnInfo) :
    TxnId → Option TxnInfo :=
  fun t =>
    if t = txn_id then
      some { (infos txn_id).getD default with
        pending_parts := ((infos txn_id).getD default).pending_parts + change }
    else infos t

/-- The distinct predecessors that still have a `TxnInfo`. -/
def livePredecessors (infos : TxnId → Option TxnInfo) (blocking : List TxnId) : List TxnId :=
  blocking.dedup.filter (fun b => (infos b).isSome)

/-- The `TxnInfo`s after the last step of `AcquireLocks`: the transaction is in
`waited_by` of its predecessors and waits for each of them. -/
def addWaits (txn_id : TxnId) (predecessors : List TxnId) (infos : TxnId → Option TxnInfo) :
    TxnId → Option TxnInfo :=
  fun t =>
    (infos t).map (fun i =>
      { waited_by := if t ∈ predecessors then i.waited_by ++ [txn_id] else i.waited_by,
        waiting_for_cnt :=
          if t = txn_id then i.waiting_for_cnt + predecessors.length else i.waiting_for_cnt,
        pending_parts := i.pending_parts })

/-- What holds of the lock manager when only ready transactions are released.
`held` lists, for each `KeyReplica`, the requests of the transactions not yet
released, in order, and `edges` the waits, as pairs of a transaction and one
that waits for it.  Every transaction with a request has a `TxnInfo`; the
`waited_by` and the `waiting_for_cnt` of the `TxnInfo`s count the waits; the
waits are between transactions with a `TxnInfo`; every request is a read among
the readers of the tail, or the write of the tail, or comes before the write of
the tail; and of two conflicting requests of different transactions, the later
transaction waits, through a chain of waits, for the earlier one. -/
structure LockInvariant (held : KeyReplica → List (TxnId × KeyType)) (mgr : DDRLockManager)
    (edges : List (TxnId × TxnId)) : Prop where
  live : ∀ k, ∀ e ∈ held k, (mgr.txn_info_ e.1).isSome = true
  waited : ∀ p info, mgr.txn_info_ p = some info →
    ∀ w, info.waited_by.count w = edges.count (p, w)
  counted : ∀ w info, mgr.txn_info_ w = some info →
    info.waiting_for_cnt = ((edges.countP (fun e => decide (e.2 = w)) : Nat) : Int)
  edges_live : ∀ e ∈ edges,
    (mgr.txn_info_ e.1).isSome = true ∧ (mgr.txn_info_ e.2).isSome = true
  covered : ∀ k, ∀ e ∈ held k,
    (e.2 = KeyType.READ ∧ e.1 ∈ (mgr.lock_table_ k).read_lock_requesters_) ∨
    ∃ w, (mgr.lock_table_ k).write_lock_requester_ = some w ∧
      (e = (w, KeyType.WRITE) ∨ [e, (w, KeyType.WRITE)].Sublist (held k))
  blocked : ∀ k x y, [x, y].Sublist (held k) → x.1 ≠ y.1 →
    (x.2 = KeyType.WRITE ∨ y.2 = KeyType.WRITE) →
    Relation.TransGen (fun a b => (a, b) ∈ edges) x.1 y.1

/-- What holds inside the loop of `AcquireLocks` of the transaction `txn_id`,
whose waits are added after the loop: as `LockInvariant`, where the transaction
waits for an earlier one also when a predecessor collected so far is the
earlier one or waits for it. -/
structure AcquireInvariant (txn_id : TxnId) (infos : TxnId → Option TxnInfo)
    (edges : List (TxnId × TxnId)) (held : KeyReplica → List (TxnId × KeyType))
    (table : KeyReplica → LockQueueTail) (blocking : List TxnId) : Prop where
  live : ∀ k, ∀ e ∈ held k, (infos e.1).isSome = true
  covered : ∀ k, ∀ e ∈ held k,
    (e.2 = KeyType.READ ∧ e.1 ∈ (table k).read_lock_requesters_) ∨
    ∃ w, (table k).write_lock_requester_ = some w ∧
      (e = (w, KeyType.WRITE) ∨ [e, (w, KeyType.WRITE)].Sublist (held k))
  pending : ∀ k x y, [x, y].Sublist (held k) → x.1 ≠ y.1 →
    (x.2 = KeyType.WRITE ∨ y.2 = KeyType.WRITE) →
    Relation.TransGen (fun a b => (a, b) ∈ edges) x.1 y.1 ∨
    (y.1 = txn_id ∧ ∃ b ∈ blocking, (infos b).isSome = true ∧
      (b = x.1 ∨ Relation.TransGen (fun a b => (a, b) ∈ edges) x.1 b))

/-! ## Sample transactions -/

/-- An entry reading a key mastered at `master`. -/
def sampleEntry (master : Nat) : ValueEntry :=
  { value := "", new_value := "", type := KeyType.READ, metadata := some ⟨master, 0⟩ }

/-- A transaction with the given id, keys, procedure and status; every other field is blank. -/
def sampleTxn (id : TxnId) (keys : List (Key × ValueEntry)) (procedure : Procedure)
    (status : TransactionStatus) : Transaction :=
  { internal :=
      { id := id, type := TransactionType.UNKNOWN, home := 0, coordinating_server := 0,
        involved_replicas := [], involved_partitions := [], active_partitions := [],
        events := [], event_times := [], event_machines := [] },
    keys := keys, procedure := procedure, status := status, abort_reason := "",
    deleted_keys := [] }

/-- A code transaction whose only key is mastered at replica `2 ^ 32 - 1`. -/
def wideMasterTxn : Transaction :=
  sampleTxn 1 [("A", sampleEntry 4294967295)] (Procedure.code "") TransactionStatus.NOT_STARTED

/-- A remaster transaction whose only key is mastered at replica `0`. -/
def remasterOneKeyTxn : Transaction :=
  sampleTxn 1 [("A", sampleEntry 0)] (Procedure.remaster 1 false) TransactionStatus.NOT_STARTED

/-- A remaster transaction without keys. -/
def remasterNoKeyTxn : Transaction :=
  sampleTxn 1 [] (Procedure.remaster 1 false) TransactionStatus.NOT_STARTED

/-- A code transaction whose only key is mastered at replica `0`. -/
def codeOneKeyTxn : Transaction :=
  sampleTxn 2 [("A", sampleEntry 0)] (Procedure.code "") TransactionStatus.COMMITTED

/-- A code transaction with two keys mastered at replica `1`. -/
def codeSameMasterTxn : Transaction :=
  sampleTxn 7 [("A", sampleEntry 1), ("B", sampleEntry 1)] (Procedure.code "")
    TransactionStatus.NOT_STARTED

/-- A code transaction with keys mastered at replicas `0` and `1`. -/
def codeTwoMastersTxn : Transaction :=
  sampleTxn 8 [("A", sampleEntry 0), ("B", sampleEntry 1)] (Procedure.code "")
    TransactionStatus.NOT_STARTED

/-- A remaster transaction with two keys mastered at replica `1`. -/
def remasterSameMasterTxn : Transaction :=
  sampleTxn 9 [("A", sampleEntry 1), ("B", sampleEntry 1)] (Procedure.remaster 0 false)
    TransactionStatus.NOT_STARTED

/-- The transaction `codeTwoMastersTxn` with another id, status, type and home,
and with its map iterating in the other order. -/
def codeTwoMastersTxnReordered : Transaction :=
  { sampleTxn 80 [("B", sampleEntry 1), ("A", sampleEntry 0)] (Procedure.code "x")
      TransactionStatus.COMMITTED with
    internal :=
      { (sampleTxn 80 [] Procedure.not_set TransactionStatus.COMMITTED).internal with
        type := TransactionType.SINGLE_HOME, home := 5 } }

/-- A transaction with id `1` that has not started. -/
def mergeTargetTxn : Transaction :=
  sampleTxn 1 [("A", sampleEntry 0)] (Procedure.code "") TransactionStatus.NOT_STARTED

/-- An aborted result carrying another id than `mergeTargetTxn`. -/
def abortedOtherIdTxn : Transaction :=
  { sampleTxn 2 [] (Procedure.code "") TransactionStatus.ABORTED with abort_reason := "stale" }

/-- An aborted result for `mergeTargetTxn`. -/
def abortedResultTxn : Transaction :=
  { sampleTxn 1 [] (Procedure.code "") TransactionStatus.ABORTED with abort_reason := "stale" }

/-- A committed result for `mergeTargetTxn`. -/
def committedResultTxn : Transaction :=
  sampleTxn 1 [("B", sampleEntry 0)] (Procedure.code "") TransactionStatus.COMMITTED

/-- A configuration with two replicas and two partitions; the key `B` lives
in partition `1` and every other key in partition `0`. -/
def sampleConfig : Configuration :=
  { num_replicas := 2, num_partitions := 2,
    partition_of_key := fun key => if key = "B" then 1 else 0 }

/-- A configuration with one replica and one partition. -/
def narrowConfig : Configuration :=
  { num_replicas := 1, num_partitions := 1, partition_of_key := fun _ => 0 }

/-- The lock-only part for replica `0` of the multi-home transaction with the
keys `A` (master `0`) and `B` (master `1`). -/
def lockOnlyAtZeroTxn : Transaction :=
  { codeTwoMastersTxn with
    internal :=
      { codeTwoMastersTxn.internal with
        type := TransactionType.MULTI_HOME_OR_LOCK_ONLY, home := 0, involved_replicas := [0, 1] } }

/-- What `GeneratePartitionedTxn` leaves of `lockOnlyAtZeroTxn` for partition
`0` of `sampleConfig`, without `in_place`. -/
def partitionedAtZero : Generated :=
  { returned := some
      { lockOnlyAtZeroTxn with
        keys := [("A", sampleEntry 0)],
        internal := { lockOnlyAtZeroTxn.internal with involved_replicas := [0] } },
    original := some lockOnlyAtZeroTxn }

/-- The multi-home transaction with the keys `A` (master `0`) and `B` (master
`1`) whose field `involved_replicas` already holds replica `5`. -/
def staleReplicasTxn : Transaction :=
  { codeTwoMastersTxn with
    internal :=
      { codeTwoMastersTxn.internal with
        type := TransactionType.MULTI_HOME_OR_LOCK_ONLY, home := -1, involved_replicas := [5] } }

/-- The keys of `GeneratePartitionedTxn(config, GenerateLockOnlyTxn(t, r), p)`,
both calls without `in_place`; a null result counts as no keys. -/
def lockOnlyPartitionKeys (REMASTER_PROTOCOL_COUNTERLESS : Bool) (config : Configuration)
    (t : Transaction) (r p : Nat) : Except Fault (List (Key × ValueEntry)) :=
  match (GenerateLockOnlyTxn REMASTER_PROTOCOL_COUNTERLESS t r false).returned with
  | none => Except.ok []
  | some lock_only_txn =>
    match GeneratePartitionedTxn config lock_only_txn p false with
    | Except.error fault => Except.error fault
    | Except.ok g =>
      match g.returned with
      | none => Except.ok []
      | some sub => Except.ok sub.keys

/-- A transaction reading `A` and writing `B`, with empty partition fields. -/
def readWriteTxn : Transaction :=
  sampleTxn 11
    [("A", sampleEntry 0),
     ("B", { value := "", new_value := "v", type := KeyType.WRITE, metadata := some ⟨0, 0⟩ })]
    (Procedure.code "") TransactionStatus.NOT_STARTED

/-- Calls in which slot `3` is added after slot `5` has been returned. -/
def lateSlotCalls : List Call :=
  [Call.AddSlot 5 7, Call.AddBatchId 7 0 100, Call.NextBatch,
   Call.AddSlot 3 7, Call.AddBatchId 7 1 200, Call.NextBatch]

/-- Calls in which slot `0` is added twice. -/
def repeatedSlotCalls : List Call :=
  [Call.AddSlot 0 7, Call.AddSlot 0 7, Call.AddBatchId 7 0 100, Call.AddBatchId 7 1 200,
   Call.NextBatch, Call.NextBatch]

/-- The calls of the unit test `LocalLogTest.MultipleNextBatches`. -/
def multipleNextBatchesCalls : List Call :=
  [Call.AddBatchId 111 0 300, Call.AddBatchId 222 0 100, Call.AddBatchId 333 0 400,
   Call.AddBatchId 333 1 200,
   Call.AddSlot 3 333, Call.AddSlot 1 333, Call.AddSlot 2 111, Call.AddSlot 0 222,
   Call.NextBatch, Call.NextBatch, Call.NextBatch, Call.NextBatch]

/-- A transaction with the key `A` (master `0`, partition `0` of `sampleConfig`)
and the key `B` (master `99`, partition `1`). -/
def farMasterTxn : Transaction :=
  sampleTxn 12 [("A", sampleEntry 0), ("B", sampleEntry 99)] (Procedure.code "")
    TransactionStatus.NOT_STARTED

/-- An entry that was read with the given value, mastered at replica `0`. -/
def valueEntry (value : Value) : ValueEntry :=
  { value := value, new_value := "", type := KeyType.READ, metadata := some ⟨0, 0⟩ }

/-- A committed result for transaction `1` that read `x` at key `A`. -/
def resultWithX : Transaction :=
  sampleTxn 1 [("A", valueEntry "x")] (Procedure.code "") TransactionStatus.COMMITTED

/-- A committed result for transaction `1` that read `y` at key `A` and `z` at key `B`. -/
def resultWithY : Transaction :=
  sampleTxn 1 [("A", valueEntry "y"), ("B", valueEntry "z")] (Procedure.code "")
    TransactionStatus.COMMITTED

/-- An entry of the write set without value and without metadata. -/
def writeEntry : ValueEntry :=
  { value := "", new_value := "", type := KeyType.WRITE, metadata := none }

/-- A transaction whose write set is `key1`. -/
def writeKey1Txn : Transaction :=
  sampleTxn 1000 [("key1", writeEntry)] (Procedure.code "") TransactionStatus.NOT_STARTED

/-- A transaction whose write set is `key1`, `key2` and `key3`. -/
def writeThreeKeysTxn : Transaction :=
  sampleTxn 1000 [("key1", writeEntry), ("key2", writeEntry), ("key3", writeEntry)]
    (Procedure.code "") TransactionStatus.NOT_STARTED

/-- The program `SET key1 value1`, `SET key2 value2`, `DEL key3`. -/
def threeCommands : List Command :=
  [Command.SET "key1" "value1", Command.SET "key2" "value2", Command.DEL "key3"]

/-- A program that sets `key1` twice, to different values. -/
def setTwice : List Command :=
  [Command.SET "key1" "value1", Command.SET "key1" "value2"]

/-- The inputs of the unit test `LocalLogTest.BatchesComeFirst`. -/
def batchesFirstCalls : List Call :=
  [Call.AddBatchId 222 0 100, Call.AddBatchId 111 0 200, Call.AddBatchId 333 0 300,
   Call.AddBatchId 333 1 400,
   Call.AddSlot 0 111, Call.AddSlot 1 333, Call.AddSlot 2 222, Call.AddSlot 3 333]

/-- The inputs of `batchesFirstCalls` with the slots first and the batches of
queue `333` out of order. -/
def slotsFirstCalls : List Call :=
  [Call.AddSlot 3 333, Call.AddSlot 2 222, Call.AddSlot 1 333, Call.AddSlot 0 111,
   Call.AddBatchId 333 1 400, Call.AddBatchId 222 0 100, Call.AddBatchId 111 0 200,
   Call.AddBatchId 333 0 300]

/-- Two multi-home transactions `1` and `2` that both write `a` at replica `0`
and `b` at replica `1`; the lock-only parts for replica `0` come in the order
`1`, `2` and those for replica `1` in the order `2`, `1`. -/
def crossingCalls : List LockCall :=
  [LockCall.AcquireLocks 1 [("a:0", KeyType.WRITE)],
   LockCall.AcquireLocks 2 [("a:0", KeyType.WRITE)],
   LockCall.AcquireLocks 2 [("b:1", KeyType.WRITE)],
   LockCall.AcquireLocks 1 [("b:1", KeyType.WRITE)],
   LockCall.AcceptTransaction 1 2, LockCall.AcceptTransaction 2 2]

/-- Three single-home transactions on the keys `a` and `b` of replica `0`; the
first one is released at the end. -/
def singleHomeCalls : List LockCall :=
  [LockCall.AcceptTransaction 1 1,
   LockCall.AcquireLocks 1 [("a:0", KeyType.WRITE), ("b:0", KeyType.READ)],
   LockCall.AcceptTransaction 2 1,
   LockCall.AcquireLocks 2 [("a:0", KeyType.WRITE)],
   LockCall.AcceptTransaction 3 1,
   LockCall.AcquireLocks 3 [("b:0", KeyType.WRITE), ("a:0", KeyType.READ)],
   LockCall.ReleaseLocks 1]

/-- Three transactions that write the same key; the second one is released
while it waits for the first one. -/
def releaseWaitingCalls : List LockCall :=
  [LockCall.AcceptTransaction 1 1, LockCall.AcquireLocks 1 [("k:0", KeyType.WRITE)],
   LockCall.AcceptTransaction 2 1, LockCall.AcquireLocks 2 [("k:0", KeyType.WRITE)],
   LockCall.AcceptTransaction 3 1, LockCall.AcquireLocks 3 [("k:0", KeyType.WRITE)],
   LockCall.ReleaseLocks 2]

/-- Two writers and a reader of the same key; the first writer is released when
it is ready. -/
def orderlyCalls : List LockCall :=
  [LockCall.AcceptTransaction 1 1, LockCall.AcquireLocks 1 [("k:0", KeyType.WRITE)],
   LockCall.AcceptTransaction 2 1, LockCall.AcquireLocks 2 [("k:0", KeyType.WRITE)],
   LockCall.AcceptTransaction 3 1, LockCall.AcquireLocks 3 [("k:0", KeyType.READ)],
   LockCall.ReleaseLocks 1]

/-- The part of a transaction on which its classification is specified to
depend: for each key, whether it carries metadata and, if so, its master. -/
def keyMetadata (txn : Transaction) : List (Key × Option Nat) :=
  txn.keys.map (fun kv => (kv.1, kv.2.metadata.map MasterMetadata.master))

/-! ## Auxiliary lemmas -/

/-- The first loop computes a conjunction over the entries. -/
theorem metadataCompleteLoop_eq (keys : List (Key × ValueEntry)) (b : Bool) :
    metadataCompleteLoop keys b = (keys.all (fun kv => kv.2.has_metadata) && b) := by
  induction keys with
  | nil => simp [metadataCompleteLoop]
  | cons kv rest ih =>
    cases h : kv.2.has_metadata <;> simp [metadataCompleteLoop, h, ih]

/-- The second loop computes a conjunction over the entries. -/
theorem singleHomeLoop_eq (home : Nat) (keys : List (Key × ValueEntry)) (b : Bool) :
    singleHomeLoop home keys b
      = (keys.all (fun kv => decide (kv.2.get_metadata.master = home)) && b) := by
  induction keys with
  | nil => simp [singleHomeLoop]
  | cons kv rest ih =>
    by_cases h : kv.2.get_metadata.master = home <;> simp [singleHomeLoop, h, ih]

/-- The flag `master_metadata_is_complete` is set exactly when the key set is
not empty and every key carries metadata. -/
theorem metadataComplete_iff (keys : List (Key × ValueEntry)) :
    metadataCompleteLoop keys (!keys.isEmpty) = true
      ↔ keys ≠ [] ∧ ∀ kv ∈ keys, kv.2.metadata.isSome = true := by
  rw [metadataCompleteLoop_eq]
  cases keys with
  | nil => simp
  | cons kv rest => simp [ValueEntry.has_metadata]

/-- The flag `master_metadata_is_complete` is cleared exactly when the key set
is empty or some key carries no metadata. -/
theorem metadataComplete_false_iff (keys : List (Key × ValueEntry)) :
    metadataCompleteLoop keys (!keys.isEmpty) = false
      ↔ keys = [] ∨ ∃ kv ∈ keys, kv.2.metadata = none := by
  rw [← Bool.not_eq_true, metadataComplete_iff]
  constructor
  · intro h
    by_cases hk : keys = []
    · exact Or.inl hk
    · right
      by_contra hc
      apply h
      refine ⟨hk, fun kv hkv => ?_⟩
      cases hm : kv.2.metadata with
      | none => exact absurd ⟨kv, hkv, hm⟩ hc
      | some md => rfl
  · rintro (hk | ⟨kv, hkv, hm⟩) ⟨hne, hall⟩
    · exact hne hk
    · have := hall kv hkv
      rw [hm] at this
      exact absurd this (by decide)

/-- What `SetTransactionType` does when the metadata are not complete. -/
theorem SetTransactionType_incomplete (c : Bool) (txn : Transaction)
    (h : metadataCompleteLoop txn.keys (!txn.keys.isEmpty) = false) :
    SetTransactionType c txn
      = (TransactionType.UNKNOWN,
          { txn with internal := { txn.internal with type := TransactionType.UNKNOWN } }) := by
  simp [SetTransactionType, h]

/-- What `SetTransactionType` does when the metadata are complete, every key
has the master of the first one and the remaster rule does not apply. -/
theorem SetTransactionType_single (c : Bool) (txn : Transaction)
    (h : metadataCompleteLoop txn.keys (!txn.keys.isEmpty) = true)
    (hs : txn.keys.all
      (fun kv => decide (kv.2.get_metadata.master = (beginEntry txn.keys).get_metadata.master)) = true)
    (hc : (c && txn.procedure.is_remaster) = false) :
    SetTransactionType c txn
      = (TransactionType.SINGLE_HOME,
          { txn with internal :=
              { txn.internal with
                  type := TransactionType.SINGLE_HOME,
                  home := toInt32 (beginEntry txn.keys).get_metadata.master } }) := by
  unfold SetTransactionType
  simp only [h, singleHomeLoop_eq, hs, hc]
  rfl

/-- What `SetTransactionType` does when the metadata are complete and either
some key has another master than the first one or the remaster rule applies. -/
theorem SetTransactionType_multi (c : Bool) (txn : Transaction)
    (h : metadataCompleteLoop txn.keys (!txn.keys.isEmpty) = true)
    (hm : txn.keys.all
        (fun kv => decide (kv.2.get_metadata.master = (beginEntry txn.keys).get_metadata.master)) = false
      ∨ (c && txn.procedure.is_remaster) = true) :
    SetTransactionType c txn
      = (TransactionType.MULTI_HOME_OR_LOCK_ONLY,
          { txn with internal :=
              { txn.internal with
                  type := TransactionType.MULTI_HOME_OR_LOCK_ONLY, home := -1 } }) := by
  unfold SetTransactionType
  rcases hm with hm | hm
  · cases hc : (c && txn.procedure.is_remaster)
    · simp only [h, singleHomeLoop_eq, hm, hc]
      rfl
    · simp only [h, singleHomeLoop_eq, hm, hc]
      rfl
  · simp only [h, singleHomeLoop_eq, hm]
    rfl

/-- The first entry of a non-empty map is one of its entries. -/
theorem beginEntry_mem (keys : List (Key × ValueEntry)) (hne : keys ≠ []) :
    ∃ kv ∈ keys, beginEntry keys = kv.2 := by
  cases keys with
  | nil => exact absurd rfl hne
  | cons kv rest => exact ⟨kv, List.mem_cons_self _ _, rfl⟩

/-- `SetTransactionType` touches neither the keys nor the procedure. -/
theorem SetTransactionType_keys_procedure (c : Bool) (txn : Transaction) :
    (SetTransactionType c txn).2.keys = txn.keys
      ∧ (SetTransactionType c txn).2.procedure = txn.procedure := by
  cases h : metadataCompleteLoop txn.keys (!txn.keys.isEmpty)
  · rw [SetTransactionType_incomplete c txn h]
    exact ⟨rfl, rfl⟩
  · cases hs : txn.keys.all
        (fun kv => decide (kv.2.get_metadata.master = (beginEntry txn.keys).get_metadata.master))
    · rw [SetTransactionType_multi c txn h (Or.inl hs)]
      exact ⟨rfl, rfl⟩
    · cases hc : (c && txn.procedure.is_remaster)
      · rw [SetTransactionType_single c txn h hs hc]
        exact ⟨rfl, rfl⟩
      · rw [SetTransactionType_multi c txn h (Or.inr hc)]
        exact ⟨rfl, rfl⟩

/-- When every key carries metadata with master `m`, the second loop keeps
`is_single_home` set and the first entry has master `m`. -/
theorem same_master_all (keys : List (Key × ValueEntry)) (m : Nat) (hne : keys ≠ [])
    (hall : ∀ kv ∈ keys, kv.2.metadata.map MasterMetadata.master = some m) :
    (beginEntry keys).get_metadata.master = m
      ∧ keys.all
          (fun kv => decide (kv.2.get_metadata.master = (beginEntry keys).get_metadata.master))
        = true := by
  have hm : ∀ kv ∈ keys, kv.2.get_metadata.master = m := by
    intro kv hkv
    have := hall kv hkv
    cases hmd : kv.2.metadata with
    | none => rw [hmd] at this; exact absurd this (by simp)
    | some md =>
      rw [hmd] at this
      simp only [Option.map_some', Option.some.injEq] at this
      simp [ValueEntry.get_metadata, hmd, this]
  obtain ⟨kv0, hkv0, hb⟩ := beginEntry_mem keys hne
  have hb0 : (beginEntry keys).get_metadata.master = m := by rw [hb]; exact hm kv0 hkv0
  refine ⟨hb0, ?_⟩
  rw [List.all_eq_true]
  intro kv hkv
  rw [hb0]
  exact decide_eq_true (hm kv hkv)

/-- Two entries with different masters clear `is_single_home` in the second loop. -/
theorem distinct_masters_not_all (keys : List (Key × ValueEntry)) (home : Nat)
    (hdist : ∃ kv1 ∈ keys, ∃ kv2 ∈ keys,
      kv1.2.get_metadata.master ≠ kv2.2.get_metadata.master) :
    keys.all (fun kv => decide (kv.2.get_metadata.master = home)) = false := by
  obtain ⟨kv1, h1, kv2, h2, hne⟩ := hdist
  rw [← Bool.not_eq_true, List.all_eq_true]
  intro hall
  have e1 := of_decide_eq_true (hall kv1 h1)
  have e2 := of_decide_eq_true (hall kv2 h2)
  exact hne (e1.trans e2.symm)

/-- Below `2 ^ 31` the narrowing to `int32` keeps the value. -/
theorem toInt32_of_lt (n : Nat) (h : n < 2 ^ 31) : toInt32 n = (n : Int) := by
  have h32 : n % 2 ^ 32 = n := Nat.mod_eq_of_lt (by omega)
  unfold toInt32
  rw [h32, if_pos h]

/-- A property of the per-key metadata holds for every entry of `keyMetadata`
exactly when it holds for every key of the transaction. -/
theorem forall_keyMetadata (txn : Transaction) (P : Option Nat → Prop) :
    (∀ e ∈ keyMetadata txn, P e.2)
      ↔ ∀ kv ∈ txn.keys, P (kv.2.metadata.map MasterMetadata.master) := by
  simp only [keyMetadata, List.mem_map]
  constructor
  · intro h kv hkv
    exact h _ ⟨kv, hkv, rfl⟩
  · rintro h e ⟨kv, hkv, rfl⟩
    exact h kv hkv

/-- Two transactions whose per-key metadata agree satisfy the same properties of them. -/
theorem forall_keys_of_perm (t1 t2 : Transaction) (hperm : (keyMetadata t1).Perm (keyMetadata t2))
    (P : Option Nat → Prop)
    (h : ∀ kv ∈ t1.keys, P (kv.2.metadata.map MasterMetadata.master)) :
    ∀ kv ∈ t2.keys, P (kv.2.metadata.map MasterMetadata.master) := by
  rw [← forall_keyMetadata] at h ⊢
  intro e he
  exact h e (hperm.mem_iff.mpr he)

/-- Two transactions whose per-key metadata agree are both without keys or both with keys. -/
theorem keys_ne_nil_of_perm (t1 t2 : Transaction) (hperm : (keyMetadata t1).Perm (keyMetadata t2))
    (h : t1.keys ≠ []) : t2.keys ≠ [] := by
  intro h2
  have hl := hperm.length_eq
  simp only [keyMetadata, List.length_map, h2, List.length_nil] at hl
  exact h (List.length_eq_zero.mp hl)

/-- The flag `master_metadata_is_complete` depends only on the per-key metadata. -/
theorem metadataComplete_of_perm (t1 t2 : Transaction)
    (hperm : (keyMetadata t1).Perm (keyMetadata t2))
    (h : metadataCompleteLoop t1.keys (!t1.keys.isEmpty) = true) :
    metadataCompleteLoop t2.keys (!t2.keys.isEmpty) = true := by
  rw [metadataComplete_iff] at h ⊢
  refine ⟨keys_ne_nil_of_perm t1 t2 hperm h.1, ?_⟩
  have h1 : ∀ kv ∈ t1.keys, (kv.2.metadata.map MasterMetadata.master).isSome = true := by
    intro kv hkv
    have := h.2 kv hkv
    simpa using this
  intro kv hkv
  have := forall_keys_of_perm t1 t2 hperm (fun o => o.isSome = true) h1 kv hkv
  simpa using this

/-- With complete metadata the second loop keeps `is_single_home` set exactly
when all keys carry one and the same master. -/
theorem singleHome_iff_exists (keys : List (Key × ValueEntry))
    (hc : metadataCompleteLoop keys (!keys.isEmpty) = true) :
    keys.all (fun kv => decide (kv.2.get_metadata.master = (beginEntry keys).get_metadata.master))
        = true
      ↔ ∃ m, ∀ kv ∈ keys, kv.2.metadata.map MasterMetadata.master = some m := by
  rw [metadataComplete_iff] at hc
  constructor
  · intro h
    refine ⟨(beginEntry keys).get_metadata.master, fun kv hkv => ?_⟩
    have hm := of_decide_eq_true (List.all_eq_true.mp h kv hkv)
    have hs := hc.2 kv hkv
    cases hmd : kv.2.metadata with
    | none => rw [hmd] at hs; exact absurd hs (by decide)
    | some md =>
      have e : kv.2.get_metadata.master = md.master := by simp [ValueEntry.get_metadata, hmd]
      rw [e] at hm
      simp [hm]
  · rintro ⟨m, hm⟩
    exact (same_master_all keys m hc.1 hm).2

/-! ## Classification of transactions -/

/-- C5, as stated, fails on the code.  A code transaction whose only key is
mastered at replica `2 ^ 32 - 1` is classified `SINGLE_HOME` with `home = -1`,
not `4294967295`, in either build; and in the counterless build a remaster
transaction whose only key is mastered at replica `0` is classified
`MULTI_HOME_OR_LOCK_ONLY`. -/
theorem setTransactionType_single_home_counterexample :
    (wideMasterTxn.keys ≠ []
      ∧ (∀ kv ∈ wideMasterTxn.keys,
          kv.2.metadata.map MasterMetadata.master = some 4294967295)
      ∧ (∀ c : Bool,
          (SetTransactionType c wideMasterTxn).1 = TransactionType.SINGLE_HOME
            ∧ (SetTransactionType c wideMasterTxn).2.internal.home = -1))
    ∧ (remasterOneKeyTxn.keys ≠ []
      ∧ (∀ kv ∈ remasterOneKeyTxn.keys, kv.2.metadata.map MasterMetadata.master = some 0)
      ∧ (SetTransactionType true remasterOneKeyTxn).1
          = TransactionType.MULTI_HOME_OR_LOCK_ONLY) := by
  refine ⟨⟨by decide, by decide, ?_⟩, by decide, by decide, by decide⟩
  intro c
  cases c <;> exact ⟨by decide, by decide⟩

/-- C5, amended.  Single-home classification: for every transaction with a
non-empty key set in which every key carries metadata and all keys have the
same master `m`, and which is not a remaster transaction in the counterless
build, `SetTransactionType` returns `SINGLE_HOME`, stores `type = SINGLE_HOME`,
sets `home` to `m` narrowed to `int32` and changes nothing else; `home` is `m`
itself whenever `m < 2 ^ 31`. -/
theorem setTransactionType_single_home (c : Bool) (txn : Transaction) (m : Nat)
    (hne : txn.keys ≠ [])
    (hall : ∀ kv ∈ txn.keys, kv.2.metadata.map MasterMetadata.master = some m)
    (hproc : c = true → txn.procedure.is_remaster = false) :
    (SetTransactionType c txn).1 = TransactionType.SINGLE_HOME
      ∧ (SetTransactionType c txn).2
          = { txn with internal :=
                { txn.internal with type := TransactionType.SINGLE_HOME, home := toInt32 m } }
      ∧ (m < 2 ^ 31 → (SetTransactionType c txn).2.internal.home = (m : Int)) := by
  have hcomplete : metadataCompleteLoop txn.keys (!txn.keys.isEmpty) = true := by
    rw [metadataComplete_iff]
    refine ⟨hne, fun kv hkv => ?_⟩
    have := hall kv hkv
    cases hmd : kv.2.metadata with
    | none => rw [hmd] at this; exact absurd this (by simp)
    | some md => rfl
  obtain ⟨hb, hs⟩ := same_master_all txn.keys m hne hall
  have hc : (c && txn.procedure.is_remaster) = false := by
    cases c
    · rfl
    · simp [hproc rfl]
  rw [SetTransactionType_single c txn hcomplete hs hc, hb]
  refine ⟨rfl, rfl, fun hm => ?_⟩
  exact toInt32_of_lt m hm

/-- The amended C5 at a code transaction with two keys mastered at replica `1`,
in the counterless build. -/
theorem setTransactionType_single_home_witness :
    (SetTransactionType true codeSameMasterTxn).1 = TransactionType.SINGLE_HOME
      ∧ (SetTransactionType true codeSameMasterTxn).2
          = { codeSameMasterTxn with internal :=
                { codeSameMasterTxn.internal with
                    type := TransactionType.SINGLE_HOME, home := toInt32 1 } }
      ∧ ((1 : Nat) < 2 ^ 31 → (SetTransactionType true codeSameMasterTxn).2.internal.home = 1) :=
  setTransactionType_single_home true codeSameMasterTxn 1 (by decide) (by decide) (by decide)

/-- C6.  Multi-home classification: for every transaction in which every key
carries metadata and the keys have at least two distinct masters,
`SetTransactionType` returns `MULTI_HOME_OR_LOCK_ONLY`, stores that type and
sets `home = -1`, in either build and changing nothing else. -/
theorem setTransactionType_multi_home (c : Bool) (txn : Transaction)
    (hall : ∀ kv ∈ txn.keys, kv.2.metadata.isSome = true)
    (hdist : ∃ kv1 ∈ txn.keys, ∃ kv2 ∈ txn.keys,
      kv1.2.get_metadata.master ≠ kv2.2.get_metadata.master) :
    (SetTransactionType c txn).1 = TransactionType.MULTI_HOME_OR_LOCK_ONLY
      ∧ (SetTransactionType c txn).2
          = { txn with internal :=
                { txn.internal with
                    type := TransactionType.MULTI_HOME_OR_LOCK_ONLY, home := -1 } } := by
  have hne : txn.keys ≠ [] := by
    obtain ⟨kv1, h1, _⟩ := hdist
    exact List.ne_nil_of_mem h1
  have hcomplete : metadataCompleteLoop txn.keys (!txn.keys.isEmpty) = true :=
    (metadataComplete_iff txn.keys).mpr ⟨hne, hall⟩
  rw [SetTransactionType_multi c txn hcomplete
    (Or.inl (distinct_masters_not_all txn.keys _ hdist))]
  exact ⟨rfl, rfl⟩

/-- C6 at a code transaction with keys mastered at replicas `0` and `1`. -/
theorem setTransactionType_multi_home_witness :
    (SetTransactionType false codeTwoMastersTxn).1 = TransactionType.MULTI_HOME_OR_LOCK_ONLY
      ∧ (SetTransactionType false codeTwoMastersTxn).2
          = { codeTwoMastersTxn with internal :=
                { codeTwoMastersTxn.internal with
                    type := TransactionType.MULTI_HOME_OR_LOCK_ONLY, home := -1 } } :=
  setTransactionType_multi_home false codeTwoMastersTxn (by decide)
    ⟨("A", sampleEntry 0), by decide, ("B", sampleEntry 1), by decide, by decide⟩

/-- C7, as stated, fails on the code.  A remaster transaction without keys
(all of whose keys, vacuously, carry metadata) is classified `UNKNOWN` in
either build; and in the build without `REMASTER_PROTOCOL_COUNTERLESS` a
remaster transaction whose only key is mastered at replica `0` is classified
`SINGLE_HOME` with `home = 0`. -/
theorem setTransactionType_remaster_counterexample :
    (remasterNoKeyTxn.procedure.is_remaster = true
      ∧ (∀ kv ∈ remasterNoKeyTxn.keys, kv.2.metadata.isSome = true)
      ∧ (∀ c : Bool, (SetTransactionType c remasterNoKeyTxn).1 = TransactionType.UNKNOWN))
    ∧ (remasterOneKeyTxn.procedure.is_remaster = true
      ∧ (∀ kv ∈ remasterOneKeyTxn.keys, kv.2.metadata.isSome = true)
      ∧ (SetTransactionType false remasterOneKeyTxn).1 = TransactionType.SINGLE_HOME
      ∧ (SetTransactionType false remasterOneKeyTxn).2.internal.home = 0) := by
  refine ⟨⟨by decide, by decide, ?_⟩, by decide, by decide, by decide, by decide⟩
  intro c
  cases c <;> decide

/-- C7, amended.  In the build with `REMASTER_PROTOCOL_COUNTERLESS`, every
remaster transaction with a non-empty key set whose keys all carry metadata
is classified `MULTI_HOME_OR_LOCK_ONLY` with `home = -1` by
`SetTransactionType`, also when all its keys share a single master. -/
theorem setTransactionType_remaster (txn : Transaction)
    (hrem : txn.procedure.is_remaster = true)
    (hne : txn.keys ≠ [])
    (hall : ∀ kv ∈ txn.keys, kv.2.metadata.isSome = true) :
    (SetTransactionType true txn).1 = TransactionType.MULTI_HOME_OR_LOCK_ONLY
      ∧ (SetTransactionType true txn).2
          = { txn with internal :=
                { txn.internal with
                    type := TransactionType.MULTI_HOME_OR_LOCK_ONLY, home := -1 } } := by
  have hcomplete : metadataCompleteLoop txn.keys (!txn.keys.isEmpty) = true :=
    (metadataComplete_iff txn.keys).mpr ⟨hne, hall⟩
  rw [SetTransactionType_multi true txn hcomplete (Or.inr (by simp [hrem]))]
  exact ⟨rfl, rfl⟩

/-- The amended C7 at a remaster transaction with two keys mastered at replica `1`. -/
theorem setTransactionType_remaster_witness :
    (SetTransactionType true remasterSameMasterTxn).1 = TransactionType.MULTI_HOME_OR_LOCK_ONLY
      ∧ (SetTransactionType true remasterSameMasterTxn).2
          = { remasterSameMasterTxn with internal :=
                { remasterSameMasterTxn.internal with
                    type := TransactionType.MULTI_HOME_OR_LOCK_ONLY, home := -1 } } :=
  setTransactionType_remaster remasterSameMasterTxn (by decide) (by decide) (by decide)

/-- C8.  `SetTransactionType` is idempotent: applying it a second time returns
the same type and leaves exactly the same transaction as applying it once,
in either build. -/
theorem setTransactionType_idempotent (c : Bool) (txn : Transaction) :
    SetTransactionType c (SetTransactionType c txn).2 = SetTransactionType c txn := by
  cases h : metadataCompleteLoop txn.keys (!txn.keys.isEmpty)
  · rw [SetTransactionType_incomplete c txn h]
    exact SetTransactionType_incomplete c _ h
  · cases hs : txn.keys.all
        (fun kv => decide (kv.2.get_metadata.master = (beginEntry txn.keys).get_metadata.master))
    · rw [SetTransactionType_multi c txn h (Or.inl hs)]
      exact SetTransactionType_multi c _ h (Or.inl hs)
    · cases hc : (c && txn.procedure.is_remaster)
      · rw [SetTransactionType_single c txn h hs hc]
        exact SetTransactionType_single c _ h hs hc
      · rw [SetTransactionType_multi c txn h (Or.inr hc)]
        exact SetTransactionType_multi c _ h (Or.inr hc)

/-- C9, as stated, fails on the code.  In the counterless build a code
transaction and a remaster transaction with the same single key, mastered at
replica `0`, get different types: `SINGLE_HOME` and `MULTI_HOME_OR_LOCK_ONLY`. -/
theorem setTransactionType_depends_on_procedure_counterexample :
    keyMetadata codeOneKeyTxn = keyMetadata remasterOneKeyTxn
      ∧ (SetTransactionType true codeOneKeyTxn).1 = TransactionType.SINGLE_HOME
      ∧ (SetTransactionType true remasterOneKeyTxn).1 = TransactionType.MULTI_HOME_OR_LOCK_ONLY
      ∧ (SetTransactionType true codeOneKeyTxn).1 ≠ (SetTransactionType true remasterOneKeyTxn).1 := by
  refine ⟨by decide, by decide, by decide, by decide⟩

/-- C9, amended.  For every two transactions whose key sets and per-key
metadata (presence and master) agree, whatever the order in which their maps
iterate, and which, in the counterless build, are both remaster transactions
or both not, `SetTransactionType` returns the same type and, when that type is
not `UNKNOWN`, sets the same home, whatever their status, id, previous type
and home, and the rest of their procedure. -/
theorem setTransactionType_depends_on_key_metadata (c : Bool) (t1 t2 : Transaction)
    (hperm : (keyMetadata t1).Perm (keyMetadata t2))
    (hproc : c = true → t1.procedure.is_remaster = t2.procedure.is_remaster) :
    (SetTransactionType c t1).1 = (SetTransactionType c t2).1
      ∧ ((SetTransactionType c t1).1 ≠ TransactionType.UNKNOWN →
          (SetTransactionType c t1).2.internal.home = (SetTransactionType c t2).2.internal.home) := by
  have hc : (c && t1.procedure.is_remaster) = (c && t2.procedure.is_remaster) := by
    cases c
    · rfl
    · simp [hproc rfl]
  cases h1 : metadataCompleteLoop t1.keys (!t1.keys.isEmpty)
  · have h2 : metadataCompleteLoop t2.keys (!t2.keys.isEmpty) = false := by
      cases h2 : metadataCompleteLoop t2.keys (!t2.keys.isEmpty)
      · rfl
      · rw [metadataComplete_of_perm t2 t1 hperm.symm h2] at h1
        exact absurd h1 (by decide)
    rw [SetTransactionType_incomplete c t1 h1, SetTransactionType_incomplete c t2 h2]
    exact ⟨rfl, fun hne => absurd rfl hne⟩
  · have h2 := metadataComplete_of_perm t1 t2 hperm h1
    cases hs1 : t1.keys.all
        (fun kv => decide (kv.2.get_metadata.master = (beginEntry t1.keys).get_metadata.master))
    · have hs2 : t2.keys.all
          (fun kv => decide (kv.2.get_metadata.master = (beginEntry t2.keys).get_metadata.master))
          = false := by
        rw [← Bool.not_eq_true, singleHome_iff_exists t2.keys h2]
        rintro ⟨m, hm⟩
        have : t1.keys.all
            (fun kv => decide (kv.2.get_metadata.master = (beginEntry t1.keys).get_metadata.master))
            = true :=
          (singleHome_iff_exists t1.keys h1).mpr
            ⟨m, forall_keys_of_perm t2 t1 hperm.symm (fun o => o = some m) hm⟩
        rw [hs1] at this
        exact absurd this (by decide)
      rw [SetTransactionType_multi c t1 h1 (Or.inl hs1),
        SetTransactionType_multi c t2 h2 (Or.inl hs2)]
      exact ⟨rfl, fun _ => rfl⟩
    · obtain ⟨m, hm1⟩ := (singleHome_iff_exists t1.keys h1).mp hs1
      have hm2 := forall_keys_of_perm t1 t2 hperm (fun o => o = some m) hm1
      have hne1 := ((metadataComplete_iff t1.keys).mp h1).1
      have hne2 := ((metadataComplete_iff t2.keys).mp h2).1
      obtain ⟨hb1, _⟩ := same_master_all t1.keys m hne1 hm1
      obtain ⟨hb2, hs2⟩ := same_master_all t2.keys m hne2 hm2
      cases hc1 : (c && t1.procedure.is_remaster)
      · rw [SetTransactionType_single c t1 h1 hs1 hc1,
          SetTransactionType_single c t2 h2 hs2 (hc ▸ hc1), hb1, hb2]
        exact ⟨rfl, fun _ => rfl⟩
      · rw [SetTransactionType_multi c t1 h1 (Or.inr hc1),
          SetTransactionType_multi c t2 h2 (Or.inr (hc ▸ hc1))]
        exact ⟨rfl, fun _ => rfl⟩

/-- The amended C9 in the counterless build, at two code transactions with the
keys `A` (master `0`) and `B` (master `1`) that differ in id, code, status,
previous type and home, and in the order in which their maps iterate. -/
theorem setTransactionType_depends_on_key_metadata_witness :
    (SetTransactionType true codeTwoMastersTxn).1
        = (SetTransactionType true codeTwoMastersTxnReordered).1
      ∧ ((SetTransactionType true codeTwoMastersTxn).1 ≠ TransactionType.UNKNOWN →
          (SetTransactionType true codeTwoMastersTxn).2.internal.home
            = (SetTransactionType true codeTwoMastersTxnReordered).2.internal.home) :=
  setTransactionType_depends_on_key_metadata true codeTwoMastersTxn codeTwoMastersTxnReordered
    (List.Perm.swap _ _ _) (by decide)

/-- C10.  `SetTransactionType` returns `UNKNOWN` if and only if the key set is
empty or at least one key has no metadata; in that case it sets
`type = UNKNOWN` and changes no other field of the transaction, so `home`
keeps its previous value.  This holds in either build. -/
theorem setTransactionType_unknown_iff (c : Bool) (txn : Transaction) :
    ((SetTransactionType c txn).1 = TransactionType.UNKNOWN
        ↔ (txn.keys = [] ∨ ∃ kv ∈ txn.keys, kv.2.metadata = none))
      ∧ ((SetTransactionType c txn).1 = TransactionType.UNKNOWN →
          (SetTransactionType c txn).2
              = { txn with internal := { txn.internal with type := TransactionType.UNKNOWN } }
            ∧ (SetTransactionType c txn).2.internal.home = txn.internal.home) := by
  rw [← metadataComplete_false_iff]
  cases h : metadataCompleteLoop txn.keys (!txn.keys.isEmpty)
  · rw [SetTransactionType_incomplete c txn h]
    exact ⟨⟨fun _ => rfl, fun _ => rfl⟩, fun _ => ⟨rfl, rfl⟩⟩
  · cases hs : txn.keys.all
        (fun kv => decide (kv.2.get_metadata.master = (beginEntry txn.keys).get_metadata.master))
    · rw [SetTransactionType_multi c txn h (Or.inl hs)]
      exact ⟨⟨fun e => (by cases e), fun e => (by cases e)⟩, fun e => (by cases e)⟩
    · cases hc : (c && txn.procedure.is_remaster)
      · rw [SetTransactionType_single c txn h hs hc]
        exact ⟨⟨fun e => (by cases e), fun e => (by cases e)⟩, fun e => (by cases e)⟩
      · rw [SetTransactionType_multi c txn h (Or.inr hc)]
        exact ⟨⟨fun e => (by cases e), fun e => (by cases e)⟩, fun e => (by cases e)⟩

/-! ## Merging the results of a transaction -/

/-- With equal ids and types `MergeTransaction` returns; the result keeps the id
and the type of `txn` and is aborted exactly when `txn` or `other` is. -/
theorem MergeTransaction_ok (txn other : Transaction)
    (hid : txn.internal.id = other.internal.id)
    (hty : txn.internal.type = other.internal.type) :
    ∃ r, MergeTransaction txn other = Except.ok r
      ∧ r.internal.id = txn.internal.id
      ∧ r.internal.type = txn.internal.type
      ∧ r.status = (if other.status = TransactionStatus.ABORTED then TransactionStatus.ABORTED
          else txn.status)
      ∧ (other.status = TransactionStatus.ABORTED → r.abort_reason = other.abort_reason) := by
  unfold MergeTransaction
  rw [if_neg (not_not.mpr hid), if_neg (not_not.mpr hty)]
  by_cases hb : other.status = TransactionStatus.ABORTED
  · simp only [if_pos hb]
    exact ⟨_, rfl, rfl, rfl, rfl, fun _ => rfl⟩
  · by_cases ha : txn.status = TransactionStatus.ABORTED
    · simp only [if_neg hb, if_neg (not_not.mpr ha)]
      exact ⟨_, rfl, rfl, rfl, rfl, fun h => absurd h hb⟩
    · simp only [if_neg hb, if_pos ha]
      exact ⟨_, rfl, rfl, rfl, rfl, fun h => absurd h hb⟩

/-- Folding `MergeTransaction` over results that share the id and type of `txn`
returns, and the result is aborted exactly when `txn` or one of them is. -/
theorem mergeAll_ok (others : List Transaction) :
    ∀ txn : Transaction,
      (∀ b ∈ others, b.internal.id = txn.internal.id ∧ b.internal.type = txn.internal.type) →
      ∃ r, mergeAll txn others = Except.ok r
        ∧ r.status = (if txn.status = TransactionStatus.ABORTED
              ∨ (∃ b ∈ others, b.status = TransactionStatus.ABORTED)
            then TransactionStatus.ABORTED else txn.status) := by
  induction others with
  | nil =>
    intro txn _
    refine ⟨txn, rfl, ?_⟩
    by_cases ha : txn.status = TransactionStatus.ABORTED <;> simp [ha]
  | cons b rest ih =>
    intro txn hshare
    have hb := hshare b (List.mem_cons_self _ _)
    obtain ⟨r1, hr1, hid1, hty1, hst1, _⟩ := MergeTransaction_ok txn b hb.1.symm hb.2.symm
    obtain ⟨r, hr, hst⟩ := ih r1 (fun x hx => by
      rw [hid1, hty1]
      exact hshare x (List.mem_cons_of_mem _ hx))
    refine ⟨r, ?_, ?_⟩
    · simp only [mergeAll, List.foldlM_cons, hr1]
      exact hr
    · rw [hst, hst1]
      by_cases hba : b.status = TransactionStatus.ABORTED
      · simp [hba]
      · simp [hba]

/-- C2, as stated, fails on the code.  Merging an aborted result with id `2`
into a transaction with id `1` that has not started throws and leaves the
transaction as it was, so it does not end up aborted. -/
theorem mergeTransaction_aborted_counterexample :
    abortedOtherIdTxn.status = TransactionStatus.ABORTED
      ∧ MergeTransaction mergeTargetTxn abortedOtherIdTxn
          = Except.error (MergeError.different_ids 1 2)
      ∧ mergeTargetTxn.status = TransactionStatus.NOT_STARTED
      ∧ ¬ ∃ r, MergeTransaction mergeTargetTxn abortedOtherIdTxn = Except.ok r
          ∧ r.status = TransactionStatus.ABORTED := by
  have h : MergeTransaction mergeTargetTxn abortedOtherIdTxn
      = Except.error (MergeError.different_ids 1 2) := rfl
  refine ⟨rfl, h, rfl, ?_⟩
  rintro ⟨r, hr, -⟩
  rw [h] at hr
  cases hr

/-- C2, amended.  For every pair of transactions `a` and `b` with the same id
and the same type and with `status(b) = ABORTED`, `MergeTransaction(a, b)`
returns and leaves `a` with status `ABORTED`, whatever the status of `a`, and
the abort reason of `a` becomes that of `b`. -/
theorem mergeTransaction_aborted (a b : Transaction)
    (hid : a.internal.id = b.internal.id)
    (hty : a.internal.type = b.internal.type)
    (hb : b.status = TransactionStatus.ABORTED) :
    ∃ r, MergeTransaction a b = Except.ok r
      ∧ r.status = TransactionStatus.ABORTED
      ∧ r.abort_reason = b.abort_reason := by
  obtain ⟨r, hr, _, _, hst, hreason⟩ := MergeTransaction_ok a b hid hty
  refine ⟨r, hr, ?_, hreason hb⟩
  rw [hst, if_pos hb]

/-- The amended C2 at a transaction that has not started and an aborted result for it. -/
theorem mergeTransaction_aborted_witness :
    ∃ r, MergeTransaction mergeTargetTxn abortedResultTxn = Except.ok r
      ∧ r.status = TransactionStatus.ABORTED
      ∧ r.abort_reason = abortedResultTxn.abort_reason :=
  mergeTransaction_aborted mergeTargetTxn abortedResultTxn rfl rfl rfl

/-- C3.  Abort is sticky across merges: for every transaction `a` and every
list `bs` of results that share the id and type of `a`, folding
`MergeTransaction` over `bs` in any order `bs'` returns; the final status is
`ABORTED` if `a` or at least one element of `bs` is `ABORTED`, and it is the
initial status of `a` if none is. -/
theorem mergeAll_abort_sticky (a : Transaction) (bs bs' : List Transaction)
    (hshare : ∀ b ∈ bs, b.internal.id = a.internal.id ∧ b.internal.type = a.internal.type)
    (hperm : bs'.Perm bs) :
    ∃ r, mergeAll a bs' = Except.ok r
      ∧ ((a.status = TransactionStatus.ABORTED
            ∨ ∃ b ∈ bs, b.status = TransactionStatus.ABORTED) →
          r.status = TransactionStatus.ABORTED)
      ∧ ((a.status ≠ TransactionStatus.ABORTED
            ∧ ∀ b ∈ bs, b.status ≠ TransactionStatus.ABORTED) →
          r.status = a.status) := by
  obtain ⟨r, hr, hst⟩ := mergeAll_ok bs' a (fun b hb => hshare b (hperm.mem_iff.mp hb))
  refine ⟨r, hr, ?_, ?_⟩
  · intro h
    rw [hst, if_pos]
    rcases h with ha | ⟨b, hb, hab⟩
    · exact Or.inl ha
    · exact Or.inr ⟨b, hperm.mem_iff.mpr hb, hab⟩
  · rintro ⟨ha, hnone⟩
    rw [hst, if_neg]
    rintro (h | ⟨b, hb, hab⟩)
    · exact ha h
    · exact hnone b (hperm.mem_iff.mp hb) hab

/-- C3 at a transaction that has not started and two results for it, one
aborted and one committed, merged in the other order. -/
theorem mergeAll_abort_sticky_witness :
    ∃ r, mergeAll mergeTargetTxn [committedResultTxn, abortedResultTxn] = Except.ok r
      ∧ ((mergeTargetTxn.status = TransactionStatus.ABORTED
            ∨ ∃ b ∈ [abortedResultTxn, committedResultTxn],
                b.status = TransactionStatus.ABORTED) →
          r.status = TransactionStatus.ABORTED)
      ∧ ((mergeTargetTxn.status ≠ TransactionStatus.ABORTED
            ∧ ∀ b ∈ [abortedResultTxn, committedResultTxn],
                b.status ≠ TransactionStatus.ABORTED) →
          r.status = mergeTargetTxn.status) :=
  mergeAll_abort_sticky mergeTargetTxn [abortedResultTxn, committedResultTxn]
    [committedResultTxn, abortedResultTxn] (by decide) (List.Perm.swap _ _ _)

/-- C4.  `MergeTransaction(a, b)` throws if and only if `a` and `b` have
different ids or different transaction types; in every other case, and only
then, it returns. -/
theorem mergeTransaction_fails_iff (a b : Transaction) :
    ((∃ e, MergeTransaction a b = Except.error e)
        ↔ (a.internal.id ≠ b.internal.id ∨ a.internal.type ≠ b.internal.type))
      ∧ ((∃ r, MergeTransaction a b = Except.ok r)
        ↔ (a.internal.id = b.internal.id ∧ a.internal.type = b.internal.type)) := by
  by_cases hid : a.internal.id = b.internal.id
  · by_cases hty : a.internal.type = b.internal.type
    · obtain ⟨r, hr, _⟩ := MergeTransaction_ok a b hid hty
      refine ⟨⟨?_, ?_⟩, ⟨fun _ => ⟨hid, hty⟩, fun _ => ⟨r, hr⟩⟩⟩
      · rintro ⟨e, he⟩
        rw [hr] at he
        cases he
      · rintro (h | h)
        · exact absurd hid h
        · exact absurd hty h
    · have herr : MergeTransaction a b
          = Except.error (MergeError.different_types a.internal.type b.internal.type) := by
        unfold MergeTransaction
        rw [if_neg (not_not.mpr hid), if_pos hty]
      refine ⟨⟨fun _ => Or.inr hty, fun _ => ⟨_, herr⟩⟩, ⟨?_, fun h => absurd h.2 hty⟩⟩
      rintro ⟨r, hr⟩
      rw [herr] at hr
      cases hr
  · have herr : MergeTransaction a b
        = Except.error (MergeError.different_ids a.internal.id b.internal.id) := by
      unfold MergeTransaction
      rw [if_pos hid]
    refine ⟨⟨fun _ => Or.inl hid, fun _ => ⟨_, herr⟩⟩, ⟨?_, fun h => absurd h.1 hid⟩⟩
    rintro ⟨r, hr⟩
    rw [herr] at hr
    cases hr

/-! ## Batches -/

/-- Writing index `n` of a vector and reading it from `n` on. -/
theorem drop_set_self {α : Type} (l : List α) :
    ∀ (n : Nat) (x : α), n < l.length → (l.set n x).drop n = x :: l.drop (n + 1) := by
  induction l with
  | nil => intro n x h; exact absurd h (Nat.not_lt_zero _)
  | cons a rest ih =>
    intro n x h
    cases n with
    | zero => rfl
    | succ k =>
      have hk : k < rest.length := Nat.lt_of_succ_lt_succ h
      simpa using ih k x hk

/-- The loop of `Unbatch`, started at the number of transactions left, releases
all of them and fills the first slots of the buffer in their order. -/
theorem unbatchLoop_eq (batch : Batch) :
    ∀ (n : Nat) (transactions : List Transaction) (buffer : List (Option Transaction)),
      transactions.length = n → n ≤ buffer.length →
      unbatchLoop batch n transactions buffer
        = ([], transactions.map (fun txn => some (transferEvents batch txn)) ++ buffer.drop n) := by
  intro n
  induction n with
  | zero =>
    intro transactions buffer hlen _
    have : transactions = [] := List.length_eq_zero.mp hlen
    subst this
    rfl
  | succ i ih =>
    intro transactions buffer hlen hbuf
    rcases List.eq_nil_or_concat transactions with hnil | ⟨init, last, hcat⟩
    · rw [hnil] at hlen
      exact absurd hlen (by simp)
    · rw [List.concat_eq_append] at hcat
      subst hcat
      have hinit : init.length = i := by simpa using hlen
      have hstep : unbatchLoop batch (i + 1) (init ++ [last]) buffer
          = unbatchLoop batch i init (buffer.set i (some (transferEvents batch last))) := by
        simp [unbatchLoop]
      rw [hstep, ih init _ hinit (by simp; omega), drop_set_self buffer i _ (by omega)]
      simp

/-- The batch built by `MakeBatch`. -/
theorem MakeBatch_eq (batch_id : BatchId) (txns : List Transaction)
    (batch_type : TransactionType) :
    MakeBatch batch_id txns batch_type
      = { id := batch_id, transaction_type := batch_type, transactions := txns,
          events := [], event_times := [], event_machines := [] } := by
  have key : ∀ (l : List Transaction) (b : Batch),
      l.foldl (fun batch txn => { batch with transactions := batch.transactions ++ [txn] }) b
        = { b with transactions := b.transactions ++ l } := by
    intro l
    induction l with
    | nil => intro b; simp
    | cons t rest ih => intro b; simp [ih]
  unfold MakeBatch
  rw [key]
  simp

/-- The vector returned by `Unbatch`. -/
theorem Unbatch_eq (batch : Batch) :
    Unbatch batch
      = ({ batch with transactions := [] },
          batch.transactions.map (fun txn => some (transferEvents batch txn))) := by
  have h := unbatchLoop_eq batch batch.transactions.length batch.transactions
    (List.replicate batch.transactions.length none) rfl (by simp)
  unfold Unbatch
  simp only [h]
  simp

/-- C1.  Round trip of batching: for every list of transactions `txns`, every
batch id and batch type, `Unbatch(MakeBatch(id, txns, type))` returns a vector
of the same length whose `i`-th element is the `i`-th element of `txns`, in
the same order and with identical content, with the events, event times and
event machines of the batch appended to its own: whatever `events`,
`event_times` and `event_machines` have been recorded on the batch since
`MakeBatch` built it, each transaction comes back with them after its own and
with every other field as it was.  On the batch as `MakeBatch` leaves it, which
has no events, the vector holds exactly `txns`. -/
theorem unbatch_makeBatch_round_trip (batch_id : BatchId) (txns : List Transaction)
    (batch_type : TransactionType) (events : List Nat) (event_times event_machines : List Int) :
    (Unbatch { MakeBatch batch_id txns batch_type with
        events := events, event_times := event_times,
        event_machines := event_machines }).2.length = txns.length
      ∧ (∀ i : Nat,
          (Unbatch { MakeBatch batch_id txns batch_type with
              events := events, event_times := event_times,
              event_machines := event_machines }).2[i]?
            = txns[i]?.map (fun txn => some
                { internal :=
                    { id := txn.internal.id, type := txn.internal.type,
                      home := txn.internal.home,
                      coordinating_server := txn.internal.coordinating_server,
                      involved_replicas := txn.internal.involved_replicas,
                      involved_partitions := txn.internal.involved_partitions,
                      active_partitions := txn.internal.active_partitions,
                      events := txn.internal.events ++ events,
                      event_times := txn.internal.event_times ++ event_times,
                      event_machines := txn.internal.event_machines ++ event_machines },
                  keys := txn.keys, procedure := txn.procedure, status := txn.status,
                  abort_reason := txn.abort_reason, deleted_keys := txn.deleted_keys }))
      ∧ (Unbatch (MakeBatch batch_id txns batch_type)).2 = txns.map some := by
  have hu : (Unbatch { MakeBatch batch_id txns batch_type with
        events := events, event_times := event_times, event_machines := event_machines }).2
      = txns.map (fun txn => some
          { internal :=
              { id := txn.internal.id, type := txn.internal.type,
                home := txn.internal.home,
                coordinating_server := txn.internal.coordinating_server,
                involved_replicas := txn.internal.involved_replicas,
                involved_partitions := txn.internal.involved_partitions,
                active_partitions := txn.internal.active_partitions,
                events := txn.internal.events ++ events,
                event_times := txn.internal.event_times ++ event_times,
                event_machines := txn.internal.event_machines ++ event_machines },
            keys := txn.keys, procedure := txn.procedure, status := txn.status,
            abort_reason := txn.abort_reason, deleted_keys := txn.deleted_keys }) := by
    rw [Unbatch_eq]
    simp only [MakeBatch_eq]
    rfl
  have hfresh : (Unbatch (MakeBatch batch_id txns batch_type)).2 = txns.map some := by
    rw [Unbatch_eq]
    simp only [MakeBatch_eq]
    have hev : ∀ txn : Transaction,
        transferEvents
          { id := batch_id, transaction_type := batch_type, transactions := txns,
            events := [], event_times := [], event_machines := [] } txn = txn := by
      intro txn
      simp [transferEvents]
    simp only [hev]
  refine ⟨?_, ?_, hfresh⟩
  · rw [hu, List.length_map]
  · intro i
    rw [hu, List.getElem?_map]

/-! ## Auxiliary lemmas on the splitting and populating loops -/

/-- The entries of a map that belong to a partition, in iteration order. -/
theorem partitionedLoop_ok (config : Configuration) (partition : Nat) (home : Int)
    (keys : List (Key × ValueEntry)) :
    ∀ state state', partitionedLoop config partition home keys state = Except.ok state' →
      state'.keys
          = state.keys ++ keys.filter (fun kv => decide (config.partition_of_key kv.1 = partition))
        ∧ state'.involved_replicas.length = state.involved_replicas.length
        ∧ (∀ r, state'.involved_replicas.getD r false
            = (state.involved_replicas.getD r false
              || (keys.filter (fun kv => decide (config.partition_of_key kv.1 = partition))).any
                  (fun kv => decide (kv.2.get_metadata.master = r))))
        ∧ state'.is_redundant
            = (state.is_redundant
              && (keys.filter (fun kv => decide (config.partition_of_key kv.1 = partition))).all
                  (fun kv => decide (toInt32 kv.2.get_metadata.master ≠ home))) := by
  induction keys with
  | nil =>
    intro state state' h
    simp only [partitionedLoop, Except.ok.injEq] at h
    subst h
    simp
  | cons kv rest ih =>
    intro state state' h
    by_cases hp : config.partition_of_key kv.1 = partition
    · by_cases hb : kv.2.get_metadata.master < state.involved_replicas.length
      · simp only [partitionedLoop, hp, ne_eq, not_true_eq_false, if_false, hb, if_true] at h
        obtain ⟨h1, h2, h3, h4⟩ := ih _ _ h
        refine ⟨?_, ?_, ?_, ?_⟩
        · rw [h1]
          simp [hp]
        · rw [h2]
          simp
        · intro r
          rw [h3 r]
          simp only [hp, decide_True, List.filter_cons_of_pos, List.any_cons]
          by_cases hr : kv.2.get_metadata.master = r
          · subst hr
            rw [List.getD_eq_getElem?_getD, List.getElem?_set_self hb]
            simp
          · rw [List.getD_eq_getElem?_getD, List.getElem?_set_ne hr]
            simp [hr, List.getD_eq_getElem?_getD]
        · rw [h4]
          simp only [hp, decide_True, List.filter_cons_of_pos, List.all_cons, Bool.and_assoc]
      · simp only [partitionedLoop, hp, ne_eq, not_true_eq_false, if_false, hb] at h
        cases h
    · simp only [partitionedLoop, ne_eq, hp, not_false_eq_true, if_true] at h
      obtain ⟨h1, h2, h3, h4⟩ := ih _ _ h
      refine ⟨?_, h2, ?_, ?_⟩
      · rw [h1]
        simp [hp]
      · intro r
        rw [h3 r]
        simp [hp]
      · rw [h4]
        simp [hp]

/-- The first loop of `GeneratePartitionedTxn` completes when the master of
every entry of the target partition is an index of `involved_replicas`. -/
theorem partitionedLoop_defined (config : Configuration) (partition : Nat) (home : Int)
    (keys : List (Key × ValueEntry)) :
    ∀ state,
      (∀ kv ∈ keys, config.partition_of_key kv.1 = partition →
        kv.2.get_metadata.master < state.involved_replicas.length) →
      ∃ state', partitionedLoop config partition home keys state = Except.ok state' := by
  induction keys with
  | nil =>
    intro state _
    exact ⟨state, rfl⟩
  | cons kv rest ih =>
    intro state hb
    by_cases hp : config.partition_of_key kv.1 = partition
    · have hkv := hb kv (List.mem_cons_self _ _) hp
      simp only [partitionedLoop, hp, ne_eq, not_true_eq_false, if_false, hkv, if_true]
      apply ih
      intro x hx hxp
      simpa using hb x (List.mem_cons_of_mem _ hx) hxp
    · simp only [partitionedLoop, ne_eq, hp, not_false_eq_true, if_true]
      exact ih state (fun x hx hxp => hb x (List.mem_cons_of_mem _ hx) hxp)

/-- The first loop of `GeneratePartitionedTxn` runs into an access out of range
when some entry of the target partition has a master that is not an index of
`involved_replicas`. -/
theorem partitionedLoop_undefined (config : Configuration) (partition : Nat) (home : Int)
    (keys : List (Key × ValueEntry)) :
    ∀ state,
      (∃ kv ∈ keys, config.partition_of_key kv.1 = partition
        ∧ state.involved_replicas.length ≤ kv.2.get_metadata.master) →
      partitionedLoop config partition home keys state = Except.error Fault.out_of_range := by
  induction keys with
  | nil =>
    rintro state ⟨kv, hkv, -⟩
    cases hkv
  | cons kv rest ih =>
    rintro state ⟨x, hx, hxp, hxb⟩
    by_cases hp : config.partition_of_key kv.1 = partition
    · by_cases hb : kv.2.get_metadata.master < state.involved_replicas.length
      · simp only [partitionedLoop, hp, ne_eq, not_true_eq_false, if_false, hb, if_true]
        apply ih
        rcases List.mem_cons.mp hx with rfl | hx'
        · exact absurd hb (Nat.not_lt.mpr hxb)
        · exact ⟨x, hx', hxp, by simpa using hxb⟩
      · simp only [partitionedLoop, hp, ne_eq, not_true_eq_false, if_false, hb]
    · simp only [partitionedLoop, ne_eq, hp, not_false_eq_true, if_true]
      apply ih
      rcases List.mem_cons.mp hx with rfl | hx'
      · exact absurd hxp hp
      · exact ⟨x, hx', hxp, hxb⟩

/-- An index is listed by `setIndices` exactly when its flag is set. -/
theorem mem_setIndices (flags : List Bool) (r : Nat) :
    r ∈ setIndices flags ↔ flags.getD r false = true := by
  simp only [setIndices, List.mem_filter, List.mem_range]
  constructor
  · exact fun h => h.2
  · intro h
    refine ⟨?_, h⟩
    by_contra hlt
    rw [List.getD_eq_default _ _ (Nat.le_of_not_lt hlt)] at h
    cases h

/-- The indices listed by `setIndices` are strictly increasing. -/
theorem setIndices_sorted (flags : List Bool) :
    (setIndices flags).Pairwise (fun a b => a < b) :=
  List.Pairwise.filter _ (List.pairwise_lt_range _)

/-- The algorithm `std::unique` keeps the members of the vector. -/
theorem mem_unique (x : Nat) : ∀ l : List Nat, x ∈ unique l ↔ x ∈ l
  | [] => by simp [unique]
  | [a] => by simp [unique]
  | a :: b :: rest => by
    have ih := mem_unique x (b :: rest)
    by_cases hab : a = b
    · simp only [unique, hab, if_true, ih, List.mem_cons]
      tauto
    · simp only [unique, hab, if_false, List.mem_cons, ih]

/-- On an increasing vector `std::unique` leaves a strictly increasing one. -/
theorem unique_sorted : ∀ l : List Nat, l.Pairwise (fun a b => a ≤ b) →
    (unique l).Pairwise (fun a b => a < b)
  | [], _ => by simp [unique]
  | [a], _ => by simp [unique]
  | a :: b :: rest, h => by
    have htail : (b :: rest).Pairwise (fun a b => a ≤ b) := (List.pairwise_cons.mp h).2
    have ih := unique_sorted (b :: rest) htail
    by_cases hab : a = b
    · simp only [unique, hab, if_true]
      exact ih
    · simp only [unique, hab, if_false]
      refine List.pairwise_cons.mpr ⟨?_, ih⟩
      intro x hx
      have hx' : x ∈ b :: rest := (mem_unique x (b :: rest)).mp hx
      have hbx : b ≤ x := by
        rcases List.mem_cons.mp hx' with rfl | hr
        · exact Nat.le_refl _
        · exact (List.pairwise_cons.mp htail).1 x hr
      have hle : a ≤ b := (List.pairwise_cons.mp h).1 b (List.mem_cons_self _ _)
      omega

/-- The algorithm `std::sort` keeps the members of the vector. -/
theorem mem_sort (x : Nat) (l : List Nat) : x ∈ sort l ↔ x ∈ l :=
  (List.perm_insertionSort (fun a b => a ≤ b) l).mem_iff

/-- The algorithm `std::sort` leaves an increasing vector. -/
theorem sort_sorted (l : List Nat) : (sort l).Pairwise (fun a b => a ≤ b) :=
  List.sorted_insertionSort (fun a b => a ≤ b) l

/-- The loop of `PopulateInvolvedReplicas` collects the masters of all entries
when every entry carries metadata. -/
theorem mastersLoop_ok (keys : List (Key × ValueEntry)) :
    ∀ acc : List Nat, (∀ kv ∈ keys, kv.2.metadata.isSome = true) →
      mastersLoop keys acc
        = Except.ok (acc ++ keys.map (fun kv => kv.2.get_metadata.master)) := by
  induction keys with
  | nil => intro acc _; simp [mastersLoop]
  | cons kv rest ih =>
    intro acc h
    have hkv : kv.2.has_metadata = true := h kv (List.mem_cons_self _ _)
    simp only [mastersLoop, hkv, if_true]
    rw [ih _ (fun x hx => h x (List.mem_cons_of_mem _ hx))]
    simp

/-- What `GeneratePartitionedTxn` returns when it returns: `nullptr` exactly
when no entry belongs to the partition or the part is redundant, otherwise a
transaction holding the entries of the partition; without `in_place` the
argument is left as it was. -/
theorem GeneratePartitionedTxn_ok (config : Configuration) (txn : Transaction) (partition : Nat)
    (in_place : Bool) (g : Generated)
    (h : GeneratePartitionedTxn config txn partition in_place = Except.ok g) :
    (g.returned = none
        ↔ (txn.keys.filter (fun kv => decide (config.partition_of_key kv.1 = partition)) = []
          ∨ (txn.procedure.is_remaster = false
            ∧ ∀ kv ∈ txn.keys.filter (fun kv => decide (config.partition_of_key kv.1 = partition)),
                toInt32 kv.2.get_metadata.master ≠ txn.internal.home)))
      ∧ (∀ sub, g.returned = some sub →
          sub.keys = txn.keys.filter (fun kv => decide (config.partition_of_key kv.1 = partition))
            ∧ sub.procedure = txn.procedure ∧ sub.internal.home = txn.internal.home)
      ∧ (in_place = false → g.original = some txn) := by
  unfold GeneratePartitionedTxn at h
  cases hl : partitionedLoop config partition txn.internal.home txn.keys
      { keys := [], involved_replicas := List.replicate config.num_replicas false,
        is_redundant := !txn.procedure.is_remaster } with
  | error fault =>
    simp only [hl] at h
    cases h
  | ok state =>
    simp only [hl] at h
    obtain ⟨hk, _, _, hred⟩ := partitionedLoop_ok config partition txn.internal.home txn.keys _ _ hl
    simp only [List.nil_append] at hk
    have hcond : (state.keys.isEmpty || state.is_redundant) = true
        ↔ (txn.keys.filter (fun kv => decide (config.partition_of_key kv.1 = partition)) = []
          ∨ (txn.procedure.is_remaster = false
            ∧ ∀ kv ∈ txn.keys.filter (fun kv => decide (config.partition_of_key kv.1 = partition)),
                toInt32 kv.2.get_metadata.master ≠ txn.internal.home)) := by
      rw [hred, hk]
      simp only [Bool.or_eq_true, List.isEmpty_iff, Bool.and_eq_true, Bool.not_eq_true',
        List.all_eq_true, decide_eq_true_eq]
    by_cases hc : (state.keys.isEmpty || state.is_redundant) = true
    · rw [if_pos hc] at h
      cases h
      refine ⟨⟨fun _ => hcond.mp hc, fun _ => rfl⟩, fun sub hs => (by cases hs), ?_⟩
      intro hip
      simp [hip]
    · rw [if_neg hc] at h
      cases h
      refine ⟨⟨fun hn => (by cases hn), fun hn => absurd (hcond.mpr hn) hc⟩, ?_, ?_⟩
      · intro sub hs
        cases hs
        by_cases hty : txn.internal.type = TransactionType.MULTI_HOME_OR_LOCK_ONLY
        · rw [if_pos hty]
          exact ⟨hk, rfl, rfl⟩
        · rw [if_neg hty]
          exact ⟨hk, rfl, rfl⟩
      · intro hip
        simp [hip]

/-- The function `GeneratePartitionedTxn` returns when the master of every entry
of the target partition is below the number of replicas. -/
theorem GeneratePartitionedTxn_defined (config : Configuration) (txn : Transaction)
    (partition : Nat) (in_place : Bool)
    (hb : ∀ kv ∈ txn.keys, config.partition_of_key kv.1 = partition →
      kv.2.get_metadata.master < config.num_replicas) :
    ∃ g, GeneratePartitionedTxn config txn partition in_place = Except.ok g := by
  obtain ⟨state, hl⟩ := partitionedLoop_defined config partition txn.internal.home txn.keys
    { keys := [], involved_replicas := List.replicate config.num_replicas false,
      is_redundant := !txn.procedure.is_remaster } (by simpa using hb)
  unfold GeneratePartitionedTxn
  simp only [hl]
  by_cases hc : (state.keys.isEmpty || state.is_redundant) = true
  · rw [if_pos hc]
    exact ⟨_, rfl⟩
  · rw [if_neg hc]
    exact ⟨_, rfl⟩

/-! ## Lock-only and partitioned parts -/

/-- C12, as stated, fails on the code.  For the multi-home transaction with
the keys `A` (master `0`) and `B` (master `1`), typed in either build, the
lock-only part for replica `0` still carries both keys, `B` included, whose
master is not `0`. -/
theorem generateLockOnlyTxn_counterexample :
    (sampleEntry 1).get_metadata.master ≠ 0
      ∧ ∀ c : Bool,
        (SetTransactionType c codeTwoMastersTxn).1 = TransactionType.MULTI_HOME_OR_LOCK_ONLY
          ∧ (GenerateLockOnlyTxn c (SetTransactionType c codeTwoMastersTxn).2 0 false).returned.map
              Transaction.keys = some [("A", sampleEntry 0), ("B", sampleEntry 1)] := by
  refine ⟨by decide, fun c => ?_⟩
  cases c <;> decide

/-- C12, amended.  For every transaction `t`, multi-home or not, and every
replica `r`, `GenerateLockOnlyTxn(t, r)` returns a transaction whose home is
`r` narrowed to `int32`, that is `r` itself when `r < 2 ^ 31`, and which
carries all the keys of `t` with their entries, whatever their masters; without
`in_place` the transaction `t` is left as it was. -/
theorem generateLockOnlyTxn_home_and_keys (c : Bool) (t : Transaction) (r : Nat)
    (in_place : Bool) :
    ∃ lo, (GenerateLockOnlyTxn c t r in_place).returned = some lo
      ∧ lo.internal.home = toInt32 r
      ∧ (r < 2 ^ 31 → lo.internal.home = (r : Int))
      ∧ lo.keys = t.keys
      ∧ (in_place = false → (GenerateLockOnlyTxn c t r in_place).original = some t) := by
  unfold GenerateLockOnlyTxn
  by_cases hc : (c && t.procedure.is_remaster_to r) = true
  · simp only [hc, if_true]
    refine ⟨_, rfl, rfl, fun hr => toInt32_of_lt r hr, rfl, fun hip => ?_⟩
    simp [hip]
  · simp only [hc, if_false]
    refine ⟨_, rfl, rfl, fun hr => toInt32_of_lt r hr, rfl, fun hip => ?_⟩
    simp [hip]

/-- C13.  `GeneratePartitionedTxn(config, t, p)` returns `nullptr` if and only if
the generated transaction contains no relevant key: either no key of `t`
belongs to partition `p`, or `t` is not a remaster and no key of `t` in
partition `p` is mastered at the home of `t`; otherwise it returns a
transaction.  This holds of every call that has a result, and a call has a
result whenever the masters of the keys of partition `p` are indices of the
vector `involved_replicas`, so also whenever no key belongs to `p`.  A call
that writes outside that vector is undefined in C++ and nothing is said of it. -/
theorem generatePartitionedTxn_null_iff (config : Configuration) (t : Transaction) (p : Nat)
    (in_place : Bool) :
    (∀ g, GeneratePartitionedTxn config t p in_place = Except.ok g →
      (g.returned = none
          ↔ ((∀ kv ∈ t.keys, config.partition_of_key kv.1 ≠ p)
            ∨ (t.procedure.is_remaster = false
              ∧ ∀ kv ∈ t.keys, config.partition_of_key kv.1 = p →
                  toInt32 kv.2.get_metadata.master ≠ t.internal.home)))
      ∧ (g.returned ≠ none ↔ ∃ sub, g.returned = some sub))
    ∧ ((∀ kv ∈ t.keys, config.partition_of_key kv.1 = p →
          kv.2.get_metadata.master < config.num_replicas) →
        ∃ g, GeneratePartitionedTxn config t p in_place = Except.ok g) := by
  refine ⟨?_, fun hb => GeneratePartitionedTxn_defined config t p in_place hb⟩
  intro g hg
  obtain ⟨hnull, -, -⟩ := GeneratePartitionedTxn_ok config t p in_place g hg
  refine ⟨?_, ?_⟩
  · rw [hnull]
    simp only [List.filter_eq_nil_iff, List.mem_filter, decide_eq_true_eq, and_imp, ne_eq]
  · cases g.returned with
    | none => simp
    | some sub => simp

/-- C13 at the transaction with the keys `A` (master `0`, partition `0`) and `B`
(master `1`, partition `1`), two replicas and partition `0`. -/
theorem generatePartitionedTxn_null_iff_witness :
    ∃ g, GeneratePartitionedTxn sampleConfig codeTwoMastersTxn 0 false = Except.ok g
      ∧ (g.returned = none
          ↔ ((∀ kv ∈ codeTwoMastersTxn.keys, sampleConfig.partition_of_key kv.1 ≠ 0)
            ∨ (codeTwoMastersTxn.procedure.is_remaster = false
              ∧ ∀ kv ∈ codeTwoMastersTxn.keys, sampleConfig.partition_of_key kv.1 = 0 →
                  toInt32 kv.2.get_metadata.master ≠ codeTwoMastersTxn.internal.home)))
      ∧ (g.returned ≠ none ↔ ∃ sub, g.returned = some sub) :=
  ((generatePartitionedTxn_null_iff sampleConfig codeTwoMastersTxn 0 false).2 (by decide)).elim
    (fun g hg =>
      ⟨g, hg, (generatePartitionedTxn_null_iff sampleConfig codeTwoMastersTxn 0 false).1 g hg⟩)

/-- C14.  Whenever `GeneratePartitionedTxn(config, t, p)` returns a transaction,
its keys are exactly the keys of `t` that `partition_of_key` maps to `p`, each
with the entry it has in `t`; and with `in_place = false` the transaction `t`
is not modified. -/
theorem generatePartitionedTxn_keys (config : Configuration) (t : Transaction) (p : Nat)
    (in_place : Bool) (g : Generated)
    (h : GeneratePartitionedTxn config t p in_place = Except.ok g) :
    (∀ sub, g.returned = some sub →
        sub.keys = t.keys.filter (fun kv => decide (config.partition_of_key kv.1 = p))
          ∧ ∀ kv, kv ∈ sub.keys ↔ (kv ∈ t.keys ∧ config.partition_of_key kv.1 = p))
      ∧ (in_place = false → g.original = some t) := by
  obtain ⟨-, hkeys, horig⟩ := GeneratePartitionedTxn_ok config t p in_place g h
  refine ⟨fun sub hs => ?_, horig⟩
  obtain ⟨hk, -, -⟩ := hkeys sub hs
  refine ⟨hk, fun kv => ?_⟩
  rw [hk]
  simp [List.mem_filter]

/-- The choice of C14 at the lock-only part for replica `0` of the transaction
with the keys `A` (partition `0`) and `B` (partition `1`): the part for
partition `0` holds `A` alone. -/
theorem generatePartitionedTxn_keys_witness :
    (∀ sub, partitionedAtZero.returned = some sub →
        sub.keys = lockOnlyAtZeroTxn.keys.filter
            (fun kv => decide (sampleConfig.partition_of_key kv.1 = 0))
          ∧ ∀ kv, kv ∈ sub.keys
              ↔ (kv ∈ lockOnlyAtZeroTxn.keys ∧ sampleConfig.partition_of_key kv.1 = 0))
      ∧ (false = false → partitionedAtZero.original = some lockOnlyAtZeroTxn) :=
  generatePartitionedTxn_keys sampleConfig lockOnlyAtZeroTxn 0 false partitionedAtZero rfl

/-- A transaction that `SetTransactionType` classifies as multi-home has keys,
all with metadata, and comes out with that type and home `-1`. -/
theorem SetTransactionType_multi_inv (c : Bool) (t0 : Transaction)
    (h : (SetTransactionType c t0).1 = TransactionType.MULTI_HOME_OR_LOCK_ONLY) :
    t0.keys ≠ [] ∧ (∀ kv ∈ t0.keys, kv.2.metadata.isSome = true)
      ∧ (SetTransactionType c t0).2
          = { t0 with internal :=
                { t0.internal with
                    type := TransactionType.MULTI_HOME_OR_LOCK_ONLY, home := -1 } } := by
  cases hc : metadataCompleteLoop t0.keys (!t0.keys.isEmpty)
  · rw [SetTransactionType_incomplete c t0 hc] at h
    cases h
  · have hcomp := (metadataComplete_iff t0.keys).mp hc
    refine ⟨hcomp.1, hcomp.2, ?_⟩
    cases hs : t0.keys.all
        (fun kv => decide (kv.2.get_metadata.master = (beginEntry t0.keys).get_metadata.master))
    · rw [SetTransactionType_multi c t0 hc (Or.inl hs)]
    · cases hr : (c && t0.procedure.is_remaster)
      · rw [SetTransactionType_single c t0 hc hs hr] at h
        cases h
      · rw [SetTransactionType_multi c t0 hc (Or.inr hr)]

/-- A transaction that `SetTransactionType` classifies as single-home has keys,
all with metadata and with the master of the first one, and comes out with
that type and with that master, narrowed to `int32`, as home. -/
theorem SetTransactionType_single_inv (c : Bool) (t0 : Transaction)
    (h : (SetTransactionType c t0).1 = TransactionType.SINGLE_HOME) :
    t0.keys ≠ [] ∧ (∀ kv ∈ t0.keys, kv.2.metadata.isSome = true)
      ∧ (∀ kv ∈ t0.keys, kv.2.get_metadata.master = (beginEntry t0.keys).get_metadata.master)
      ∧ (SetTransactionType c t0).2
          = { t0 with internal :=
                { t0.internal with
                    type := TransactionType.SINGLE_HOME,
                    home := toInt32 (beginEntry t0.keys).get_metadata.master } } := by
  cases hc : metadataCompleteLoop t0.keys (!t0.keys.isEmpty)
  · rw [SetTransactionType_incomplete c t0 hc] at h
    cases h
  · have hcomp := (metadataComplete_iff t0.keys).mp hc
    cases hs : t0.keys.all
        (fun kv => decide (kv.2.get_metadata.master = (beginEntry t0.keys).get_metadata.master))
    · rw [SetTransactionType_multi c t0 hc (Or.inl hs)] at h
      cases h
    · cases hr : (c && t0.procedure.is_remaster)
      · refine ⟨hcomp.1, hcomp.2, ?_, ?_⟩
        · intro kv hkv
          exact of_decide_eq_true (List.all_eq_true.mp hs kv hkv)
        · rw [SetTransactionType_single c t0 hc hs hr]
      · rw [SetTransactionType_multi c t0 hc (Or.inr hr)] at h
        cases h

/-- What `PopulateInvolvedReplicas` does to a multi-home transaction whose keys
all carry metadata. -/
theorem PopulateInvolvedReplicas_multi (c : Bool) (t : Transaction)
    (hty : t.internal.type = TransactionType.MULTI_HOME_OR_LOCK_ONLY)
    (hall : ∀ kv ∈ t.keys, kv.2.metadata.isSome = true) :
    PopulateInvolvedReplicas c t
      = Except.ok { t with internal :=
          { t.internal with
              involved_replicas := t.internal.involved_replicas
                ++ unique (sort (t.keys.map (fun kv => kv.2.get_metadata.master)
                    ++ (if c = true then t.procedure.new_masters else []))) } } := by
  unfold PopulateInvolvedReplicas
  rw [if_neg (by rw [hty]; decide), if_neg (by rw [hty]; decide), mastersLoop_ok t.keys [] hall]
  cases c
  · simp
  · simp

/-- What `PopulateInvolvedReplicas` does to a single-home transaction with keys
whose first entry carries metadata. -/
theorem PopulateInvolvedReplicas_single (c : Bool) (t : Transaction)
    (hty : t.internal.type = TransactionType.SINGLE_HOME)
    (hne : t.keys ≠ [])
    (hmeta : (beginEntry t.keys).has_metadata = true) :
    PopulateInvolvedReplicas c t
      = Except.ok { t with internal :=
          { t.internal with
              involved_replicas := [(beginEntry t.keys).get_metadata.master] } } := by
  unfold PopulateInvolvedReplicas
  rw [if_neg (by rw [hty]; decide), if_pos hty]
  cases hk : t.keys with
  | nil => exact absurd hk hne
  | cons kv rest =>
    have hkv : kv.2.has_metadata = true := by
      rw [hk] at hmeta
      exact hmeta
    simp only [hkv, if_true]
    rfl

/-- What `GenerateLockOnlyTxn` returns: the transaction with the home replaced
and with the same keys; a remaster stays a remaster. -/
theorem GenerateLockOnlyTxn_returned (c : Bool) (t : Transaction) (r : Nat) (in_place : Bool) :
    ∃ lo, (GenerateLockOnlyTxn c t r in_place).returned = some lo
      ∧ lo.internal.home = toInt32 r
      ∧ lo.keys = t.keys := by
  unfold GenerateLockOnlyTxn
  by_cases hc : (c && t.procedure.is_remaster_to r) = true
  · simp only [hc, if_true]
    exact ⟨_, rfl, rfl, rfl⟩
  · simp only [hc, if_false]
    exact ⟨_, rfl, rfl, rfl⟩

/-- The keys of the part of `t` for replica `r` and partition `p`: they are
keys of `t` in partition `p`, and they are all of these as soon as one of them
is mastered at `r`. -/
theorem lockOnlyPartitionKeys_spec (c : Bool) (config : Configuration) (t : Transaction)
    (r p : Nat)
    (hb : ∀ kv ∈ t.keys, config.partition_of_key kv.1 = p →
      kv.2.get_metadata.master < config.num_replicas) :
    ∃ ks, lockOnlyPartitionKeys c config t r p = Except.ok ks
      ∧ (∀ kv ∈ ks, kv ∈ t.keys ∧ config.partition_of_key kv.1 = p)
      ∧ ((∃ kv ∈ t.keys, config.partition_of_key kv.1 = p ∧ kv.2.get_metadata.master = r) →
          ∀ kv ∈ t.keys, config.partition_of_key kv.1 = p → kv ∈ ks) := by
  obtain ⟨lo, hlo, hhome, hkeys⟩ := GenerateLockOnlyTxn_returned c t r false
  obtain ⟨g, hg⟩ := GeneratePartitionedTxn_defined config lo p false (by rw [hkeys]; exact hb)
  obtain ⟨hnull, hsub, -⟩ := GeneratePartitionedTxn_ok config lo p false g hg
  unfold lockOnlyPartitionKeys
  simp only [hlo, hg]
  cases hret : g.returned with
  | none =>
    refine ⟨[], rfl, fun kv hkv => (by cases hkv), ?_⟩
    rintro ⟨kv, hkv, hkp, hkm⟩
    have hmem : kv ∈ lo.keys.filter (fun kv => decide (config.partition_of_key kv.1 = p)) := by
      rw [hkeys]
      simp [List.mem_filter, hkv, hkp]
    rcases hnull.mp hret with hnil | ⟨-, hred⟩
    · rw [hnil] at hmem
      cases hmem
    · exact absurd (by rw [hhome, hkm]) (hred kv hmem)
  | some sub =>
    obtain ⟨hk, -, -⟩ := hsub sub hret
    refine ⟨sub.keys, rfl, ?_, ?_⟩
    · intro kv hkv
      rw [hk, hkeys] at hkv
      simpa [List.mem_filter] using hkv
    · intro _ kv hkv hkp
      rw [hk, hkeys]
      simp [List.mem_filter, hkv, hkp]

/-- C11.  Key-set preservation of the lock-only split: for every transaction
that `SetTransactionType` types as multi-home, with every master below the
number of replicas, `PopulateInvolvedReplicas` fills `involved_replicas` and,
for every partition `p`, each part
`GeneratePartitionedTxn(config, GenerateLockOnlyTxn(t, r), p)` with `r` in
`involved_replicas` is defined, and the union of their key sets, a null result
counting as empty, is exactly the set of keys of `t` whose partition is `p`,
each with its entry.  This holds in either build. -/
theorem lockOnly_split_preserves_keys (c : Bool) (config : Configuration) (t0 : Transaction)
    (p : Nat)
    (hty : (SetTransactionType c t0).1 = TransactionType.MULTI_HOME_OR_LOCK_ONLY)
    (hb : ∀ kv ∈ t0.keys, kv.2.get_metadata.master < config.num_replicas) :
    ∃ t, PopulateInvolvedReplicas c (SetTransactionType c t0).2 = Except.ok t
      ∧ (∀ r ∈ t.internal.involved_replicas,
          ∃ ks, lockOnlyPartitionKeys c config t r p = Except.ok ks)
      ∧ ∀ kv, (∃ r ∈ t.internal.involved_replicas,
            ∃ ks, lockOnlyPartitionKeys c config t r p = Except.ok ks ∧ kv ∈ ks)
          ↔ (kv ∈ t.keys ∧ config.partition_of_key kv.1 = p) := by
  obtain ⟨-, hall, h2⟩ := SetTransactionType_multi_inv c t0 hty
  rw [h2]
  obtain ⟨t, ht, htk, hti⟩ : ∃ t,
      PopulateInvolvedReplicas c
          { t0 with internal :=
              { t0.internal with
                  type := TransactionType.MULTI_HOME_OR_LOCK_ONLY, home := -1 } } = Except.ok t
        ∧ t.keys = t0.keys
        ∧ ∀ kv ∈ t0.keys, kv.2.get_metadata.master ∈ t.internal.involved_replicas := by
    refine ⟨_, PopulateInvolvedReplicas_multi c _ rfl hall, rfl, fun kv hkv => ?_⟩
    apply List.mem_append_right
    rw [mem_unique, mem_sort]
    apply List.mem_append_left
    exact List.mem_map.mpr ⟨kv, hkv, rfl⟩
  have hbt : ∀ kv ∈ t.keys, config.partition_of_key kv.1 = p →
      kv.2.get_metadata.master < config.num_replicas := by
    intro kv hkv _
    rw [htk] at hkv
    exact hb kv hkv
  refine ⟨t, ht, ?_, ?_⟩
  · intro r _
    obtain ⟨ks, hks, -⟩ := lockOnlyPartitionKeys_spec c config t r p hbt
    exact ⟨ks, hks⟩
  · intro kv
    constructor
    · rintro ⟨r, -, ks, hks, hkv⟩
      obtain ⟨ks', hks', hsub, -⟩ := lockOnlyPartitionKeys_spec c config t r p hbt
      rw [hks] at hks'
      cases hks'
      exact hsub kv hkv
    · rintro ⟨hkv, hkp⟩
      refine ⟨kv.2.get_metadata.master, hti kv (htk ▸ hkv), ?_⟩
      obtain ⟨ks, hks, -, hall'⟩ :=
        lockOnlyPartitionKeys_spec c config t kv.2.get_metadata.master p hbt
      exact ⟨ks, hks, hall' ⟨kv, hkv, hkp, rfl⟩ kv hkv hkp⟩

/-- C11 at the transaction with the keys `A` (master `0`, partition `0`) and
`B` (master `1`, partition `1`), two replicas and partition `0`. -/
theorem lockOnly_split_preserves_keys_witness :
    ∃ t, PopulateInvolvedReplicas false (SetTransactionType false codeTwoMastersTxn).2
        = Except.ok t
      ∧ (∀ r ∈ t.internal.involved_replicas,
          ∃ ks, lockOnlyPartitionKeys false sampleConfig t r 0 = Except.ok ks)
      ∧ ∀ kv, (∃ r ∈ t.internal.involved_replicas,
            ∃ ks, lockOnlyPartitionKeys false sampleConfig t r 0 = Except.ok ks ∧ kv ∈ ks)
          ↔ (kv ∈ t.keys ∧ sampleConfig.partition_of_key kv.1 = 0) :=
  lockOnly_split_preserves_keys false sampleConfig codeTwoMastersTxn 0 (by decide) (by decide)

/-! ## Involved replicas and partitions -/

/-- C15, as stated, fails on the code.  In the counterless build the remaster
transaction with the single key `A` (master `0`) and new master `1` is typed
multi-home and gets `involved_replicas = [0, 1]`, although no key is mastered
at replica `1`.  And in either build the multi-home transaction with the keys
`A` (master `0`) and `B` (master `1`) whose field already holds `[5]` ends
with `[5, 0, 1]`, which is not increasing and lists a replica that masters no key. -/
theorem populateInvolvedReplicas_sorted_set_counterexample :
    ((SetTransactionType true remasterOneKeyTxn).2.internal.type
          = TransactionType.MULTI_HOME_OR_LOCK_ONLY
      ∧ (PopulateInvolvedReplicas true (SetTransactionType true remasterOneKeyTxn).2).toOption.map
          (fun t => t.internal.involved_replicas) = some [0, 1]
      ∧ ∀ kv ∈ remasterOneKeyTxn.keys, kv.2.get_metadata.master ≠ 1)
    ∧ (staleReplicasTxn.internal.type = TransactionType.MULTI_HOME_OR_LOCK_ONLY
      ∧ (∀ kv ∈ staleReplicasTxn.keys, kv.2.metadata.isSome = true)
      ∧ ∀ c : Bool, (PopulateInvolvedReplicas c staleReplicasTxn).toOption.map
          (fun t => t.internal.involved_replicas) = some [5, 0, 1]) := by
  refine ⟨⟨by decide, by decide, by decide⟩, by decide, by decide, ?_⟩
  intro c
  cases c <;> decide

/-- C15, amended.  For every transaction of type `MULTI_HOME_OR_LOCK_ONLY`
whose keys all carry metadata and whose field `involved_replicas` is empty,
`PopulateInvolvedReplicas` returns and leaves `involved_replicas` strictly
increasing, without duplicates, and containing exactly the masters of the keys
of the transaction and, in the counterless build, the new master of a remaster. -/
theorem populateInvolvedReplicas_sorted_set (c : Bool) (t : Transaction)
    (hty : t.internal.type = TransactionType.MULTI_HOME_OR_LOCK_ONLY)
    (hall : ∀ kv ∈ t.keys, kv.2.metadata.isSome = true)
    (hempty : t.internal.involved_replicas = []) :
    ∃ t', PopulateInvolvedReplicas c t = Except.ok t'
      ∧ t'.internal.involved_replicas.Pairwise (fun a b => a < b)
      ∧ ∀ r, r ∈ t'.internal.involved_replicas
          ↔ ((∃ kv ∈ t.keys, kv.2.get_metadata.master = r)
            ∨ (c = true ∧ r ∈ t.procedure.new_masters)) := by
  refine ⟨_, PopulateInvolvedReplicas_multi c t hty hall, ?_, ?_⟩
  · simp only [hempty, List.nil_append]
    exact unique_sorted _ (sort_sorted _)
  · intro r
    simp only [hempty, List.nil_append, mem_unique, mem_sort, List.mem_append, List.mem_map]
    cases c
    · simp
    · simp

/-- The amended C15 in the counterless build at the multi-home transaction with
the keys `A` (master `0`) and `B` (master `1`) and an empty field. -/
theorem populateInvolvedReplicas_sorted_set_witness :
    ∃ t', PopulateInvolvedReplicas true (SetTransactionType true codeTwoMastersTxn).2
        = Except.ok t'
      ∧ t'.internal.involved_replicas.Pairwise (fun a b => a < b)
      ∧ ∀ r, r ∈ t'.internal.involved_replicas
          ↔ ((∃ kv ∈ (SetTransactionType true codeTwoMastersTxn).2.keys,
                kv.2.get_metadata.master = r)
            ∨ (true = true ∧ r ∈ (SetTransactionType true codeTwoMastersTxn).2.procedure.new_masters)) :=
  populateInvolvedReplicas_sorted_set true (SetTransactionType true codeTwoMastersTxn).2
    (by decide) (by decide) (by decide)

/-- C16, as stated, fails on the code.  The transaction whose only key is
mastered at replica `2 ^ 32 - 1` is classified `SINGLE_HOME` with `home = -1`
in either build, and `PopulateInvolvedReplicas` leaves
`involved_replicas = [4294967295]`, which is not the list `[home]`. -/
theorem populateInvolvedReplicas_single_home_counterexample :
    (∀ kv ∈ wideMasterTxn.keys, kv.2.get_metadata.master = 4294967295)
      ∧ ∀ c : Bool,
        (SetTransactionType c wideMasterTxn).1 = TransactionType.SINGLE_HOME
          ∧ (SetTransactionType c wideMasterTxn).2.internal.home = -1
          ∧ (PopulateInvolvedReplicas c (SetTransactionType c wideMasterTxn).2).toOption.map
              (fun t => (t.internal.home, t.internal.involved_replicas))
            = some (-1, [4294967295]) := by
  refine ⟨by decide, fun c => ?_⟩
  cases c <;> decide

/-- C16, amended.  For every transaction that `SetTransactionType` classified
`SINGLE_HOME`, `PopulateInvolvedReplicas` returns and leaves `involved_replicas`
equal to the one-element list `[m]`, where `m` is the master shared by all the
keys, whatever the field held before; the home of the transaction is `m`
narrowed to `int32`, so that the list is `[home]` whenever `m < 2 ^ 31`. -/
theorem populateInvolvedReplicas_single_home (c : Bool) (t0 : Transaction)
    (hty : (SetTransactionType c t0).1 = TransactionType.SINGLE_HOME) :
    ∃ t m, PopulateInvolvedReplicas c (SetTransactionType c t0).2 = Except.ok t
      ∧ t.internal.involved_replicas = [m]
      ∧ (∀ kv ∈ t0.keys, kv.2.get_metadata.master = m)
      ∧ t.internal.home = toInt32 m
      ∧ (m < 2 ^ 31 → t.internal.involved_replicas.map Int.ofNat = [t.internal.home]) := by
  obtain ⟨hne, hall, hsame, h2⟩ := SetTransactionType_single_inv c t0 hty
  rw [h2]
  obtain ⟨kv0, hkv0, hb0⟩ := beginEntry_mem t0.keys hne
  have hmeta : (beginEntry t0.keys).has_metadata = true := by
    rw [hb0]
    exact hall kv0 hkv0
  refine ⟨_, (beginEntry t0.keys).get_metadata.master,
    PopulateInvolvedReplicas_single c _ rfl hne hmeta, rfl, hsame, rfl, fun hm => ?_⟩
  simp only [List.map_cons, List.map_nil]
  rw [toInt32_of_lt _ hm]
  rfl

/-- The amended C16 in the counterless build at the transaction with two keys
mastered at replica `1`, whose field `involved_replicas` is first filled. -/
theorem populateInvolvedReplicas_single_home_witness :
    ∃ t m, PopulateInvolvedReplicas true (SetTransactionType true codeSameMasterTxn).2
        = Except.ok t
      ∧ t.internal.involved_replicas = [m]
      ∧ (∀ kv ∈ codeSameMasterTxn.keys, kv.2.get_metadata.master = m)
      ∧ t.internal.home = toInt32 m
      ∧ (m < 2 ^ 31 → t.internal.involved_replicas.map Int.ofNat = [t.internal.home]) :=
  populateInvolvedReplicas_single_home true codeSameMasterTxn (by decide)

/-- Reading a vector of flags after one of them has been set. -/
theorem getD_set_true (flags : List Bool) (i q : Nat) (hi : i < flags.length) :
    (flags.set i true).getD q false = (flags.getD q false || decide (i = q)) := by
  by_cases hq : i = q
  · subst hq
    rw [List.getD_eq_getElem?_getD, List.getElem?_set_self hi]
    simp
  · rw [List.getD_eq_getElem?_getD, List.getElem?_set_ne hq, ← List.getD_eq_getElem?_getD]
    simp [hq]

/-- No flag of a fresh vector is set. -/
theorem getD_replicate_false (n q : Nat) : (List.replicate n false).getD q false = false := by
  rw [List.getD_eq_getElem?_getD, List.getElem?_replicate]
  by_cases hq : q < n <;> simp [hq]

/-- The first loop of `PopulateInvolvedPartitions` completes when every key maps
to an index of the vectors; a flag of `involved_partitions` ends up set when it
was set or a key maps to it, a flag of `active_partitions` when it was set or a
written key maps to it. -/
theorem partitionsLoop_ok (config : Configuration) (keys : List (Key × ValueEntry)) :
    ∀ flags : PartitionFlags,
      flags.active_partitions.length = flags.involved_partitions.length →
      (∀ kv ∈ keys, config.partition_of_key kv.1 < flags.involved_partitions.length) →
      ∃ flags', partitionsLoop config keys flags = Except.ok flags'
        ∧ (∀ q, flags'.involved_partitions.getD q false
            = (flags.involved_partitions.getD q false
              || keys.any (fun kv => decide (config.partition_of_key kv.1 = q))))
        ∧ (∀ q, flags'.active_partitions.getD q false
            = (flags.active_partitions.getD q false
              || keys.any (fun kv =>
                  decide (config.partition_of_key kv.1 = q) && decide (kv.2.type = KeyType.WRITE)))) := by
  induction keys with
  | nil =>
    intro flags _ _
    exact ⟨flags, rfl, by simp, by simp⟩
  | cons kv rest ih =>
    intro flags hlen hb
    have hkv := hb kv (List.mem_cons_self _ _)
    have hkv' : config.partition_of_key kv.1 < flags.active_partitions.length := by
      rw [hlen]
      exact hkv
    simp only [partitionsLoop, hkv, if_true]
    by_cases hw : kv.2.type = KeyType.WRITE
    · obtain ⟨flags', hok, hinv, hact⟩ := ih
        { involved_partitions := flags.involved_partitions.set (config.partition_of_key kv.1) true,
          active_partitions := flags.active_partitions.set (config.partition_of_key kv.1) true }
        (by simp [hlen])
        (fun x hx => by simpa using hb x (List.mem_cons_of_mem _ hx))
      refine ⟨flags', ?_, ?_, ?_⟩
      · simp only [hw, if_true]
        exact hok
      · intro q
        rw [hinv q, getD_set_true _ _ _ hkv]
        simp [Bool.or_assoc]
      · intro q
        rw [hact q, getD_set_true _ _ _ hkv']
        simp [hw, Bool.or_assoc]
    · obtain ⟨flags', hok, hinv, hact⟩ := ih
        { involved_partitions := flags.involved_partitions.set (config.partition_of_key kv.1) true,
          active_partitions := flags.active_partitions }
        (by simp [hlen])
        (fun x hx => by simpa using hb x (List.mem_cons_of_mem _ hx))
      refine ⟨flags', ?_, ?_, ?_⟩
      · simp only [hw, if_false]
        exact hok
      · intro q
        rw [hinv q, getD_set_true _ _ _ hkv]
        simp [Bool.or_assoc]
      · intro q
        rw [hact q]
        simp [hw]

/-- C17.  For every transaction whose `involved_partitions` and
`active_partitions` are empty and whose keys all map to partitions below
`num_partitions`, `PopulateInvolvedPartitions` returns and sets
`involved_partitions` to the strictly increasing list of the partitions of all
keys and `active_partitions` to the strictly increasing list of the partitions
that hold at least one `WRITE` key; hence every active partition is an
involved one. -/
theorem populateInvolvedPartitions_sorted (config : Configuration) (t : Transaction)
    (hinvolved : t.internal.involved_partitions = [])
    (hactive : t.internal.active_partitions = [])
    (hb : ∀ kv ∈ t.keys, config.partition_of_key kv.1 < config.num_partitions) :
    ∃ t', PopulateInvolvedPartitions config t = Except.ok t'
      ∧ t'.internal.involved_partitions.Pairwise (fun a b => a < b)
      ∧ (∀ q, q ∈ t'.internal.involved_partitions
          ↔ ∃ kv ∈ t.keys, config.partition_of_key kv.1 = q)
      ∧ t'.internal.active_partitions.Pairwise (fun a b => a < b)
      ∧ (∀ q, q ∈ t'.internal.active_partitions
          ↔ ∃ kv ∈ t.keys, config.partition_of_key kv.1 = q ∧ kv.2.type = KeyType.WRITE)
      ∧ (∀ q ∈ t'.internal.active_partitions, q ∈ t'.internal.involved_partitions) := by
  obtain ⟨flags, hok, hinv, hact⟩ := partitionsLoop_ok config t.keys
    { involved_partitions := List.replicate config.num_partitions false,
      active_partitions := List.replicate config.num_partitions false }
    (by simp) (by simpa using hb)
  have hmi : ∀ q, q ∈ setIndices flags.involved_partitions
      ↔ ∃ kv ∈ t.keys, config.partition_of_key kv.1 = q := by
    intro q
    rw [mem_setIndices, hinv q, getD_replicate_false]
    simp
  have hma : ∀ q, q ∈ setIndices flags.active_partitions
      ↔ ∃ kv ∈ t.keys, config.partition_of_key kv.1 = q ∧ kv.2.type = KeyType.WRITE := by
    intro q
    rw [mem_setIndices, hact q, getD_replicate_false]
    simp
  unfold PopulateInvolvedPartitions
  simp only [hok, hinvolved, hactive, List.nil_append]
  refine ⟨_, rfl, setIndices_sorted _, hmi, setIndices_sorted _, hma, ?_⟩
  intro q hq
  obtain ⟨kv, hkv, hkq, -⟩ := (hma q).mp hq
  exact (hmi q).mpr ⟨kv, hkv, hkq⟩

/-- C17 at the transaction reading `A` (partition `0`) and writing `B`
(partition `1`), with two partitions. -/
theorem populateInvolvedPartitions_sorted_witness :
    ∃ t', PopulateInvolvedPartitions sampleConfig readWriteTxn = Except.ok t'
      ∧ t'.internal.involved_partitions.Pairwise (fun a b => a < b)
      ∧ (∀ q, q ∈ t'.internal.involved_partitions
          ↔ ∃ kv ∈ readWriteTxn.keys, sampleConfig.partition_of_key kv.1 = q)
      ∧ t'.internal.active_partitions.Pairwise (fun a b => a < b)
      ∧ (∀ q, q ∈ t'.internal.active_partitions
          ↔ ∃ kv ∈ readWriteTxn.keys,
              sampleConfig.partition_of_key kv.1 = q ∧ kv.2.type = KeyType.WRITE)
      ∧ (∀ q ∈ t'.internal.active_partitions, q ∈ t'.internal.involved_partitions) :=
  populateInvolvedPartitions_sorted sampleConfig readWriteTxn rfl rfl (by decide)

/-! ## Auxiliary lemmas on the local log -/

/-- Inserting a slot adds it to the pending slots. -/
theorem insertSlot_perm (x : SlotId × QueueId) :
    ∀ l : List (SlotId × QueueId), (insertSlot x l).Perm (x :: l)
  | [] => List.Perm.refl _
  | head :: rest => by
    by_cases h : x.1 ≤ head.1
    · simp only [insertSlot, h, if_true]
      exact List.Perm.refl _
    · simp only [insertSlot, h, if_false]
      exact ((insertSlot_perm x rest).cons head).trans (List.Perm.swap x head rest)

/-- The members of the pending slots after an insertion. -/
theorem mem_insertSlot (x y : SlotId × QueueId) (l : List (SlotId × QueueId)) :
    y ∈ insertSlot x l ↔ y = x ∨ y ∈ l := by
  rw [(insertSlot_perm x l).mem_iff, List.mem_cons]

/-- Inserting a slot keeps the pending slots in increasing order. -/
theorem insertSlot_sorted (x : SlotId × QueueId) :
    ∀ l : List (SlotId × QueueId), l.Pairwise (fun a b => a.1 ≤ b.1) →
      (insertSlot x l).Pairwise (fun a b => a.1 ≤ b.1)
  | [], _ => by simp [insertSlot]
  | head :: rest, hl => by
    by_cases h : x.1 ≤ head.1
    · simp only [insertSlot, h, if_true]
      refine List.pairwise_cons.mpr ⟨?_, hl⟩
      intro y hy
      rcases List.mem_cons.mp hy with rfl | hy'
      · exact h
      · exact Nat.le_trans h ((List.pairwise_cons.mp hl).1 y hy')
    · simp only [insertSlot, h, if_false]
      refine List.pairwise_cons.mpr ⟨?_, insertSlot_sorted x rest (List.pairwise_cons.mp hl).2⟩
      intro y hy
      rcases (mem_insertSlot x y rest).mp hy with rfl | hy'
      · exact Nat.le_of_lt (Nat.lt_of_not_le h)
      · exact (List.pairwise_cons.mp hl).1 y hy'

/-- Inserting a slot that is not pending keeps the pending slots strictly increasing. -/
theorem insertSlot_strict (x : SlotId × QueueId) :
    ∀ l : List (SlotId × QueueId), l.Pairwise (fun a b => a.1 < b.1) →
      (∀ y ∈ l, y.1 ≠ x.1) → (insertSlot x l).Pairwise (fun a b => a.1 < b.1)
  | [], _, _ => by simp [insertSlot]
  | head :: rest, hl, hne => by
    have hhead : head.1 ≠ x.1 := hne head (List.mem_cons_self _ _)
    by_cases h : x.1 ≤ head.1
    · simp only [insertSlot, h, if_true]
      have hlt : x.1 < head.1 := Nat.lt_of_le_of_ne h (Ne.symm hhead)
      refine List.pairwise_cons.mpr ⟨?_, hl⟩
      intro y hy
      rcases List.mem_cons.mp hy with rfl | hy'
      · exact hlt
      · exact Nat.lt_trans hlt ((List.pairwise_cons.mp hl).1 y hy')
    · simp only [insertSlot, h, if_false]
      refine List.pairwise_cons.mpr
        ⟨?_, insertSlot_strict x rest (List.pairwise_cons.mp hl).2
          (fun y hy => hne y (List.mem_cons_of_mem _ hy))⟩
      intro y hy
      rcases (mem_insertSlot x y rest).mp hy with rfl | hy'
      · exact Nat.lt_of_not_le h
      · exact (List.pairwise_cons.mp hl).1 y hy'

/-- Taking out a batch that is in the buffer removes exactly one occurrence of it. -/
theorem perm_cons_removeFirst (e : Nat × BatchId) :
    ∀ l : List (Nat × BatchId), e ∈ l → (e :: removeFirst e l).Perm l
  | [], h => by cases h
  | x :: rest, h => by
    by_cases hx : x = e
    · subst hx
      simp only [removeFirst, if_true]
      exact List.Perm.refl _
    · simp only [removeFirst, hx, if_false]
      have hmem : e ∈ rest := by
        rcases List.mem_cons.mp h with rfl | h'
        · exact absurd rfl hx
        · exact h'
      exact (List.Perm.swap x e _).trans ((perm_cons_removeFirst e rest hmem).cons x)

/-- Taking out a batch that is in the buffer makes the buffer one batch shorter. -/
theorem length_removeFirst (e : Nat × BatchId) (l : List (Nat × BatchId)) (h : e ∈ l) :
    (removeFirst e l).length + 1 = l.length := by
  have := (perm_cons_removeFirst e l h).length_eq
  simpa using this

/-- Releasing batches moves them from the reorder buffer to the ready batches. -/
theorem releaseReady_perm :
    ∀ (rounds : Nat) (queue : BatchQueue),
      ((releaseReady rounds queue).ready ++ (releaseReady rounds queue).buffer).Perm
        (queue.ready ++ queue.buffer)
  | 0, queue => List.Perm.refl _
  | rounds + 1, queue => by
    cases hf : queue.buffer.find? (fun e => e.1 == queue.next_position) with
    | none =>
      simp only [releaseReady, hf]
      exact List.Perm.refl _
    | some e =>
      simp only [releaseReady, hf]
      refine (releaseReady_perm rounds _).trans ?_
      have hmem : e ∈ queue.buffer := List.mem_of_find?_eq_some hf
      simp only [List.append_assoc, List.singleton_append]
      exact List.Perm.append_left _ (perm_cons_removeFirst e _ hmem)

/-- Releasing batches keeps the released positions contiguous: if the positions
released before are those below `next_position`, so are they afterwards. -/
theorem releaseReady_contiguous :
    ∀ (rounds : Nat) (queue : BatchQueue) (before : List Nat),
      before ++ queue.ready.map Prod.fst = List.range queue.next_position →
      before ++ (releaseReady rounds queue).ready.map Prod.fst
        = List.range (releaseReady rounds queue).next_position
  | 0, _, _, h => h
  | rounds + 1, queue, before, h => by
    cases hf : queue.buffer.find? (fun e => e.1 == queue.next_position) with
    | none =>
      simp only [releaseReady, hf]
      exact h
    | some e =>
      simp only [releaseReady, hf]
      apply releaseReady_contiguous rounds
      have he : e.1 = queue.next_position := by
        have := List.find?_some hf
        simpa using this
      simp only [List.map_append, List.map_cons, List.map_nil, ← List.append_assoc, h,
        List.range_succ, he]

/-- Releasing batches, with as many rounds as the buffer has batches, leaves no
batch at `next_position` in the buffer. -/
theorem releaseReady_released :
    ∀ (rounds : Nat) (queue : BatchQueue), queue.buffer.length ≤ rounds →
      ∀ e ∈ (releaseReady rounds queue).buffer, e.1 ≠ (releaseReady rounds queue).next_position
  | 0, queue, hlen => by
    have : queue.buffer = [] := List.length_eq_zero.mp (Nat.le_zero.mp hlen)
    intro e he
    simp only [releaseReady, this] at he
    cases he
  | rounds + 1, queue, hlen => by
    cases hf : queue.buffer.find? (fun e => e.1 == queue.next_position) with
    | none =>
      simp only [releaseReady, hf]
      intro e he
      have := List.find?_eq_none.mp hf e he
      simpa using this
    | some e =>
      simp only [releaseReady, hf]
      apply releaseReady_released rounds
      have hmem : e ∈ queue.buffer := List.mem_of_find?_eq_some hf
      have := length_removeFirst e _ hmem
      show (removeFirst e queue.buffer).length ≤ rounds
      omega

/-- Running one more call. -/
theorem run_snoc (calls : List Call) (call : Call) :
    run (calls ++ [call])
      = (((run calls).1.step call).1, (run calls).2 ++ ((run calls).1.step call).2.toList) := by
  simp [run, runFrom, List.foldl_append]

/-- The slots added by one more call. -/
theorem addedSlots_snoc (calls : List Call) (call : Call) :
    addedSlots (calls ++ [call]) = addedSlots calls ++ call.slot?.toList := by
  cases h : call.slot? <;> simp [addedSlots, List.filterMap_append, h]

/-- The batches added to a queue by one more call. -/
theorem addedBatches_snoc (q : QueueId) (calls : List Call) (call : Call) :
    addedBatches q (calls ++ [call]) = addedBatches q calls ++ (call.batch? q).toList := by
  cases h : call.batch? q <;> simp [addedBatches, List.filterMap_append, h]

/-- The entries of a queue after one more entry. -/
theorem entriesOf_snoc (q : QueueId) (entries : List LogEntry) (e : LogEntry) :
    entriesOf q (entries ++ [e])
      = entriesOf q entries ++ (if e.queue_id = q then [(e.position, e.batch_id)] else []) := by
  by_cases h : e.queue_id = q <;> simp [entriesOf, List.filter_append, h]

/-- The invariant holds of a fresh log. -/
theorem LogInvariant.fresh : LogInvariant [] (LocalLog.fresh, []) where
  slots_perm := List.Perm.refl _
  slots_sorted := List.Pairwise.nil
  batches_perm := fun _ => List.Perm.refl _
  contiguous := fun _ => rfl
  released := fun _ e he => by cases he

/-- A call of `HasNextBatch`, or of `NextBatch` without a next batch, keeps the invariant. -/
theorem LogInvariant.idle (calls : List Call) (state : LocalLog × List LogEntry) (call : Call)
    (hs : call.slot? = none) (hb : ∀ q, call.batch? q = none)
    (h : LogInvariant calls state) : LogInvariant (calls ++ [call]) (state.1, state.2 ++ []) := by
  constructor
  · rw [addedSlots_snoc, hs]
    simpa using h.slots_perm
  · exact h.slots_sorted
  · intro q
    rw [addedBatches_snoc, hb q]
    simpa using h.batches_perm q
  · intro q
    simpa using h.contiguous q
  · exact h.released

/-- A call of `AddSlot` keeps the invariant. -/
theorem LogInvariant.addSlot (calls : List Call) (state : LocalLog × List LogEntry)
    (slot_id : SlotId) (queue_id : QueueId) (h : LogInvariant calls state) :
    LogInvariant (calls ++ [Call.AddSlot slot_id queue_id])
      (state.1.AddSlot slot_id queue_id, state.2 ++ []) := by
  constructor
  · rw [addedSlots_snoc]
    simp only [Call.slot?, Option.toList, List.append_nil, LocalLog.AddSlot]
    refine (h.slots_perm.append_right [(slot_id, queue_id)]).trans ?_
    rw [List.append_assoc]
    refine List.Perm.append_left _ ?_
    exact (List.perm_append_comm).trans (insertSlot_perm _ _).symm
  · exact insertSlot_sorted _ _ h.slots_sorted
  · intro q
    rw [addedBatches_snoc]
    simpa [Call.batch?] using h.batches_perm q
  · intro q
    simpa using h.contiguous q
  · exact h.released

/-- The queue that `AddBatchId` works on, after the call. -/
theorem AddBatchId_queue (log : LocalLog) (queue_id : QueueId) (position : Nat)
    (batch_id : BatchId) :
    (log.AddBatchId queue_id position batch_id).queues queue_id
      = releaseReady ((log.queues queue_id).buffer ++ [(position, batch_id)]).length
          { log.queues queue_id with
            buffer := (log.queues queue_id).buffer ++ [(position, batch_id)] } := by
  simp [LocalLog.AddBatchId]

/-- The other queues are not touched by `AddBatchId`. -/
theorem AddBatchId_other (log : LocalLog) (queue_id : QueueId) (position : Nat)
    (batch_id : BatchId) (q : QueueId) (hq : q ≠ queue_id) :
    (log.AddBatchId queue_id position batch_id).queues q = log.queues q := by
  simp [LocalLog.AddBatchId, hq]

/-- A call of `AddBatchId` keeps the invariant. -/
theorem LogInvariant.addBatchId (calls : List Call) (state : LocalLog × List LogEntry)
    (queue_id : QueueId) (position : Nat) (batch_id : BatchId) (h : LogInvariant calls state) :
    LogInvariant (calls ++ [Call.AddBatchId queue_id position batch_id])
      (state.1.AddBatchId queue_id position batch_id, state.2 ++ []) := by
  constructor
  · rw [addedSlots_snoc]
    simpa [Call.slot?, LocalLog.AddBatchId] using h.slots_perm
  · exact h.slots_sorted
  · intro q
    rw [addedBatches_snoc, List.append_nil]
    by_cases hq : q = queue_id
    · subst hq
      rw [AddBatchId_queue]
      simp only [Call.batch?, if_true, Option.toList]
      refine ((h.batches_perm q).append_right [(position, batch_id)]).trans ?_
      rw [List.append_assoc]
      refine List.Perm.append_left _ ?_
      rw [List.append_assoc]
      exact (releaseReady_perm _
        { state.1.queues q with
          buffer := (state.1.queues q).buffer ++ [(position, batch_id)] }).symm
    · rw [AddBatchId_other _ _ _ _ q hq]
      have hq' : ¬ queue_id = q := fun e => hq e.symm
      simpa [Call.batch?, hq'] using h.batches_perm q
  · intro q
    rw [List.append_nil]
    by_cases hq : q = queue_id
    · subst hq
      rw [AddBatchId_queue]
      exact releaseReady_contiguous _
        { state.1.queues q with
          buffer := (state.1.queues q).buffer ++ [(position, batch_id)] } _ (h.contiguous q)
    · rw [AddBatchId_other _ _ _ _ q hq]
      exact h.contiguous q
  · intro q
    by_cases hq : q = queue_id
    · subst hq
      rw [AddBatchId_queue]
      exact releaseReady_released _
        { state.1.queues q with
          buffer := (state.1.queues q).buffer ++ [(position, batch_id)] } (Nat.le_refl _)
    · rw [AddBatchId_other _ _ _ _ q hq]
      exact h.released q

/-- What `NextEntry` returns when it returns an entry. -/
theorem NextEntry_some (log : LocalLog) (entry : LogEntry) (log' : LocalLog)
    (h : log.NextEntry = some (entry, log')) :
    log.slots = (entry.slot, entry.queue_id) :: log'.slots
      ∧ (log.queues entry.queue_id).ready
          = (entry.position, entry.batch_id) :: (log'.queues entry.queue_id).ready
      ∧ (log'.queues entry.queue_id).buffer = (log.queues entry.queue_id).buffer
      ∧ (log'.queues entry.queue_id).next_position = (log.queues entry.queue_id).next_position
      ∧ ∀ q, q ≠ entry.queue_id → log'.queues q = log.queues q := by
  unfold LocalLog.NextEntry at h
  cases hs : log.slots with
  | nil => simp [hs] at h
  | cons head slots =>
    obtain ⟨slot_id, queue_id⟩ := head
    cases hr : (log.queues queue_id).ready with
    | nil => simp [hs, hr] at h
    | cons first ready =>
      obtain ⟨position, batch_id⟩ := first
      simp only [hs, hr, Option.some.injEq, Prod.mk.injEq] at h
      obtain ⟨he, hl⟩ := h
      subst he
      subst hl
      refine ⟨rfl, ?_, ?_, ?_, ?_⟩
      · simp [hr]
      · simp
      · simp
      · intro q hq
        simp only at hq
        simp [hq]

/-- A call of `NextBatch` that returns an entry keeps the invariant. -/
theorem LogInvariant.nextEntry (calls : List Call) (state : LocalLog × List LogEntry)
    (entry : LogEntry) (log' : LocalLog) (hn : state.1.NextEntry = some (entry, log'))
    (h : LogInvariant calls state) :
    LogInvariant (calls ++ [Call.NextBatch]) (log', state.2 ++ [entry]) := by
  obtain ⟨hslots, hready, hbuffer, hnext, hother⟩ := NextEntry_some _ _ _ hn
  constructor
  · rw [addedSlots_snoc]
    have := h.slots_perm
    rw [hslots] at this
    simpa [Call.slot?, slotsOf] using this
  · have := h.slots_sorted
    rw [hslots] at this
    exact (List.pairwise_cons.mp this).2
  · intro q
    rw [addedBatches_snoc, entriesOf_snoc]
    by_cases hq : entry.queue_id = q
    · subst hq
      have := h.batches_perm entry.queue_id
      rw [hready] at this
      simpa [Call.batch?, hbuffer] using this
    · have hq' : q ≠ entry.queue_id := fun e => hq e.symm
      simpa [Call.batch?, hq, hother q hq'] using h.batches_perm q
  · intro q
    rw [entriesOf_snoc]
    by_cases hq : entry.queue_id = q
    · subst hq
      have := h.contiguous entry.queue_id
      rw [hready] at this
      simpa [hnext] using this
    · have hq' : q ≠ entry.queue_id := fun e => hq e.symm
      simpa [hq, hother q hq'] using h.contiguous q
  · intro q
    by_cases hq : entry.queue_id = q
    · subst hq
      rw [hbuffer, hnext]
      exact h.released entry.queue_id
    · have hq' : q ≠ entry.queue_id := fun e => hq e.symm
      rw [hother q hq']
      exact h.released q

/-- The invariant holds after every sequence of calls on a fresh log. -/
theorem logInvariant_run (calls : List Call) : LogInvariant calls (run calls) := by
  induction calls using List.reverseRecOn with
  | nil => exact LogInvariant.fresh
  | append_singleton calls call ih =>
    rw [run_snoc]
    cases call with
    | AddBatchId queue_id position batch_id => exact ih.addBatchId _ _ _ _ _
    | AddSlot slot_id queue_id => exact ih.addSlot _ _ _ _
    | HasNextBatch => exact ih.idle _ _ _ rfl (fun _ => rfl)
    | NextBatch =>
      cases hn : (run calls).1.NextEntry with
      | none =>
        simp only [LocalLog.step, hn]
        exact ih.idle _ _ _ rfl (fun _ => rfl)
      | some r =>
        obtain ⟨entry, log'⟩ := r
        simp only [LocalLog.step, hn]
        exact ih.nextEntry _ _ _ _ hn

/-- The fold that checks the order of the slots carries the run along. -/
theorem slotsInOrder_fold_fst (calls : List Call) :
    ∀ acc : (LocalLog × List LogEntry) × Bool,
      (calls.foldl
        (fun acc call =>
          (((acc.1.1.step call).1, acc.1.2 ++ (acc.1.1.step call).2.toList),
            acc.2 && slotInOrder acc.1 call)) acc).1 = runFrom acc.1 calls := by
  induction calls with
  | nil => intro acc; rfl
  | cons call rest ih =>
    intro acc
    simp only [List.foldl_cons, ih, runFrom]

/-- Checking the order of the slots for one more call. -/
theorem slotsInOrder_snoc (calls : List Call) (call : Call) :
    slotsInOrder (calls ++ [call]) = (slotsInOrder calls && slotInOrder (run calls) call) := by
  simp only [slotsInOrder, List.foldl_append, List.foldl_cons, List.foldl_nil,
    slotsInOrder_fold_fst, run]

/-- When every call respected the order of the slots, the pending slots and the
returned slots are strictly increasing, the returned ones below the pending ones. -/
theorem slotInvariant_run (calls : List Call) :
    slotsInOrder calls = true → SlotInvariant (run calls) := by
  induction calls using List.reverseRecOn with
  | nil =>
    intro _
    exact ⟨List.Pairwise.nil, fun e he => (by cases he), List.Pairwise.nil⟩
  | append_singleton calls call ih =>
    intro h
    rw [slotsInOrder_snoc, Bool.and_eq_true] at h
    obtain ⟨hpending, hbelow, hreturned⟩ := ih h.1
    have hcall := h.2
    rw [run_snoc]
    cases call with
    | AddBatchId queue_id position batch_id =>
      exact ⟨hpending, (by simpa [LocalLog.step] using hbelow),
        (by simpa [LocalLog.step] using hreturned)⟩
    | HasNextBatch =>
      exact ⟨hpending, (by simpa [LocalLog.step] using hbelow),
        (by simpa [LocalLog.step] using hreturned)⟩
    | AddSlot slot_id queue_id =>
      simp only [slotInOrder, Bool.and_eq_true, List.all_eq_true, decide_eq_true_eq] at hcall
      refine ⟨?_, ?_, (by simpa [LocalLog.step] using hreturned)⟩
      · exact insertSlot_strict _ _ hpending (fun y hy => hcall.2 y hy)
      · intro e he x hx
        have he' : e ∈ (run calls).2 := by simpa [LocalLog.step] using he
        rcases (mem_insertSlot _ _ _).mp hx with rfl | hx'
        · exact hcall.1 e he'
        · exact hbelow e he' x hx'
    | NextBatch =>
      cases hn : (run calls).1.NextEntry with
      | none =>
        simp only [LocalLog.step, hn]
        exact ⟨hpending, (by simpa using hbelow), (by simpa using hreturned)⟩
      | some r =>
        obtain ⟨entry, log'⟩ := r
        simp only [LocalLog.step, hn]
        obtain ⟨hslots, -⟩ := NextEntry_some _ _ _ hn
        rw [hslots] at hpending hbelow
        obtain ⟨hhead, htail⟩ := List.pairwise_cons.mp hpending
        refine ⟨htail, ?_, ?_⟩
        · intro e he x hx
          rcases List.mem_append.mp he with he' | he'
          · exact hbelow e he' x (List.mem_cons_of_mem _ hx)
          · have : e = entry := by simpa using he'
            subst this
            exact hhead x hx
        · refine List.pairwise_append.mpr ⟨hreturned, (by simp), ?_⟩
          intro e he x hx
          have : x = entry := by simpa using hx
          subst this
          exact hbelow e he _ (List.mem_cons_self _ _)

/-- The batches added to a queue are those of its calls of `AddBatchId`. -/
theorem mem_addedBatches (q : QueueId) (position : Nat) (batch_id : BatchId)
    (calls : List Call) :
    (position, batch_id) ∈ addedBatches q calls ↔ Call.AddBatchId q position batch_id ∈ calls := by
  simp only [addedBatches, List.mem_filterMap]
  constructor
  · rintro ⟨call, hcall, h⟩
    cases call with
    | AddBatchId q' position' batch_id' =>
      by_cases hq : q' = q
      · simp only [Call.batch?, hq, if_true, Option.some.injEq, Prod.mk.injEq] at h
        obtain ⟨rfl, rfl⟩ := h
        rw [← hq]
        exact hcall
      · simp [Call.batch?, hq] at h
    | AddSlot _ _ => simp [Call.batch?] at h
    | HasNextBatch => simp [Call.batch?] at h
    | NextBatch => simp [Call.batch?] at h
  · intro h
    exact ⟨_, h, by simp [Call.batch?]⟩

/-! ## Properties of the local log -/

/-- What the local log as specified returns when a call of `NextBatch` comes
between slots that are added out of order: with slot `3` added after slot `5`
has been returned, `(5, 100)` and then `(3, 200)`; and with slot `0` added
twice, `(0, 100)` and then `(0, 200)`.  The specification of the algorithm
holds no slot back until the smaller ones have come. -/
theorem localLog_late_slot_sample :
    returned lateSlotCalls = [(5, 100), (3, 200)]
      ∧ returned repeatedSlotCalls = [(0, 100), (0, 200)] := by
  refine ⟨by decide, by decide⟩

/-- Of the local log as specified, for every sequence of `AddBatchId`, `AddSlot`,
`HasNextBatch` and `NextBatch` calls on a fresh `LocalLog`: the batches of each
queue are returned in strictly increasing position, and the returned pairs
correspond, one to one, to added slots and to added batches; and when every
slot that is added is not pending already and is greater than every slot
returned so far, the returned slots are strictly increasing. -/
theorem localLog_returned_entries (calls : List Call) :
    (slotsInOrder calls = true → (returned calls).Pairwise (fun a b => a.1 < b.1))
      ∧ (∀ q, ((entriesOf q (run calls).2).map Prod.fst).Pairwise (fun a b => a < b))
      ∧ (slotsOf (run calls).2).Subperm (addedSlots calls)
      ∧ (∀ q, (entriesOf q (run calls).2).Subperm (addedBatches q calls)) := by
  have hinv := logInvariant_run calls
  refine ⟨fun h => ?_, fun q => ?_, ?_, fun q => ?_⟩
  · have := (slotInvariant_run calls h).returned_strict
    simpa [returned, List.pairwise_map] using this
  · have hrange : ((entriesOf q (run calls).2).map Prod.fst
        ++ ((run calls).1.queues q).ready.map Prod.fst).Pairwise (fun a b => a < b) := by
      rw [hinv.contiguous q]
      exact List.pairwise_lt_range _
    exact (List.pairwise_append.mp hrange).1
  · exact (List.sublist_append_left _ _).subperm.trans hinv.slots_perm.symm.subperm
  · exact (List.sublist_append_left _ _).subperm.trans (hinv.batches_perm q).symm.subperm

/-- The calls of the unit test `MultipleNextBatches`, where all slots are added
before the first call of `NextBatch`, return the slots in increasing order. -/
theorem localLog_returned_entries_sample :
    (returned multipleNextBatchesCalls).Pairwise (fun a b => a.1 < b.1) :=
  (localLog_returned_entries multipleNextBatchesCalls).1 (by decide)

/-- C19.  After every sequence of calls on a fresh `LocalLog`, the pending
slots are the added slots that were not returned, and the head of their queue
is the smallest of them; `HasNextBatch` returns true if and only if there is a
pending slot and the queue named by the head slot has a ready batch; in that
case `NextBatch` returns that slot with the oldest ready batch of that queue,
removes both and leaves the other queues alone, and otherwise it returns
nothing; and a call of `HasNextBatch` anywhere in a sequence of calls changes
neither the log nor what the calls of `NextBatch` return. -/
theorem localLog_hasNextBatch (calls before after : List Call) :
    (addedSlots calls).Perm (slotsOf (run calls).2 ++ (run calls).1.slots)
      ∧ (∀ s q rest, (run calls).1.slots = (s, q) :: rest → ∀ x ∈ rest, s ≤ x.1)
      ∧ ((run calls).1.HasNextBatch = true
          ↔ ∃ s q rest, (run calls).1.slots = (s, q) :: rest
              ∧ ((run calls).1.queues q).ready ≠ [])
      ∧ (∀ s q rest position batch_id ready,
          (run calls).1.slots = (s, q) :: rest →
          ((run calls).1.queues q).ready = (position, batch_id) :: ready →
          ∃ log', (run calls).1.NextBatch = some ((s, batch_id), log')
            ∧ log'.slots = rest
            ∧ (log'.queues q).ready = ready
            ∧ ∀ q', q' ≠ q → log'.queues q' = (run calls).1.queues q')
      ∧ ((run calls).1.HasNextBatch = false → (run calls).1.NextBatch = none)
      ∧ run (before ++ Call.HasNextBatch :: after) = run (before ++ after) := by
  have hinv := logInvariant_run calls
  refine ⟨hinv.slots_perm, ?_, ?_, ?_, ?_, ?_⟩
  · intro s q rest hs
    have := hinv.slots_sorted
    rw [hs] at this
    exact (List.pairwise_cons.mp this).1
  · unfold LocalLog.HasNextBatch
    cases hs : (run calls).1.slots with
    | nil => simp
    | cons head rest =>
      obtain ⟨s, q⟩ := head
      cases hr : ((run calls).1.queues q).ready with
      | nil =>
        simp only [hr, List.isEmpty_nil, Bool.not_true, Bool.false_eq_true, false_iff]
        rintro ⟨s', q', rest', he, hne⟩
        simp only [List.cons.injEq, Prod.mk.injEq] at he
        obtain ⟨⟨-, rfl⟩, -⟩ := he
        exact hne hr
      | cons first ready =>
        simp only [hr, List.isEmpty_cons, Bool.not_false, true_iff]
        exact ⟨s, q, rest, rfl, by rw [hr]; simp⟩
  · intro s q rest position batch_id ready hs hr
    refine ⟨{ queues := fun q' =>
                if q' = q then { (run calls).1.queues q with ready := ready }
                else (run calls).1.queues q',
              slots := rest }, ?_, rfl, ?_, ?_⟩
    · simp only [LocalLog.NextBatch, LocalLog.NextEntry, hs, hr, Option.map_some']
    · simp
    · intro q' hq'
      simp [hq']
  · intro h
    cases hs : (run calls).1.slots with
    | nil => simp [LocalLog.NextBatch, LocalLog.NextEntry, hs]
    | cons head rest =>
      obtain ⟨s, q⟩ := head
      cases hr : ((run calls).1.queues q).ready with
      | nil => simp [LocalLog.NextBatch, LocalLog.NextEntry, hs, hr]
      | cons first ready => simp [LocalLog.HasNextBatch, hs, hr] at h
  · simp [run, runFrom, List.foldl_append, LocalLog.step]

/-- C20.  After every sequence of calls on a fresh `LocalLog`, a batch at
position `p` of queue `q` is ready or has been returned if and only if batches
have been added at all the positions `0, ..., p` of `q`; so a batch is never
returned, and never makes `HasNextBatch` true, before the batches at all the
positions before it have been added.  And the batches of `q` returned so far
are those of the positions `0, 1, ..., k - 1`, in this order. -/
theorem localLog_contiguous_release (calls : List Call) (q : QueueId) (p : Nat) :
    (((∃ batch_id, (p, batch_id) ∈ ((run calls).1.queues q).ready)
          ∨ (∃ e ∈ (run calls).2, e.queue_id = q ∧ e.position = p))
        ↔ ∀ p', p' ≤ p → ∃ batch_id, Call.AddBatchId q p' batch_id ∈ calls)
      ∧ ∃ k, (entriesOf q (run calls).2).map Prod.fst = List.range k := by
  have hinv := logInvariant_run calls
  have hcont := hinv.contiguous q
  have hperm := hinv.batches_perm q
  have hreleased : ∀ p', p' < ((run calls).1.queues q).next_position ↔
      ∃ batch_id, (p', batch_id) ∈ entriesOf q (run calls).2 ++ ((run calls).1.queues q).ready := by
    intro p'
    rw [← List.mem_range, ← hcont, ← List.map_append, List.mem_map]
    constructor
    · rintro ⟨⟨p'', b⟩, hmem, rfl⟩
      exact ⟨b, hmem⟩
    · rintro ⟨b, hmem⟩
      exact ⟨(p', b), hmem, rfl⟩
  have hentries : ∀ p' b, (p', b) ∈ entriesOf q (run calls).2
      ↔ ∃ e ∈ (run calls).2, e.queue_id = q ∧ e.position = p' ∧ e.batch_id = b := by
    intro p' b
    simp only [entriesOf, List.mem_map, List.mem_filter, decide_eq_true_eq, Prod.mk.injEq]
    constructor
    · rintro ⟨e, ⟨he, hq⟩, hp, hb⟩
      exact ⟨e, he, hq, hp, hb⟩
    · rintro ⟨e, he, hq, hp, hb⟩
      exact ⟨e, ⟨he, hq⟩, hp, hb⟩
  have hiff : ((∃ batch_id, (p, batch_id) ∈ ((run calls).1.queues q).ready)
        ∨ (∃ e ∈ (run calls).2, e.queue_id = q ∧ e.position = p))
      ↔ p < ((run calls).1.queues q).next_position := by
    rw [hreleased p]
    constructor
    · rintro (⟨b, hb⟩ | ⟨e, he, hq, hp⟩)
      · exact ⟨b, List.mem_append_right _ hb⟩
      · exact ⟨e.batch_id, List.mem_append_left _ ((hentries p e.batch_id).mpr ⟨e, he, hq, hp, rfl⟩)⟩
    · rintro ⟨b, hb⟩
      rcases List.mem_append.mp hb with h | h
      · obtain ⟨e, he, hq, hp, -⟩ := (hentries p b).mp h
        exact Or.inr ⟨e, he, hq, hp⟩
      · exact Or.inl ⟨b, h⟩
  refine ⟨?_, ?_⟩
  · rw [hiff]
    constructor
    · intro hp p' hp'
      obtain ⟨b, hb⟩ := (hreleased p').mp (Nat.lt_of_le_of_lt hp' hp)
      refine ⟨b, (mem_addedBatches q p' b calls).mp ?_⟩
      rw [hperm.mem_iff, ← List.append_assoc]
      exact List.mem_append_left _ hb
    · intro hall
      by_contra hlt
      have hle : ((run calls).1.queues q).next_position ≤ p := Nat.le_of_not_lt hlt
      obtain ⟨b, hb⟩ := hall _ hle
      have hmem := (mem_addedBatches q _ b calls).mpr hb
      rw [hperm.mem_iff, ← List.append_assoc] at hmem
      rcases List.mem_append.mp hmem with h | h
      · exact absurd ((hreleased _).mpr ⟨b, h⟩) (Nat.lt_irrefl _)
      · exact hinv.released q _ h rfl
  · refine ⟨((entriesOf q (run calls).2).map Prod.fst).length, ?_⟩
    have htake := congrArg (List.take ((entriesOf q (run calls).2).map Prod.fst).length) hcont
    rw [List.take_left, List.take_range] at htake
    have hlen : ((entriesOf q (run calls).2).map Prod.fst).length
        ≤ ((run calls).1.queues q).next_position := by
      have := congrArg List.length hcont
      rw [List.length_append, List.length_range] at this
      omega
    rw [Nat.min_eq_left hlen] at htake
    exact htake

/-! ## Merging key sets -/

/-- Inserting into a map keeps its entries. -/
theorem mem_foldl_mapInsert_left (other : List (Key × ValueEntry)) :
    ∀ keys : List (Key × ValueEntry), ∀ kv ∈ keys, kv ∈ other.foldl mapInsert keys := by
  induction other with
  | nil => intro keys kv h; exact h
  | cons e rest ih =>
    intro keys kv h
    simp only [List.foldl_cons]
    apply ih
    unfold mapInsert
    by_cases hany : keys.any (fun x => x.1 == e.1) = true
    · rw [if_pos hany]
      exact h
    · rw [if_neg hany]
      exact List.mem_append_left _ h

/-- An entry of the merged map is an entry of the map merged into, or an entry
of the other map whose key the map merged into does not have. -/
theorem mem_foldl_mapInsert (other : List (Key × ValueEntry)) :
    ∀ keys : List (Key × ValueEntry), ∀ kv ∈ other.foldl mapInsert keys,
      kv ∈ keys ∨ (kv ∈ other ∧ ∀ e ∈ keys, e.1 ≠ kv.1) := by
  induction other with
  | nil => intro keys kv h; exact Or.inl h
  | cons e rest ih =>
    intro keys kv h
    simp only [List.foldl_cons] at h
    by_cases hany : keys.any (fun x => x.1 == e.1) = true
    · have hm : mapInsert keys e = keys := by
        unfold mapInsert
        rw [if_pos hany]
      rw [hm] at h
      rcases ih keys kv h with h1 | ⟨h1, h2⟩
      · exact Or.inl h1
      · exact Or.inr ⟨List.mem_cons_of_mem _ h1, h2⟩
    · have hm : mapInsert keys e = keys ++ [e] := by
        unfold mapInsert
        rw [if_neg hany]
      rw [hm] at h
      rcases ih (keys ++ [e]) kv h with h1 | ⟨h1, h2⟩
      · rcases List.mem_append.mp h1 with h1 | h1
        · exact Or.inl h1
        · have hkv : kv = e := by simpa using h1
          subst hkv
          refine Or.inr ⟨List.mem_cons_self _ _, ?_⟩
          intro x hx hxe
          apply hany
          rw [List.any_eq_true]
          exact ⟨x, hx, by simpa using hxe⟩
      · exact Or.inr ⟨List.mem_cons_of_mem _ h1,
          fun x hx => h2 x (List.mem_append_left _ hx)⟩

/-- Merging a map with distinct keys into another: the entries of the other map
whose key is new are appended, in order. -/
theorem foldl_mapInsert_eq (other : List (Key × ValueEntry)) :
    ∀ keys : List (Key × ValueEntry), (other.map Prod.fst).Nodup →
      other.foldl mapInsert keys
        = keys ++ other.filter (fun kv => !keys.any (fun e => e.1 == kv.1)) := by
  induction other with
  | nil => intro keys _; simp
  | cons e rest ih =>
    intro keys hnd
    have hnd' : (rest.map Prod.fst).Nodup := (List.nodup_cons.mp hnd).2
    have hnot : ∀ x ∈ rest, x.1 ≠ e.1 := by
      intro x hx hxe
      exact (List.nodup_cons.mp hnd).1 (List.mem_map.mpr ⟨x, hx, hxe⟩)
    simp only [List.foldl_cons]
    by_cases hany : keys.any (fun x => x.1 == e.1) = true
    · have hm : mapInsert keys e = keys := by
        unfold mapInsert
        rw [if_pos hany]
      rw [hm, ih keys hnd']
      simp [List.filter_cons, hany]
    · have hm : mapInsert keys e = keys ++ [e] := by
        unfold mapInsert
        rw [if_neg hany]
      have hany' : keys.any (fun x => x.1 == e.1) = false := (Bool.not_eq_true _).mp hany
      rw [hm, ih (keys ++ [e]) hnd']
      have hfilter : rest.filter (fun kv => !(keys ++ [e]).any (fun x => x.1 == kv.1))
          = rest.filter (fun kv => !keys.any (fun x => x.1 == kv.1)) := by
        apply List.filter_congr
        intro x hx
        have : (e.1 == x.1) = false := by
          simpa using fun h : e.1 = x.1 => hnot x hx h.symm
        simp [List.any_append, this]
      rw [hfilter]
      simp [List.filter_cons, hany']

/-- What `MergeTransaction` does to the keys when ids and types agree and
neither transaction is aborted. -/
theorem MergeTransaction_keys (txn other : Transaction)
    (hid : txn.internal.id = other.internal.id)
    (hty : txn.internal.type = other.internal.type)
    (ha : txn.status ≠ TransactionStatus.ABORTED)
    (hb : other.status ≠ TransactionStatus.ABORTED) :
    ∃ r, MergeTransaction txn other = Except.ok r
      ∧ r.status = txn.status
      ∧ r.abort_reason = txn.abort_reason
      ∧ r.keys = other.keys.foldl mapInsert txn.keys := by
  unfold MergeTransaction
  rw [if_neg (not_not.mpr hid), if_neg (not_not.mpr hty)]
  simp only [if_neg hb, if_pos ha]
  exact ⟨_, rfl, rfl, rfl, rfl⟩

/-- C25, as stated, fails on the code.  Two committed results for transaction
`1` hold different values, `x` and `y`, for the key `A`; merging the second
into the first returns a transaction that is still `COMMITTED` and keeps the
entry `x`: no conflict is detected and nothing is aborted. -/
theorem mergeTransaction_conflict_counterexample :
    resultWithX.status ≠ TransactionStatus.ABORTED
      ∧ resultWithY.status ≠ TransactionStatus.ABORTED
      ∧ ("A", valueEntry "x") ∈ resultWithX.keys
      ∧ ("A", valueEntry "y") ∈ resultWithY.keys
      ∧ valueEntry "x" ≠ valueEntry "y"
      ∧ (MergeTransaction resultWithX resultWithY).toOption.map
          (fun r => (r.status, r.keys))
        = some (TransactionStatus.COMMITTED,
            [("A", valueEntry "x"), ("B", valueEntry "z")]) := by
  refine ⟨by decide, by decide, by decide, by decide, by decide, by decide⟩

/-- C25, amended.  For every pair of non-aborted transactions `a` and `b` with
the same id and type that both contain some key `k`, with entries `ea` and
`eb`, `MergeTransaction(a, b)` returns and leaves the status and the abort
reason of `a` as they were, hence not `ABORTED`; `a` keeps its own entry `ea`
for `k`, and when the entries differ that of `b` is dropped.  The keys of `a`
are distinct, as those of a map are. -/
theorem mergeTransaction_conflict_keeps_first (a b : Transaction) (k : Key)
    (ea eb : ValueEntry)
    (hid : a.internal.id = b.internal.id)
    (hty : a.internal.type = b.internal.type)
    (ha : a.status ≠ TransactionStatus.ABORTED)
    (hb : b.status ≠ TransactionStatus.ABORTED)
    (hdistinct : (a.keys.map Prod.fst).Nodup)
    (hka : (k, ea) ∈ a.keys) (_hkb : (k, eb) ∈ b.keys) :
    ∃ r, MergeTransaction a b = Except.ok r
      ∧ r.status = a.status
      ∧ r.status ≠ TransactionStatus.ABORTED
      ∧ r.abort_reason = a.abort_reason
      ∧ (k, ea) ∈ r.keys
      ∧ (ea ≠ eb → (k, eb) ∉ r.keys) := by
  obtain ⟨r, hr, hst, hreason, hkeys⟩ := MergeTransaction_keys a b hid hty ha hb
  refine ⟨r, hr, hst, by rw [hst]; exact ha, hreason, ?_, ?_⟩
  · rw [hkeys]
    exact mem_foldl_mapInsert_left b.keys a.keys _ hka
  · intro hne hmem
    rw [hkeys] at hmem
    rcases mem_foldl_mapInsert b.keys a.keys _ hmem with h | ⟨-, h⟩
    · have hinj : ∀ l : List (Key × ValueEntry), (l.map Prod.fst).Nodup →
          (k, ea) ∈ l → (k, eb) ∈ l → ea = eb := by
        intro l
        induction l with
        | nil => intro _ h1 _; cases h1
        | cons x rest ih =>
          intro hnd h1 h2
          have hx := (List.nodup_cons.mp hnd).1
          rcases List.mem_cons.mp h1 with e1 | h1'
          · rcases List.mem_cons.mp h2 with e2 | h2'
            · rw [← e1] at e2
              exact ((Prod.mk.injEq _ _ _ _).mp e2).2.symm
            · exact absurd (List.mem_map.mpr ⟨(k, eb), h2', by rw [← e1]⟩) hx
          · rcases List.mem_cons.mp h2 with e2 | h2'
            · exact absurd (List.mem_map.mpr ⟨(k, ea), h1', by rw [← e2]⟩) hx
            · exact ih (List.nodup_cons.mp hnd).2 h1' h2'
      exact hne (hinj a.keys hdistinct hka h)
    · exact h (k, ea) hka rfl

/-- The amended C25 at two committed results for transaction `1` that hold `x`
and `y` for the key `A`. -/
theorem mergeTransaction_conflict_keeps_first_witness :
    ∃ r, MergeTransaction resultWithX resultWithY = Except.ok r
      ∧ r.status = resultWithX.status
      ∧ r.status ≠ TransactionStatus.ABORTED
      ∧ r.abort_reason = resultWithX.abort_reason
      ∧ ("A", valueEntry "x") ∈ r.keys
      ∧ (valueEntry "x" ≠ valueEntry "y" → ("A", valueEntry "y") ∉ r.keys) :=
  mergeTransaction_conflict_keeps_first resultWithX resultWithY "A" (valueEntry "x")
    (valueEntry "y") rfl rfl (by decide) (by decide) (by decide) (by decide) (by decide)

/-- C28.  When neither `a` nor `b` is `ABORTED` and ids and types match,
`MergeTransaction(a, b)` returns, leaves the status of `a` unchanged and makes
the key set of `a` the union of both key sets: every entry of `a` is kept, the
entry of `b` for a key that `a` has is not copied, and every key that only `b`
has is added with the entry of `b`.  The keys of `b` are distinct, as those of a
map are. -/
theorem mergeTransaction_key_union (a b : Transaction)
    (hid : a.internal.id = b.internal.id)
    (hty : a.internal.type = b.internal.type)
    (ha : a.status ≠ TransactionStatus.ABORTED)
    (hb : b.status ≠ TransactionStatus.ABORTED)
    (hdistinct : (b.keys.map Prod.fst).Nodup) :
    ∃ r, MergeTransaction a b = Except.ok r
      ∧ r.status = a.status
      ∧ (∀ k, k ∈ r.keys.map Prod.fst ↔ (k ∈ a.keys.map Prod.fst ∨ k ∈ b.keys.map Prod.fst))
      ∧ (∀ kv ∈ a.keys, kv ∈ r.keys)
      ∧ (∀ kv ∈ b.keys, (∀ e ∈ a.keys, e.1 ≠ kv.1) → kv ∈ r.keys)
      ∧ (∀ kv ∈ r.keys, kv ∈ a.keys ∨ (kv ∈ b.keys ∧ ∀ e ∈ a.keys, e.1 ≠ kv.1)) := by
  obtain ⟨r, hr, hst, -, hkeys⟩ := MergeTransaction_keys a b hid hty ha hb
  have hnew : ∀ kv ∈ b.keys, (∀ e ∈ a.keys, e.1 ≠ kv.1) → kv ∈ r.keys := by
    intro kv hkv hnot
    rw [hkeys, foldl_mapInsert_eq b.keys a.keys hdistinct]
    apply List.mem_append_right
    rw [List.mem_filter]
    refine ⟨hkv, ?_⟩
    rw [Bool.not_eq_true', ← Bool.not_eq_true, List.any_eq_true]
    rintro ⟨e, he, hek⟩
    exact hnot e he (by simpa using hek)
  have hold : ∀ kv ∈ a.keys, kv ∈ r.keys := by
    intro kv hkv
    rw [hkeys]
    exact mem_foldl_mapInsert_left b.keys a.keys kv hkv
  have honly : ∀ kv ∈ r.keys, kv ∈ a.keys ∨ (kv ∈ b.keys ∧ ∀ e ∈ a.keys, e.1 ≠ kv.1) := by
    intro kv hkv
    rw [hkeys] at hkv
    exact mem_foldl_mapInsert b.keys a.keys kv hkv
  refine ⟨r, hr, hst, ?_, hold, hnew, honly⟩
  intro k
  simp only [List.mem_map]
  constructor
  · rintro ⟨kv, hkv, rfl⟩
    rcases honly kv hkv with h | ⟨h, -⟩
    · exact Or.inl ⟨kv, h, rfl⟩
    · exact Or.inr ⟨kv, h, rfl⟩
  · rintro (⟨kv, hkv, rfl⟩ | ⟨kv, hkv, rfl⟩)
    · exact ⟨kv, hold kv hkv, rfl⟩
    · by_cases hin : ∃ e ∈ a.keys, e.1 = kv.1
      · obtain ⟨e, he, hek⟩ := hin
        exact ⟨e, hold e he, hek⟩
      · exact ⟨kv, hnew kv hkv (fun e he hek => hin ⟨e, he, hek⟩), rfl⟩

/-- C28 at two committed results for transaction `1`: the first holds the key
`A`, the second the keys `A` and `B`. -/
theorem mergeTransaction_key_union_witness :
    ∃ r, MergeTransaction resultWithX resultWithY = Except.ok r
      ∧ r.status = resultWithX.status
      ∧ (∀ k, k ∈ r.keys.map Prod.fst
          ↔ (k ∈ resultWithX.keys.map Prod.fst ∨ k ∈ resultWithY.keys.map Prod.fst))
      ∧ (∀ kv ∈ resultWithX.keys, kv ∈ r.keys)
      ∧ (∀ kv ∈ resultWithY.keys, (∀ e ∈ resultWithX.keys, e.1 ≠ kv.1) → kv ∈ r.keys)
      ∧ (∀ kv ∈ r.keys,
          kv ∈ resultWithX.keys ∨ (kv ∈ resultWithY.keys ∧ ∀ e ∈ resultWithX.keys, e.1 ≠ kv.1)) :=
  mergeTransaction_key_union resultWithX resultWithY rfl rfl (by decide) (by decide) (by decide)

/-- C29 fails on the code.  For the multi-home transaction with the keys `A`
(master `0`) and `B` (master `1`), typed in either build, a first call of
`PopulateInvolvedReplicas` leaves `involved_replicas = [0, 1]` and a second
call leaves `[0, 1, 0, 1]`: the multi-home path adds to the field without
clearing it first. -/
theorem populateInvolvedReplicas_twice :
    (SetTransactionType false codeTwoMastersTxn).2.internal.type
        = TransactionType.MULTI_HOME_OR_LOCK_ONLY
      ∧ ∀ c : Bool,
        (PopulateInvolvedReplicas c (SetTransactionType c codeTwoMastersTxn).2).toOption.map
            (fun t => t.internal.involved_replicas) = some [0, 1]
          ∧ ((PopulateInvolvedReplicas c (SetTransactionType c codeTwoMastersTxn).2).toOption.bind
              (fun t => (PopulateInvolvedReplicas c t).toOption)).map
            (fun t => t.internal.involved_replicas) = some [0, 1, 0, 1] := by
  refine ⟨by decide, fun c => ?_⟩
  cases c <;> decide

/-- C30.  Index safety of `GeneratePartitionedTxn`: if every key of `t` that
belongs to the target partition has a master below `config.num_replicas`, the
loop over the keys completes, every access to `involved_replicas` being in
range, and the function returns; the keys of other partitions are erased before
their master is looked at, so nothing is asked of them. -/
theorem generatePartitionedTxn_index_safety (config : Configuration) (t : Transaction)
    (p : Nat) (in_place : Bool)
    (hb : ∀ kv ∈ t.keys, config.partition_of_key kv.1 = p →
      kv.2.get_metadata.master < config.num_replicas) :
    (∃ state, partitionedLoop config p t.internal.home t.keys
        { keys := [], involved_replicas := List.replicate config.num_replicas false,
          is_redundant := !t.procedure.is_remaster } = Except.ok state)
      ∧ ∃ g, GeneratePartitionedTxn config t p in_place = Except.ok g :=
  ⟨partitionedLoop_defined config p t.internal.home t.keys _ (by simpa using hb),
    GeneratePartitionedTxn_defined config t p in_place hb⟩

/-- C30 with two replicas and partition `0`, at a transaction whose key `A`
(partition `0`) is mastered at replica `0` and whose key `B` (partition `1`) is
mastered at replica `99`. -/
theorem generatePartitionedTxn_index_safety_witness :
    (∃ state, partitionedLoop sampleConfig 0 farMasterTxn.internal.home farMasterTxn.keys
        { keys := [], involved_replicas := List.replicate sampleConfig.num_replicas false,
          is_redundant := !farMasterTxn.procedure.is_remaster } = Except.ok state)
      ∧ ∃ g, GeneratePartitionedTxn sampleConfig farMasterTxn 0 false = Except.ok g :=
  generatePartitionedTxn_index_safety sampleConfig farMasterTxn 0 false (by decide)

/-! ## Keys of the lock table -/

/-- A decimal digit is not a colon, and its character stands for it. -/
theorem digitChar_spec (d : Nat) (hd : d < 10) :
    Nat.digitChar d ≠ ':' ∧ (Nat.digitChar d).toNat - 48 = d := by
  interval_cases d <;> exact ⟨by decide, by decide⟩

/-- The digits of a number hold no colon. -/
theorem toDigitsCore_no_colon (fuel : Nat) :
    ∀ (n : Nat) (acc : List Char), ':' ∉ acc → ':' ∉ Nat.toDigitsCore 10 fuel n acc := by
  induction fuel with
  | zero => intro n acc h; simpa [Nat.toDigitsCore] using h
  | succ fuel ih =>
    intro n acc h
    have hd := (digitChar_spec (n % 10) (Nat.mod_lt _ (by decide))).1
    have hacc : ':' ∉ Nat.digitChar (n % 10) :: acc := by
      intro hmem
      rcases List.mem_cons.mp hmem with e | e
      · exact hd e.symm
      · exact h e
    simp only [Nat.toDigitsCore]
    by_cases hz : n / 10 = 0
    · rw [if_pos hz]
      exact hacc
    · rw [if_neg hz]
      exact ih _ _ hacc

/-- Reading back the digits of a number gives the number. -/
theorem toDigitsCore_value (fuel : Nat) :
    ∀ (n : Nat) (acc : List Char), n < fuel →
      (Nat.toDigitsCore 10 fuel n acc).foldl (fun value c => 10 * value + (c.toNat - 48)) 0
        = acc.foldl (fun value c => 10 * value + (c.toNat - 48)) n := by
  induction fuel with
  | zero => intro n acc h; exact absurd h (Nat.not_lt_zero _)
  | succ fuel ih =>
    intro n acc h
    have hd := (digitChar_spec (n % 10) (Nat.mod_lt _ (by decide))).2
    simp only [Nat.toDigitsCore]
    by_cases hz : n / 10 = 0
    · rw [if_pos hz]
      simp only [List.foldl_cons, hd]
      have : 10 * 0 + n % 10 = n := by omega
      rw [this]
    · rw [if_neg hz]
      rw [ih (n / 10) _ (by omega)]
      simp only [List.foldl_cons, hd]
      have : 10 * (n / 10) + n % 10 = n := by omega
      rw [this]

/-- The function `std::to_string` is injective and yields no colon. -/
theorem to_string_spec (n : Nat) :
    ':' ∉ (to_string n).data ∧ digitsValue (to_string n).data = n := by
  refine ⟨?_, ?_⟩
  · simp only [to_string, Nat.repr, Nat.toDigits, List.asString]
    exact toDigitsCore_no_colon _ _ _ (by simp)
  · simp only [to_string, Nat.repr, Nat.toDigits, List.asString, digitsValue]
    rw [toDigitsCore_value _ _ _ (Nat.lt_succ_self n)]
    rfl

/-- Two strings that end with a colon and a colon-free tail are split in one way only. -/
theorem append_colon_inj (c : Char) :
    ∀ (a a' r r' : List Char), c ∉ r → c ∉ r' → a ++ c :: r = a' ++ c :: r' →
      a = a' ∧ r = r' := by
  intro a
  induction a with
  | nil =>
    intro a' r r' hr hr' h
    cases a' with
    | nil => exact ⟨rfl, by simpa using h⟩
    | cons x t =>
      simp only [List.nil_append, List.cons_append, List.cons.injEq] at h
      exact absurd (h.2 ▸ List.mem_append_right _ (List.mem_cons_self _ _)) hr
  | cons x t ih =>
    intro a' r r' hr hr' h
    cases a' with
    | nil =>
      simp only [List.nil_append, List.cons_append, List.cons.injEq] at h
      exact absurd (h.2 ▸ List.mem_append_right _ (List.mem_cons_self _ _)) hr'
    | cons y t' =>
      simp only [List.cons_append, List.cons.injEq] at h
      obtain ⟨e, hrest⟩ := ih t' r r' hr hr' h.2
      exact ⟨by rw [h.1, e], hrest⟩

/-- C27.  `MakeKeyReplica` is injective: for all keys `k1`, `k2`, whatever
characters they hold, colons and digits included, and all masters `m1`, `m2`,
`MakeKeyReplica(k1, m1) = MakeKeyReplica(k2, m2)` implies `k1 = k2` and
`m1 = m2`, so two different pairs of a key and a home replica never share an
entry of the lock table. -/
theorem makeKeyReplica_injective (k1 k2 : Key) (m1 m2 : Nat)
    (h : MakeKeyReplica k1 m1 = MakeKeyReplica k2 m2) : k1 = k2 ∧ m1 = m2 := by
  have hdata := congrArg String.data h
  simp only [MakeKeyReplica, String.data_append, List.append_assoc] at hdata
  simp only [List.nil_append, List.singleton_append] at hdata
  obtain ⟨hk, hm⟩ := append_colon_inj ':' _ _ _ _ (to_string_spec m1).1 (to_string_spec m2).1 hdata
  refine ⟨String.ext hk, ?_⟩
  have h1 := (to_string_spec m1).2
  rw [hm, (to_string_spec m2).2] at h1
  exact h1.symm

/-- C27 at the key `a:1` with master `2`, whose lock key `a:1:2` could be taken
for the key `a` with a master written `1:2`. -/
theorem makeKeyReplica_injective_witness : ("a:1" : Key) = "a:1" ∧ (2 : Nat) = 2 :=
  makeKeyReplica_injective "a:1" "a:1" 2 2 rfl

/-! ## Global Paxos -/

/-- Appending one element per step of a fold is a map. -/
theorem foldl_append_singleton {α β : Type} (f : α → β) (xs : List α) :
    ∀ acc : List β, xs.foldl (fun out x => out ++ [f x]) acc = acc ++ xs.map f := by
  induction xs with
  | nil => intro acc; simp
  | cons x xs ih => intro acc; simp [ih]

/-- C26.  `GlobalPaxos::OnCommit(slot, value, is_leader)` sends nothing when
`is_leader` is false; when `is_leader` is true it sends exactly one `BatchOrder`
with the given slot and with `batch_id = value` on the multi-home orderer
channel, to a list of destinations that has one machine per replica: it has
`num_replicas` entries and its entry at `rep` is the machine at
`leader_partition_for_multi_home_ordering` of replica `rep`. -/
theorem globalPaxos_onCommit (config : PaxosConfiguration) (slot value : Nat) :
    (GlobalPaxos.create config).OnCommit slot value false = [] ∧
    (GlobalPaxos.create config).OnCommit slot value true =
      [{ env := Envelope.forward_batch_batch_order { slot := slot, batch_id := value },
         to_machine_ids :=
           (List.range config.num_replicas).map
             (fun rep => config.MakeMachineId rep config.leader_partition_for_multi_home_ordering),
         to_channel := kMultiHomeOrdererChannel }] ∧
    ((GlobalPaxos.create config).multihome_orderers_).length = config.num_replicas ∧
    ∀ rep, rep < config.num_replicas →
      ((GlobalPaxos.create config).multihome_orderers_)[rep]? =
        some (config.MakeMachineId rep config.leader_partition_for_multi_home_ordering) := by
  have hlist : (GlobalPaxos.create config).multihome_orderers_ =
      (List.range config.num_replicas).map
        (fun rep => config.MakeMachineId rep config.leader_partition_for_multi_home_ordering) := by
    simp only [GlobalPaxos.create]
    rw [foldl_append_singleton]
    simp
  refine ⟨rfl, ?_, ?_, ?_⟩
  · simp only [GlobalPaxos.OnCommit, hlist]
    rfl
  · rw [hlist]
    simp
  · intro rep hrep
    rw [hlist]
    simp [hrep]

/-! ## The key-value stored procedure -/

/-- Whether a key is in the write set depends on the declared keys only. -/
theorem isWriteKey_iff (key : Key) (keys : List (Key × ValueEntry)) :
    isWriteKey key keys = true ↔ (key, KeyType.WRITE) ∈ keys.map (fun e => (e.1, e.2.type)) := by
  simp only [isWriteKey, List.any_eq_true, List.mem_map, Bool.and_eq_true, decide_eq_true_eq,
    Prod.mk.injEq]

/-- A write of a value leaves the declared keys as they are. -/
theorem setNewValue_declared (key : Key) (value : Value) (keys : List (Key × ValueEntry)) :
    (setNewValue key value keys).map (fun e => (e.1, e.2.type))
      = keys.map (fun e => (e.1, e.2.type)) := by
  simp only [setNewValue, List.map_map]
  apply List.map_congr_left
  intro e _
  simp only [Function.comp]
  by_cases h : e.1 = key ∧ e.2.type = KeyType.WRITE
  · rw [if_pos h]
  · rw [if_neg h]

/-- A command leaves the declared keys as they are. -/
theorem apply_declared (txn : Transaction) (c : Command) :
    declaredKeys (c.apply txn) = declaredKeys txn := by
  cases c with
  | SET key value =>
    simp only [Command.apply]
    by_cases h : isWriteKey key txn.keys = true
    · rw [if_pos h]
      exact setNewValue_declared key value txn.keys
    · rw [if_neg h]
  | DEL key =>
    simp only [Command.apply]
    by_cases h : isWriteKey key txn.keys = true
    · rw [if_pos h]
      rfl
    · rw [if_neg h]

/-- A program leaves the declared keys as they are. -/
theorem foldl_apply_declared (program : List Command) :
    ∀ txn : Transaction, declaredKeys (program.foldl Command.apply txn) = declaredKeys txn := by
  induction program with
  | nil => intro txn; rfl
  | cons c rest ih =>
    intro txn
    rw [List.foldl_cons, ih, apply_declared]

/-- Transactions that declare the same keys have the same write set. -/
theorem isWriteKey_congr (key : Key) (a b : Transaction) (h : declaredKeys a = declaredKeys b) :
    isWriteKey key a.keys = isWriteKey key b.keys := by
  simp only [declaredKeys] at h
  rw [Bool.eq_iff_iff, isWriteKey_iff, isWriteKey_iff, h]

/-- A command on a key outside the write set changes nothing. -/
theorem apply_undeclared (txn : Transaction) (c : Command)
    (h : isWriteKey c.key txn.keys = false) : c.apply txn = txn := by
  cases c with
  | SET key value =>
    simp only [Command.key] at h
    simp only [Command.apply]
    rw [if_neg (by rw [h]; decide)]
  | DEL key =>
    simp only [Command.key] at h
    simp only [Command.apply]
    rw [if_neg (by rw [h]; decide)]

/-- The commands on keys outside the write set can be left out of a program. -/
theorem foldl_apply_filter (declared : Transaction) (program : List Command) :
    ∀ txn : Transaction, declaredKeys txn = declaredKeys declared →
      (program.filter (fun c => isWriteKey c.key declared.keys)).foldl Command.apply txn
        = program.foldl Command.apply txn := by
  induction program with
  | nil => intro txn _; rfl
  | cons c rest ih =>
    intro txn h
    by_cases hc : isWriteKey c.key declared.keys = true
    · rw [List.filter_cons_of_pos (by simpa using hc), List.foldl_cons, List.foldl_cons]
      exact ih _ ((apply_declared txn c).trans h)
    · rw [List.filter_cons_of_neg (by simpa using hc), List.foldl_cons]
      have hfalse : isWriteKey c.key txn.keys = false := by
        rw [isWriteKey_congr c.key txn declared h]
        exact (Bool.not_eq_true _).mp hc
      rw [apply_undeclared txn c hfalse]
      exact ih txn h

/-- After a write of a value to a key, the entries of the write set for that key hold it. -/
theorem setNewValue_holds (key : Key) (value : Value) (keys : List (Key × ValueEntry)) :
    ∀ e ∈ setNewValue key value keys, e.1 = key → e.2.type = KeyType.WRITE →
      e.2.new_value = value := by
  intro e he hkey hty
  simp only [setNewValue, List.mem_map] at he
  obtain ⟨e0, _, rfl⟩ := he
  by_cases h : e0.1 = key ∧ e0.2.type = KeyType.WRITE
  · rw [if_pos h]
  · rw [if_neg h] at hkey hty
    exact absurd ⟨hkey, hty⟩ h

/-- A command that is not a `SET` on a key keeps what the entries for that key hold. -/
theorem apply_keeps (key : Key) (value : Value) (txn : Transaction) (c : Command)
    (hc : ∀ v, c ≠ Command.SET key v)
    (h : ∀ e ∈ txn.keys, e.1 = key → e.2.type = KeyType.WRITE → e.2.new_value = value) :
    ∀ e ∈ (c.apply txn).keys, e.1 = key → e.2.type = KeyType.WRITE → e.2.new_value = value := by
  cases c with
  | SET key2 value2 =>
    have hne : key2 ≠ key := fun e => hc value2 (by rw [e])
    simp only [Command.apply]
    by_cases hw : isWriteKey key2 txn.keys = true
    · rw [if_pos hw]
      intro e he hkey hty
      simp only [setNewValue, List.mem_map] at he
      obtain ⟨e0, he0, rfl⟩ := he
      by_cases hcond : e0.1 = key2 ∧ e0.2.type = KeyType.WRITE
      · rw [if_pos hcond] at hkey
        exact absurd (hcond.1.symm.trans hkey) hne
      · rw [if_neg hcond] at hkey hty ⊢
        exact h e0 he0 hkey hty
    · rw [if_neg hw]
      exact h
  | DEL key2 =>
    simp only [Command.apply]
    by_cases hw : isWriteKey key2 txn.keys = true
    · rw [if_pos hw]
      exact h
    · rw [if_neg hw]
      exact h

/-- A program without a `SET` on a key keeps what the entries for that key hold. -/
theorem foldl_apply_keeps (key : Key) (value : Value) (program : List Command)
    (hp : ∀ v, Command.SET key v ∉ program) :
    ∀ txn : Transaction,
      (∀ e ∈ txn.keys, e.1 = key → e.2.type = KeyType.WRITE → e.2.new_value = value) →
      ∀ e ∈ (program.foldl Command.apply txn).keys, e.1 = key → e.2.type = KeyType.WRITE →
        e.2.new_value = value := by
  induction program with
  | nil => intro txn h; exact h
  | cons c rest ih =>
    intro txn h
    rw [List.foldl_cons]
    refine ih (fun v hv => hp v (List.mem_cons_of_mem _ hv)) _ ?_
    exact apply_keeps key value txn c
      (fun v hv => hp v (by rw [hv]; exact List.mem_cons_self _ _)) h

/-- After a `SET` the entries of the write set for its key hold its value. -/
theorem apply_set_holds (key : Key) (value : Value) (txn : Transaction) :
    ∀ e ∈ ((Command.SET key value).apply txn).keys, e.1 = key → e.2.type = KeyType.WRITE →
      e.2.new_value = value := by
  simp only [Command.apply]
  by_cases hw : isWriteKey key txn.keys = true
  · rw [if_pos hw]
    exact setNewValue_holds key value txn.keys
  · rw [if_neg hw]
    intro e he hkey hty
    refine absurd ?_ hw
    rw [isWriteKey_iff]
    exact List.mem_map.mpr ⟨e, he, by rw [hkey, hty]⟩

/-- C24 fails as stated for a program that sets a key twice: `key1` is declared
and the program holds `SET key1 value1`, yet after `Execute` the key holds
`value2`, the value of the later `SET key1 value2`. -/
theorem execute_set_twice_counterexample :
    Command.SET "key1" "value1" ∈ setTwice ∧
    isWriteKey "key1" writeKey1Txn.keys = true ∧
    (Execute setTwice writeKey1Txn).keys = [("key1", { writeEntry with new_value := "value2" })] := by
  decide

/-- C24, amended.  The key-value stored procedure executes only declared writes:
for every transaction and every well-formed program of `SET` and `DEL` commands,
after `Execute` the transaction is COMMITTED, its keys and their types are the
declared ones, a declared write key `k` holds the value `v` of the last
`SET k v` of the program, and the `SET` and `DEL` commands on keys outside the
declared write set have no effect: the program without them gives the same
transaction. -/
theorem execute_only_declared_writes (txn : Transaction) (program : List Command) :
    (Execute program txn).status = TransactionStatus.COMMITTED ∧
    declaredKeys (Execute program txn) = declaredKeys txn ∧
    (∀ (p1 p2 : List Command) (k : Key) (v : Value),
      program = p1 ++ Command.SET k v :: p2 → (∀ v2, Command.SET k v2 ∉ p2) →
      isWriteKey k txn.keys = true →
      (∃ e ∈ (Execute program txn).keys, e.1 = k ∧ e.2.type = KeyType.WRITE) ∧
      ∀ e ∈ (Execute program txn).keys, e.1 = k → e.2.type = KeyType.WRITE →
        e.2.new_value = v) ∧
    Execute (program.filter (fun c => isWriteKey c.key txn.keys)) txn = Execute program txn := by
  have hdecl : declaredKeys (Execute program txn) = declaredKeys txn :=
    foldl_apply_declared program txn
  refine ⟨rfl, hdecl, ?_, ?_⟩
  · intro p1 p2 k v hprog hlast hk
    constructor
    · have hmem : (k, KeyType.WRITE) ∈ declaredKeys (Execute program txn) := by
        rw [hdecl]
        exact (isWriteKey_iff k txn.keys).mp hk
      simp only [declaredKeys, List.mem_map, Prod.mk.injEq] at hmem
      obtain ⟨e, he, h1, h2⟩ := hmem
      exact ⟨e, he, h1, h2⟩
    · subst hprog
      simp only [Execute, List.foldl_append, List.foldl_cons]
      exact foldl_apply_keeps k v p2 hlast _ (apply_set_holds k v _)
  · simp only [Execute]
    rw [foldl_apply_filter txn program txn rfl]

/-- C24 on the transaction with write set `key1` and the program `SET key1 value1`,
`SET key2 value2`, `DEL key3`. -/
theorem execute_only_declared_writes_witness :
    (Execute threeCommands writeKey1Txn).status = TransactionStatus.COMMITTED ∧
    declaredKeys (Execute threeCommands writeKey1Txn) = [("key1", KeyType.WRITE)] ∧
    (∀ e ∈ (Execute threeCommands writeKey1Txn).keys, e.1 = "key1" → e.2.type = KeyType.WRITE →
      e.2.new_value = "value1") ∧
    Execute [Command.SET "key1" "value1"] writeKey1Txn = Execute threeCommands writeKey1Txn :=
  ⟨(execute_only_declared_writes writeKey1Txn threeCommands).1,
   (execute_only_declared_writes writeKey1Txn threeCommands).2.1,
   ((execute_only_declared_writes writeKey1Txn threeCommands).2.2.1 []
      [Command.SET "key2" "value2", Command.DEL "key3"] "key1" "value1" rfl
      (by intro v2 h; simp at h) (by decide)).2,
   (execute_only_declared_writes writeKey1Txn threeCommands).2.2.2⟩

/-- The model of `Execute` gives what the unit tests `KeyValue` and
`KeyValueOnlyWritesKeysInWriteSet` of the stored procedure expect. -/
theorem execute_unit_tests :
    (Execute threeCommands writeThreeKeysTxn).status = TransactionStatus.COMMITTED ∧
    (Execute threeCommands writeThreeKeysTxn).keys.map (fun e => (e.1, e.2.new_value))
      = [("key1", "value1"), ("key2", "value2"), ("key3", "")] ∧
    (Execute threeCommands writeThreeKeysTxn).deleted_keys = ["key3"] ∧
    (Execute threeCommands writeKey1Txn).status = TransactionStatus.COMMITTED ∧
    (Execute threeCommands writeKey1Txn).keys.map (fun e => (e.1, e.2.new_value))
      = [("key1", "value1")] ∧
    (Execute threeCommands writeKey1Txn).deleted_keys = [] := by
  decide

/-! ## Draining the local log -/

/-- Draining depends on the pending slots and on the ready batches only. -/
theorem drain_congr :
    ∀ (rounds : Nat) (log1 log2 : LocalLog), log1.slots = log2.slots →
      (∀ q, (log1.queues q).ready = (log2.queues q).ready) →
      drain rounds log1 = drain rounds log2
  | 0, _, _, _, _ => rfl
  | rounds + 1, log1, log2, hslots, hready => by
    cases hs : log2.slots with
    | nil =>
      have hs1 : log1.slots = [] := hslots.trans hs
      simp [drain, LocalLog.HasNextBatch, hs, hs1]
    | cons head slots =>
      obtain ⟨slot_id, queue_id⟩ := head
      have hs1 : log1.slots = (slot_id, queue_id) :: slots := hslots.trans hs
      cases hr : (log2.queues queue_id).ready with
      | nil =>
        have hr1 : (log1.queues queue_id).ready = [] := (hready queue_id).trans hr
        simp [drain, LocalLog.HasNextBatch, hs, hs1, hr, hr1]
      | cons first ready =>
        obtain ⟨position, batch_id⟩ := first
        have hr1 : (log1.queues queue_id).ready = (position, batch_id) :: ready :=
          (hready queue_id).trans hr
        simp only [drain, LocalLog.HasNextBatch, LocalLog.NextBatch, LocalLog.NextEntry, hs, hs1,
          hr, hr1, List.isEmpty_cons, Bool.not_false, if_true, Option.map_some']
        congr 1
        refine drain_congr rounds _ _ rfl ?_
        intro q
        by_cases hq : q = queue_id
        · simp [hq]
        · simp [hq, hready q]

/-- One more round than there are pending slots changes nothing. -/
theorem drain_succ :
    ∀ (rounds : Nat) (log : LocalLog), log.slots.length ≤ rounds →
      drain (rounds + 1) log = drain rounds log
  | 0, log, h => by
    have hs : log.slots = [] := List.length_eq_zero.mp (Nat.le_zero.mp h)
    simp [drain, LocalLog.HasNextBatch, hs]
  | rounds + 1, log, h => by
    cases hs : log.slots with
    | nil => simp [drain, LocalLog.HasNextBatch, hs]
    | cons head slots =>
      obtain ⟨slot_id, queue_id⟩ := head
      cases hr : (log.queues queue_id).ready with
      | nil => simp [drain, LocalLog.HasNextBatch, hs, hr]
      | cons first ready =>
        obtain ⟨position, batch_id⟩ := first
        have hlen : slots.length ≤ rounds := by
          rw [hs] at h
          simpa using h
        have ih := drain_succ rounds
          { queues := fun q =>
              if q = queue_id then { log.queues queue_id with ready := ready } else log.queues q,
            slots := slots } hlen
        rw [drain]
        conv_rhs => rw [drain]
        simp only [LocalLog.HasNextBatch, LocalLog.NextBatch, LocalLog.NextEntry, hs,
          hr, List.isEmpty_cons, Bool.not_false, if_true, Option.map_some']
        rw [ih]

/-- Any number of rounds that covers the pending slots gives the same result. -/
theorem drain_stable (log : LocalLog) :
    ∀ rounds : Nat, log.slots.length ≤ rounds → drain rounds log = drain log.slots.length log := by
  intro rounds h
  induction rounds with
  | zero =>
    have : log.slots.length = 0 := Nat.le_zero.mp h
    rw [this]
  | succ rounds ih =>
    by_cases hlt : log.slots.length ≤ rounds
    · rw [drain_succ rounds log hlt]
      exact ih hlt
    · have : log.slots.length = rounds + 1 := by omega
      rw [this]

/-- Calls that only feed the log return no entry. -/
theorem run_inputs (calls : List Call) :
    (∀ c ∈ calls, c.isInput = true) → (run calls).2 = [] := by
  induction calls using List.reverseRecOn with
  | nil => intro _; rfl
  | append_singleton calls call ih =>
    intro h
    have hcalls : ∀ c ∈ calls, c.isInput = true :=
      fun c hc => h c (List.mem_append_left _ hc)
    have hcall : call.isInput = true := h call (List.mem_append_right _ (List.mem_singleton_self _))
    rw [run_snoc, ih hcalls]
    cases call with
    | AddBatchId queue_id position batch_id => rfl
    | AddSlot slot_id queue_id => rfl
    | HasNextBatch => cases hcall
    | NextBatch => cases hcall

/-- Batches added at distinct queues and positions have distinct positions in each queue. -/
theorem addedBatches_nodup (q : QueueId) :
    ∀ calls : List Call, (calls.filterMap Call.batchKey?).Nodup →
      ((addedBatches q calls).map Prod.fst).Nodup
  | [], _ => List.nodup_nil
  | call :: rest, h => by
    cases call with
    | AddBatchId queue_id position batch_id =>
      have h' : ((queue_id, position) :: rest.filterMap Call.batchKey?).Nodup := by
        simpa [List.filterMap_cons, Call.batchKey?] using h
      obtain ⟨hnot, hrest⟩ := List.nodup_cons.mp h'
      have ih := addedBatches_nodup q rest hrest
      by_cases hq : queue_id = q
      · have hcons : addedBatches q (Call.AddBatchId queue_id position batch_id :: rest)
            = (position, batch_id) :: addedBatches q rest := by
          simp [addedBatches, List.filterMap_cons, Call.batch?, hq]
        rw [hcons, List.map_cons]
        refine List.nodup_cons.mpr ⟨?_, ih⟩
        intro hmem
        obtain ⟨e, he, hpos⟩ := List.mem_map.mp hmem
        obtain ⟨p, b⟩ := e
        simp only at hpos
        subst hpos
        have hcall : Call.AddBatchId q p b ∈ rest := (mem_addedBatches q p b rest).mp he
        apply hnot
        rw [hq]
        exact List.mem_filterMap.mpr ⟨_, hcall, rfl⟩
      · have hcons : addedBatches q (Call.AddBatchId queue_id position batch_id :: rest)
            = addedBatches q rest := by
          simp [addedBatches, List.filterMap_cons, Call.batch?, hq]
        rw [hcons]
        exact ih
    | AddSlot slot_id queue_id =>
      have hrest : (rest.filterMap Call.batchKey?).Nodup := by
        simpa [List.filterMap_cons, Call.batchKey?] using h
      have hcons : addedBatches q (Call.AddSlot slot_id queue_id :: rest) = addedBatches q rest := by
        simp [addedBatches, List.filterMap_cons, Call.batch?]
      rw [hcons]
      exact addedBatches_nodup q rest hrest
    | HasNextBatch =>
      have hrest : (rest.filterMap Call.batchKey?).Nodup := by
        simpa [List.filterMap_cons, Call.batchKey?] using h
      have hcons : addedBatches q (Call.HasNextBatch :: rest) = addedBatches q rest := by
        simp [addedBatches, List.filterMap_cons, Call.batch?]
      rw [hcons]
      exact addedBatches_nodup q rest hrest
    | NextBatch =>
      have hrest : (rest.filterMap Call.batchKey?).Nodup := by
        simpa [List.filterMap_cons, Call.batchKey?] using h
      have hcons : addedBatches q (Call.NextBatch :: rest) = addedBatches q rest := by
        simp [addedBatches, List.filterMap_cons, Call.batch?]
      rw [hcons]
      exact addedBatches_nodup q rest hrest

/-- Two lists of batches with the same positions, taken from batches with
distinct positions, are equal. -/
theorem eq_of_map_fst_eq (all : List (Nat × BatchId)) (hnd : (all.map Prod.fst).Nodup) :
    ∀ l1 l2 : List (Nat × BatchId), l1.map Prod.fst = l2.map Prod.fst →
      (∀ e ∈ l1, e ∈ all) → (∀ e ∈ l2, e ∈ all) → l1 = l2
  | [], [], _, _, _ => rfl
  | [], _ :: _, h, _, _ => by simp at h
  | _ :: _, [], h, _, _ => by simp at h
  | e1 :: r1, e2 :: r2, h, h1, h2 => by
    simp only [List.map_cons, List.cons.injEq] at h
    have he : e1 = e2 :=
      List.inj_on_of_nodup_map hnd (h1 e1 (List.mem_cons_self _ _))
        (h2 e2 (List.mem_cons_self _ _)) h.1
    rw [he, eq_of_map_fst_eq all hnd r1 r2 h.2
      (fun e he => h1 e (List.mem_cons_of_mem _ he))
      (fun e he => h2 e (List.mem_cons_of_mem _ he))]

/-- The first position not yet released is the same whatever the order of arrival. -/
theorem next_position_le (all1 all2 : List (Nat × BatchId)) (queue1 queue2 : BatchQueue)
    (hall : all1.Perm all2)
    (hp1 : all1.Perm (queue1.ready ++ queue1.buffer))
    (hp2 : all2.Perm (queue2.ready ++ queue2.buffer))
    (hc1 : queue1.ready.map Prod.fst = List.range queue1.next_position)
    (hc2 : queue2.ready.map Prod.fst = List.range queue2.next_position)
    (hr2 : ∀ e ∈ queue2.buffer, e.1 ≠ queue2.next_position) :
    queue1.next_position ≤ queue2.next_position := by
  by_contra hlt
  have hlt : queue2.next_position < queue1.next_position := Nat.lt_of_not_le hlt
  have hmem : queue2.next_position ∈ queue1.ready.map Prod.fst := by
    rw [hc1]
    exact List.mem_range.mpr hlt
  obtain ⟨e, he, hpos⟩ := List.mem_map.mp hmem
  have he2 : e ∈ queue2.ready ++ queue2.buffer :=
    hp2.subset (hall.subset (hp1.symm.subset (List.mem_append_left _ he)))
  rcases List.mem_append.mp he2 with hready | hbuffer
  · have : e.1 ∈ List.range queue2.next_position := by
      rw [← hc2]
      exact List.mem_map.mpr ⟨e, hready, rfl⟩
    rw [hpos] at this
    exact absurd (List.mem_range.mp this) (Nat.lt_irrefl _)
  · exact hr2 e hbuffer hpos

/-- The ready batches of a queue are the same whatever the order of arrival. -/
theorem ready_determined (all1 all2 : List (Nat × BatchId)) (queue1 queue2 : BatchQueue)
    (hall : all1.Perm all2) (hnd : (all1.map Prod.fst).Nodup)
    (hp1 : all1.Perm (queue1.ready ++ queue1.buffer))
    (hp2 : all2.Perm (queue2.ready ++ queue2.buffer))
    (hc1 : queue1.ready.map Prod.fst = List.range queue1.next_position)
    (hc2 : queue2.ready.map Prod.fst = List.range queue2.next_position)
    (hr1 : ∀ e ∈ queue1.buffer, e.1 ≠ queue1.next_position)
    (hr2 : ∀ e ∈ queue2.buffer, e.1 ≠ queue2.next_position) :
    queue1.ready = queue2.ready := by
  have hnext : queue1.next_position = queue2.next_position :=
    Nat.le_antisymm (next_position_le all1 all2 queue1 queue2 hall hp1 hp2 hc1 hc2 hr2)
      (next_position_le all2 all1 queue2 queue1 hall.symm hp2 hp1 hc2 hc1 hr1)
  refine eq_of_map_fst_eq all1 hnd _ _ (by rw [hc1, hc2, hnext]) ?_ ?_
  · intro e he
    exact hp1.symm.subset (List.mem_append_left _ he)
  · intro e he
    exact hall.symm.subset (hp2.symm.subset (List.mem_append_left _ he))

/-- Pending slots with distinct identifiers, in increasing order, are the same
whatever the order of arrival. -/
theorem slots_determined (slots1 slots2 : List (SlotId × QueueId))
    (hperm : slots1.Perm slots2) (hnd : (slots1.map Prod.fst).Nodup)
    (hs1 : slots1.Pairwise (fun a b => a.1 ≤ b.1))
    (hs2 : slots2.Pairwise (fun a b => a.1 ≤ b.1)) : slots1 = slots2 := by
  have hnd2 : (slots2.map Prod.fst).Nodup := (hperm.map Prod.fst).nodup_iff.mp hnd
  have strict : ∀ l : List (SlotId × QueueId), (l.map Prod.fst).Nodup →
      l.Pairwise (fun a b => a.1 ≤ b.1) → l.Pairwise (fun a b => a.1 < b.1) := by
    intro l hl hle
    have hne : l.Pairwise (fun a b => a.1 ≠ b.1) := List.pairwise_map.mp hl
    exact (hle.and hne).imp (fun h => Nat.lt_of_le_of_ne h.1 h.2)
  haveI : IsAntisymm (SlotId × QueueId) (fun a b => a.1 < b.1) :=
    ⟨fun a b h1 h2 => absurd h1 (Nat.lt_asymm h2)⟩
  exact List.eq_of_perm_of_sorted hperm (strict slots1 hnd hs1) (strict slots2 hnd2 hs2)

/-- The model of the drain loop gives what the unit tests `BatchesComeFirst`
and `SlotsComeFirst` of the local log expect. -/
theorem drain_unit_tests :
    drain 4 (run batchesFirstCalls).1 = [(0, 200), (1, 300), (2, 100), (3, 400)] ∧
    drain 4 (run slotsFirstCalls).1 = [(0, 200), (1, 300), (2, 100), (3, 400)] := by
  decide

/-- C21.  The local log does not depend on the order of arrival: for inputs
`AddBatchId(queue, position, batch_id)` with distinct `(queue, position)` and
`AddSlot(slot, queue)` with distinct slots, feeding them to a fresh `LocalLog`
in any two orders and then draining it with `NextBatch` while `HasNextBatch`
holds yields the same sequence of `(slot, batch_id)` pairs.  The drain ends: any
number of rounds that covers the added slots gives that sequence. -/
theorem localLog_arrival_order (calls1 calls2 : List Call) (rounds1 rounds2 : Nat)
    (hperm : calls1.Perm calls2)
    (hinput : ∀ c ∈ calls1, c.isInput = true)
    (hbatches : (calls1.filterMap Call.batchKey?).Nodup)
    (hslots : ((addedSlots calls1).map Prod.fst).Nodup)
    (h1 : (addedSlots calls1).length ≤ rounds1) (h2 : (addedSlots calls1).length ≤ rounds2) :
    drain rounds1 (run calls1).1 = drain rounds2 (run calls2).1 := by
  have hinput2 : ∀ c ∈ calls2, c.isInput = true := fun c hc => hinput c (hperm.symm.subset hc)
  have inv1 := logInvariant_run calls1
  have inv2 := logInvariant_run calls2
  have he1 := run_inputs calls1 hinput
  have he2 := run_inputs calls2 hinput2
  have hsp1 : (addedSlots calls1).Perm (run calls1).1.slots := by
    have := inv1.slots_perm
    rw [he1] at this
    simpa [slotsOf] using this
  have hsp2 : (addedSlots calls2).Perm (run calls2).1.slots := by
    have := inv2.slots_perm
    rw [he2] at this
    simpa [slotsOf] using this
  have hadded : (addedSlots calls1).Perm (addedSlots calls2) := hperm.filterMap _
  have hslots_eq : (run calls1).1.slots = (run calls2).1.slots :=
    slots_determined _ _ (hsp1.symm.trans (hadded.trans hsp2))
      ((hsp1.map Prod.fst).nodup_iff.mp hslots) inv1.slots_sorted inv2.slots_sorted
  have hready : ∀ q, ((run calls1).1.queues q).ready = ((run calls2).1.queues q).ready := by
    intro q
    have hb1 := inv1.batches_perm q
    have hb2 := inv2.batches_perm q
    have hc1 := inv1.contiguous q
    have hc2 := inv2.contiguous q
    rw [he1] at hb1 hc1
    rw [he2] at hb2 hc2
    simp only [entriesOf, List.filter_nil, List.map_nil, List.nil_append] at hb1 hb2 hc1 hc2
    exact ready_determined (addedBatches q calls1) (addedBatches q calls2) _ _
      (hperm.filterMap _) (addedBatches_nodup q calls1 hbatches) hb1 hb2 hc1 hc2
      (inv1.released q) (inv2.released q)
  have hlen1 : (run calls1).1.slots.length = (addedSlots calls1).length := hsp1.length_eq.symm
  have hlen2 : (run calls2).1.slots.length = (addedSlots calls1).length := by
    rw [← hslots_eq]
    exact hlen1
  rw [drain_stable _ rounds1 (by omega), drain_stable _ rounds2 (by omega), hlen1, hlen2]
  exact drain_congr _ _ _ hslots_eq hready

/-- C21 on the inputs of the unit test `BatchesComeFirst`, fed batches first and
fed slots first with the batches of one queue out of order. -/
theorem localLog_arrival_order_witness :
    drain 4 (run batchesFirstCalls).1 = drain 7 (run slotsFirstCalls).1 :=
  localLog_arrival_order batchesFirstCalls slotsFirstCalls 4 7 (by decide) (by decide)
    (by decide) (by decide) (by decide) (by decide)

/-! ## The DDR lock manager: the order of the waits -/

/-- The lock manager after one more call. -/
theorem runLocks_snoc (calls : List LockCall) (call : LockCall) :
    runLocks (calls ++ [call]) = (runLocks calls).step call := by
  simp [runLocks, List.foldl_append]

/-- The tails after the loop of `AcquireLocks` name the transaction of the call
and the transactions they named before. -/
theorem acquireLoop_ids (txn_id : TxnId) :
    ∀ (locks : List (KeyReplica × KeyType)) (table : KeyReplica → LockQueueTail)
      (blocking : List TxnId) (k : KeyReplica) (t : TxnId),
      t ∈ tailIds ((acquireLoop txn_id locks table blocking).1 k) →
      t = txn_id ∨ t ∈ tailIds (table k)
  | [], _, _, _, _, h => Or.inr h
  | (key_replica, KeyType.READ) :: rest, table, blocking, k, t, h => by
    rw [acquireLoop] at h
    rcases acquireLoop_ids txn_id rest _ _ k t h with h1 | h1
    · exact Or.inl h1
    · by_cases hk : k = key_replica
      · rw [if_pos hk] at h1
        simp only [LockQueueTail.AcquireReadLock, tailIds, List.mem_append,
          List.mem_singleton] at h1
        rcases h1 with h1 | h1 | h1
        · exact Or.inr (by rw [hk]; exact List.mem_append_left _ h1)
        · exact Or.inr (by rw [hk]; exact List.mem_append_right _ h1)
        · exact Or.inl h1
      · rw [if_neg hk] at h1
        exact Or.inr h1
  | (key_replica, KeyType.WRITE) :: rest, table, blocking, k, t, h => by
    rw [acquireLoop] at h
    rcases acquireLoop_ids txn_id rest _ _ k t h with h1 | h1
    · exact Or.inl h1
    · by_cases hk : k = key_replica
      · rw [if_pos hk] at h1
        simp only [LockQueueTail.AcquireWriteLock, tailIds, List.mem_append, Option.toList,
          List.mem_singleton, List.not_mem_nil, or_false] at h1
        exact Or.inl h1
      · rw [if_neg hk] at h1
        exact Or.inr h1

/-- When the locks of a call are on distinct `KeyReplica`s, the predecessors
that the loop of `AcquireLocks` collects are named by the tails as they were
before the call. -/
theorem acquireLoop_blocking (txn_id : TxnId) :
    ∀ (locks : List (KeyReplica × KeyType)) (table : KeyReplica → LockQueueTail)
      (blocking : List TxnId), (locks.map Prod.fst).Nodup →
      ∀ b ∈ (acquireLoop txn_id locks table blocking).2,
        b ∈ blocking ∨ ∃ l ∈ locks, b ∈ tailIds (table l.1)
  | [], _, _, _, b, h => Or.inl h
  | (key_replica, KeyType.READ) :: rest, table, blocking, hnd, b, h => by
    rw [acquireLoop] at h
    simp only [List.map_cons, List.nodup_cons] at hnd
    rcases acquireLoop_blocking txn_id rest _ _ hnd.2 b h with h1 | ⟨l, hl, h1⟩
    · rcases List.mem_append.mp h1 with h2 | h2
      · exact Or.inl h2
      · refine Or.inr ⟨(key_replica, KeyType.READ), List.mem_cons_self _ _, ?_⟩
        simp only [LockQueueTail.AcquireReadLock] at h2
        exact List.mem_append_left _ h2
    · have hne : l.1 ≠ key_replica := by
        intro e
        exact hnd.1 (e ▸ List.mem_map_of_mem Prod.fst hl)
      rw [if_neg hne] at h1
      exact Or.inr ⟨l, List.mem_cons_of_mem _ hl, h1⟩
  | (key_replica, KeyType.WRITE) :: rest, table, blocking, hnd, b, h => by
    rw [acquireLoop] at h
    simp only [List.map_cons, List.nodup_cons] at hnd
    rcases acquireLoop_blocking txn_id rest _ _ hnd.2 b h with h1 | ⟨l, hl, h1⟩
    · rcases List.mem_append.mp h1 with h2 | h2
      · exact Or.inl h2
      · refine Or.inr ⟨(key_replica, KeyType.WRITE), List.mem_cons_self _ _, ?_⟩
        simp only [LockQueueTail.AcquireWriteLock] at h2
        exact h2
    · have hne : l.1 ≠ key_replica := by
        intro e
        exact hnd.1 (e ▸ List.mem_map_of_mem Prod.fst hl)
      rw [if_neg hne] at h1
      exact Or.inr ⟨l, List.mem_cons_of_mem _ hl, h1⟩

/-- A call of `AcceptTransaction` adds nothing to the relation `waited_by`. -/
theorem waitedBy_accept (mgr : DDRLockManager) (txn_id : TxnId) (n : Nat) (p w : TxnId)
    (h : waitedBy (mgr.AcceptTransaction txn_id n).1 p w) : waitedBy mgr p w := by
  obtain ⟨info, hinfo, hw⟩ := h
  simp only [DDRLockManager.AcceptTransaction] at hinfo
  by_cases hp : p = txn_id
  · rw [if_pos hp] at hinfo
    cases hold : mgr.txn_info_ txn_id with
    | none =>
      rw [hold] at hinfo
      simp only [Option.getD_none, Option.some.injEq] at hinfo
      rw [← hinfo] at hw
      exact absurd hw (List.not_mem_nil _)
    | some old =>
      rw [hold] at hinfo
      simp only [Option.getD_some, Option.some.injEq] at hinfo
      rw [← hinfo] at hw
      exact ⟨old, by rw [hp, hold], hw⟩
  · rw [if_neg hp] at hinfo
    exact ⟨info, hinfo, hw⟩

/-- A call of `ReleaseLocks` adds nothing to the relation `waited_by`. -/
theorem waitedBy_release (mgr : DDRLockManager) (txn_id : TxnId) (p w : TxnId)
    (h : waitedBy (mgr.ReleaseLocks txn_id).1 p w) : waitedBy mgr p w := by
  obtain ⟨info, hinfo, hw⟩ := h
  unfold DDRLockManager.ReleaseLocks at hinfo
  cases hold : mgr.txn_info_ txn_id with
  | none =>
    rw [hold] at hinfo
    exact ⟨info, hinfo, hw⟩
  | some old =>
    rw [hold] at hinfo
    simp only at hinfo
    by_cases hp : p = txn_id
    · rw [if_pos hp] at hinfo
      cases hinfo
    · rw [if_neg hp] at hinfo
      cases hp2 : mgr.txn_info_ p with
      | none =>
        rw [hp2] at hinfo
        cases hinfo
      | some i =>
        rw [hp2] at hinfo
        simp only [Option.map_some', Option.some.injEq] at hinfo
        rw [← hinfo] at hw
        exact ⟨i, hp2, hw⟩

/-- A call of `AcquireLocks` adds to the relation `waited_by` only waits of its
transaction for predecessors that its loop collected. -/
theorem waitedBy_acquire (mgr : DDRLockManager) (txn_id : TxnId)
    (locks : List (KeyReplica × KeyType)) (p w : TxnId)
    (h : waitedBy (mgr.AcquireLocks txn_id locks).1 p w) :
    waitedBy mgr p w ∨ (w = txn_id ∧ p ∈ (acquireLoop txn_id locks mgr.lock_table_ []).2) := by
  obtain ⟨info, hinfo, hw⟩ := h
  simp only [DDRLockManager.AcquireLocks] at hinfo
  have hsplit : ∀ i0 : TxnInfo,
      w ∈ (if p ∈ List.filter
              (fun b => (if b = txn_id then
                  some { waited_by := ((mgr.txn_info_ txn_id).getD default).waited_by,
                         waiting_for_cnt := ((mgr.txn_info_ txn_id).getD default).waiting_for_cnt,
                         pending_parts := ((mgr.txn_info_ txn_id).getD default).pending_parts - 1 }
                else mgr.txn_info_ b).isSome)
              (acquireLoop txn_id locks mgr.lock_table_ []).2.dedup
            then i0.waited_by ++ [txn_id] else i0.waited_by) →
      w ∈ i0.waited_by ∨ (w = txn_id ∧ p ∈ (acquireLoop txn_id locks mgr.lock_table_ []).2) := by
    intro i0 hmem
    split at hmem
    · rename_i hp
      rcases List.mem_append.mp hmem with h1 | h1
      · exact Or.inl h1
      · exact Or.inr ⟨List.mem_singleton.mp h1, List.mem_dedup.mp (List.mem_filter.mp hp).1⟩
    · exact Or.inl hmem
  by_cases hp : p = txn_id
  · rw [if_pos hp] at hinfo
    simp only [Option.map_some', Option.some.injEq] at hinfo
    rw [← hinfo] at hw
    rcases hsplit _ hw with h1 | h1
    · cases hold : mgr.txn_info_ txn_id with
      | none =>
        rw [hold] at h1
        exact absurd h1 (List.not_mem_nil _)
      | some old =>
        rw [hold] at h1
        exact Or.inl ⟨old, by rw [hp, hold], h1⟩
    · exact Or.inr h1
  · rw [if_neg hp] at hinfo
    cases hp2 : mgr.txn_info_ p with
    | none =>
      rw [hp2] at hinfo
      cases hinfo
    | some i =>
      rw [hp2] at hinfo
      simp only [Option.map_some', Option.some.injEq] at hinfo
      rw [← hinfo] at hw
      rcases hsplit _ hw with h1 | h1
      · exact Or.inl ⟨i, hp2, h1⟩
      · exact Or.inr h1

/-- A call of `ReleaseLocks` leaves the tails as they are. -/
theorem lock_table_release (mgr : DDRLockManager) (txn_id : TxnId) :
    (mgr.ReleaseLocks txn_id).1.lock_table_ = mgr.lock_table_ := by
  unfold DDRLockManager.ReleaseLocks
  cases mgr.txn_info_ txn_id <;> rfl

/-- The transactions of the calls of `AcquireLocks` after one more call. -/
theorem acquirers_snoc (calls : List LockCall) (call : LockCall) :
    acquirers (calls ++ [call])
      = acquirers calls ++ (match call with
          | LockCall.AcquireLocks txn_id _ => [txn_id]
          | _ => []) := by
  cases call <;> simp [acquirers, List.filterMap_append]

/-- When every transaction acquires its locks in one call, on distinct
`KeyReplica`s, every wait is for a transaction that acquired its locks earlier. -/
theorem rankInvariant_run (calls : List LockCall) :
    (acquirers calls).Nodup → distinctLocks calls = true →
      RankInvariant (acquirers calls) (runLocks calls) := by
  induction calls using List.reverseRecOn with
  | nil =>
    intro _ _
    refine ⟨?_, ?_⟩
    · intro k t ht
      simp [runLocks, DDRLockManager.fresh, tailIds] at ht
    · rintro p w ⟨info, hinfo, _⟩
      simp [runLocks, DDRLockManager.fresh] at hinfo
  | append_singleton calls call ih =>
    intro hnd hdist
    rw [acquirers_snoc] at hnd ⊢
    rw [runLocks_snoc]
    simp only [distinctLocks, List.all_append, Bool.and_eq_true, List.all_cons, List.all_nil,
      Bool.and_true] at hdist
    have hdist0 : distinctLocks calls = true := hdist.1
    cases call with
    | AcceptTransaction txn_id n =>
      simp only [List.append_nil] at hnd ⊢
      obtain ⟨htails, hedges⟩ := ih hnd hdist0
      exact ⟨htails, fun p w h => hedges p w (waitedBy_accept _ txn_id n p w h)⟩
    | ReleaseLocks txn_id =>
      simp only [List.append_nil] at hnd ⊢
      obtain ⟨htails, hedges⟩ := ih hnd hdist0
      refine ⟨?_, fun p w h => hedges p w (waitedBy_release _ txn_id p w h)⟩
      intro k t ht
      simp only [DDRLockManager.step, lock_table_release] at ht
      exact htails k t ht
    | AcquireLocks txn_id locks =>
      simp only at hnd ⊢
      have hnd0 : (acquirers calls).Nodup := (List.nodup_append.mp hnd).1
      have hnew : txn_id ∉ acquirers calls := by
        intro hmem
        exact (List.nodup_append.mp hnd).2.2 hmem (List.mem_singleton_self _)
      have hlocks : (locks.map Prod.fst).Nodup := by simpa using hdist.2
      obtain ⟨htails, hedges⟩ := ih hnd0 hdist0
      refine ⟨?_, ?_⟩
      · intro k t ht
        have ht2 : t ∈ tailIds
            ((acquireLoop txn_id locks (runLocks calls).lock_table_ []).1 k) := ht
        rcases acquireLoop_ids txn_id locks _ _ k t ht2 with h1 | h1
        · rw [h1]
          exact List.mem_append_right _ (List.mem_singleton_self _)
        · exact List.mem_append_left _ (htails k t h1)
      · intro p w h
        rcases waitedBy_acquire _ txn_id locks p w h with h1 | ⟨hw, hp⟩
        · obtain ⟨hlt, hmem⟩ := hedges p w h1
          have hpmem : p ∈ acquirers calls :=
            List.indexOf_lt_length.mp (lt_trans hlt (List.indexOf_lt_length.mpr hmem))
          rw [List.indexOf_append_of_mem hpmem, List.indexOf_append_of_mem hmem]
          exact ⟨hlt, List.mem_append_left _ hmem⟩
        · have hpmem : p ∈ acquirers calls := by
            rcases acquireLoop_blocking txn_id locks _ _ hlocks p hp with h2 | ⟨l, _, h2⟩
            · cases h2
            · exact htails l.1 p h2
          rw [hw, List.indexOf_append_of_mem hpmem, List.indexOf_append_of_not_mem hnew]
          refine ⟨?_, List.mem_append_right _ (List.mem_singleton_self _)⟩
          have := List.indexOf_lt_length.mpr hpmem
          omega

/-- C22 fails as stated for multi-home transactions: when the lock-only parts of
two transactions that write the same keys at two replicas come in opposite
orders, each transaction is in `waited_by` of the other, and the relation
`waited_by` has a cycle. -/
theorem ddr_waited_by_cycle_counterexample :
    Relation.TransGen (waitedBy (runLocks crossingCalls)) 1 1 :=
  Relation.TransGen.tail
    (Relation.TransGen.single
      (show waitedBy (runLocks crossingCalls) 1 2 from
        ⟨{ waited_by := [2], waiting_for_cnt := 1, pending_parts := 0 }, (by decide),
          (by decide)⟩))
    (show waitedBy (runLocks crossingCalls) 2 1 from
      ⟨{ waited_by := [1], waiting_for_cnt := 1, pending_parts := 0 }, (by decide), (by decide)⟩)

/-- C22, amended.  For every sequence of `AcceptTransaction`, `AcquireLocks` and
`ReleaseLocks` calls in which every transaction acquires its locks in one call
of `AcquireLocks`, on distinct `KeyReplica`s, the relation `waited_by` stored in
`txn_info_` is acyclic in the state reached: every transaction in a `waited_by`
acquired its locks later than the owner of the `waited_by`. -/
theorem ddr_waited_by_acyclic (calls : List LockCall)
    (hsingle : (acquirers calls).Nodup) (hdistinct : distinctLocks calls = true) :
    ∀ x, ¬ Relation.TransGen (waitedBy (runLocks calls)) x x := by
  have inv := rankInvariant_run calls hsingle hdistinct
  have hlt : ∀ x y, Relation.TransGen (waitedBy (runLocks calls)) x y →
      List.indexOf x (acquirers calls) < List.indexOf y (acquirers calls) := by
    intro x y h
    induction h with
    | single h => exact (inv.edges _ _ h).1
    | tail _ h ih => exact lt_trans ih (inv.edges _ _ h).1
  intro x h
  exact absurd (hlt x x h) (lt_irrefl _)

/-- C22 on three single-home transactions, of which the second and the third
wait for the first one. -/
theorem ddr_waited_by_acyclic_witness :
    waitedBy (runLocks singleHomeCalls) 2 3 ∧
    ∀ x, ¬ Relation.TransGen (waitedBy (runLocks singleHomeCalls)) x x :=
  ⟨⟨{ waited_by := [3], waiting_for_cnt := 0, pending_parts := 0 }, (by decide), (by decide)⟩,
   ddr_waited_by_acyclic singleHomeCalls (by decide) (by decide)⟩

/-! ## The DDR lock manager: exclusion -/

/-- A pair that is in order in a list with one more element at the end was in
order before, or ends with the new element. -/
theorem pair_sublist_snoc {α : Type} (x y z : α) (l : List α)
    (h : [x, y].Sublist (l ++ [z])) : [x, y].Sublist l ∨ (y = z ∧ x ∈ l) := by
  obtain ⟨l1, l2, heq, h1, h2⟩ := List.sublist_append_iff.mp h
  rcases List.sublist_singleton.mp h2 with e | e
  · subst e
    rw [List.append_nil] at heq
    rw [heq]
    exact Or.inl h1
  · subst e
    cases l1 with
    | nil => simp at heq
    | cons a rest =>
      cases rest with
      | nil =>
        simp only [List.singleton_append, List.cons.injEq, and_true] at heq
        refine Or.inr ⟨heq.2, ?_⟩
        rw [heq.1]
        exact List.singleton_sublist.mp h1
      | cons b rest2 =>
        have := congrArg List.length heq
        simp at this

/-- An element of a list comes before a new element at the end. -/
theorem pair_sublist_of_mem {α : Type} (x z : α) (l : List α) (h : x ∈ l) :
    [x, z].Sublist (l ++ [z]) :=
  (List.singleton_sublist.mpr h).append (List.Sublist.refl [z])

/-- Two different elements of a list are in order one way or the other. -/
theorem pair_sublist_total {α : Type} (x y : α) (hne : x ≠ y) :
    ∀ l : List α, x ∈ l → y ∈ l → [x, y].Sublist l ∨ [y, x].Sublist l
  | [], hx, _ => absurd hx (List.not_mem_nil _)
  | a :: rest, hx, hy => by
    rcases List.mem_cons.mp hx with h1 | h1
    · rcases List.mem_cons.mp hy with h2 | h2
      · exact absurd (h1.trans h2.symm) hne
      · left
        rw [h1]
        exact List.Sublist.cons₂ a (List.singleton_sublist.mpr h2)
    · rcases List.mem_cons.mp hy with h2 | h2
      · right
        rw [h2]
        exact List.Sublist.cons₂ a (List.singleton_sublist.mpr h1)
      · rcases pair_sublist_total x y hne rest h1 h2 with h3 | h3
        · exact Or.inl (List.Sublist.cons a h3)
        · exact Or.inr (List.Sublist.cons a h3)

/-- The waits on a transaction, split into those of one transaction and those of
the others. -/
theorem countP_split (z w : TxnId) :
    ∀ edges : List (TxnId × TxnId),
      edges.countP (fun e => decide (e.2 = w))
        = (edges.filter (fun e => decide (e.1 ≠ z))).countP (fun e => decide (e.2 = w))
          + edges.count (z, w)
  | [] => rfl
  | e :: rest => by
    obtain ⟨a, b⟩ := e
    have ih := countP_split z w rest
    by_cases h1 : a = z <;> by_cases h2 : b = w <;>
      simp [List.countP_cons, List.filter_cons, List.count_cons, h1, h2, ih] <;> omega

/-- A chain of waits ends with a wait. -/
theorem chain_last_edge (edges : List (TxnId × TxnId)) (x y : TxnId)
    (h : Relation.TransGen (fun a b => (a, b) ∈ edges) x y) : ∃ p, (p, y) ∈ edges := by
  cases h with
  | single h => exact ⟨x, h⟩
  | tail _ h => exact ⟨_, h⟩

/-- A chain of waits stays one when there are more waits. -/
theorem chain_mono (edges edges2 : List (TxnId × TxnId)) (hsub : ∀ e ∈ edges, e ∈ edges2)
    (x y : TxnId) (h : Relation.TransGen (fun a b => (a, b) ∈ edges) x y) :
    Relation.TransGen (fun a b => (a, b) ∈ edges2) x y :=
  Relation.TransGen.mono (fun a b hab => hsub (a, b) hab) h

/-- A chain of waits that starts elsewhere than at a transaction for which
nobody waits stays one when the waits of that transaction are taken away. -/
theorem chain_filter (edges : List (TxnId × TxnId)) (z : TxnId)
    (hz : ∀ e ∈ edges, e.2 ≠ z) (x y : TxnId) (hx : x ≠ z)
    (h : Relation.TransGen (fun a b => (a, b) ∈ edges) x y) :
    Relation.TransGen (fun a b => (a, b) ∈ edges.filter (fun e => decide (e.1 ≠ z))) x y := by
  induction h with
  | single h =>
    exact Relation.TransGen.single (List.mem_filter.mpr ⟨h, by simpa using hx⟩)
  | tail hchain h ih =>
    rename_i b c
    have hb : b ≠ z := by
      obtain ⟨p, hp⟩ := chain_last_edge edges x b hchain
      exact hz (p, b) hp
    exact Relation.TransGen.tail ih (List.mem_filter.mpr ⟨h, by simpa using hb⟩)

/-- Inside the loop of `AcquireLocks`: a request that is the write of the tail or
comes before it belongs to a predecessor, or to a transaction for which a
predecessor waits, once the writer of the tail is a predecessor. -/
theorem AcquireInvariant.new_pair {txn_id : TxnId} {infos : TxnId → Option TxnInfo}
    {edges : List (TxnId × TxnId)} {held : KeyReplica → List (TxnId × KeyType)}
    {table : KeyReplica → LockQueueTail} {blocking : List TxnId}
    (inv : AcquireInvariant txn_id infos edges held table blocking)
    (key_replica : KeyReplica) (x : TxnId × KeyType) (hx : x ∈ held key_replica)
    (hcov : ∃ w, (table key_replica).write_lock_requester_ = some w ∧
      (x = (w, KeyType.WRITE) ∨ [x, (w, KeyType.WRITE)].Sublist (held key_replica)))
    (blocking2 : List TxnId) (hsub : ∀ b ∈ blocking, b ∈ blocking2)
    (hw : ∀ w, (table key_replica).write_lock_requester_ = some w → w ∈ blocking2) :
    ∃ b ∈ blocking2, (infos b).isSome = true ∧
      (b = x.1 ∨ Relation.TransGen (fun a b => (a, b) ∈ edges) x.1 b) := by
  obtain ⟨w, hw1, h⟩ := hcov
  have hself : x.1 = w → ∃ b ∈ blocking2, (infos b).isSome = true ∧
      (b = x.1 ∨ Relation.TransGen (fun a b => (a, b) ∈ edges) x.1 b) := by
    intro e
    refine ⟨w, hw w hw1, ?_, Or.inl e.symm⟩
    rw [← e]
    exact inv.live key_replica x hx
  rcases h with h | h
  · exact hself (by rw [h])
  · by_cases hxw : x.1 = w
    · exact hself hxw
    · rcases inv.pending key_replica x (w, KeyType.WRITE) h hxw (Or.inr rfl) with
        h1 | ⟨_, b, hb, hlive, hb2⟩
      · refine ⟨w, hw w hw1, ?_, Or.inr h1⟩
        exact inv.live key_replica (w, KeyType.WRITE) (h.subset (by simp))
      · exact ⟨b, hsub b hb, hlive, hb2⟩

/-- The loop of `AcquireLocks` keeps its invariant when it requests a read lock. -/
theorem AcquireInvariant.read {txn_id : TxnId} {infos : TxnId → Option TxnInfo}
    {edges : List (TxnId × TxnId)} {held : KeyReplica → List (TxnId × KeyType)}
    {table : KeyReplica → LockQueueTail} {blocking : List TxnId}
    (inv : AcquireInvariant txn_id infos edges held table blocking)
    (hlive : (infos txn_id).isSome = true) (key_replica : KeyReplica) :
    AcquireInvariant txn_id infos edges
      (fun k => if key_replica = k then held k ++ [(txn_id, KeyType.READ)] else held k)
      (fun k => if k = key_replica then ((table key_replica).AcquireReadLock txn_id).2
        else table k)
      (blocking ++ ((table key_replica).AcquireReadLock txn_id).1.toList) := by
  refine ⟨?_, ?_, ?_⟩
  · intro k e he
    by_cases hk : key_replica = k
    · simp only [if_pos hk] at he
      rcases List.mem_append.mp he with h | h
      · exact inv.live k e h
      · rw [List.mem_singleton.mp h]
        exact hlive
    · simp only [if_neg hk] at he
      exact inv.live k e he
  · intro k e he
    by_cases hk : key_replica = k
    · subst hk
      simp only [if_true] at he ⊢
      rcases List.mem_append.mp he with h | h
      · rcases inv.covered key_replica e h with ⟨h1, h2⟩ | ⟨w, hw, h2⟩
        · exact Or.inl ⟨h1, List.mem_append_left _ h2⟩
        · refine Or.inr ⟨w, hw, ?_⟩
          rcases h2 with h2 | h2
          · exact Or.inl h2
          · exact Or.inr (h2.trans (List.sublist_append_left _ _))
      · rw [List.mem_singleton.mp h]
        exact Or.inl ⟨rfl, List.mem_append_right _ (List.mem_singleton_self _)⟩
    · have hk2 : ¬ k = key_replica := fun e => hk e.symm
      simp only [if_neg hk, if_neg hk2] at he ⊢
      exact inv.covered k e he
  · intro k x y hxy hne hconf
    have hmono : Relation.TransGen (fun a b => (a, b) ∈ edges) x.1 y.1 ∨
        (y.1 = txn_id ∧ ∃ b ∈ blocking, (infos b).isSome = true ∧
          (b = x.1 ∨ Relation.TransGen (fun a b => (a, b) ∈ edges) x.1 b)) →
        Relation.TransGen (fun a b => (a, b) ∈ edges) x.1 y.1 ∨
        (y.1 = txn_id ∧ ∃ b ∈ blocking ++ ((table key_replica).AcquireReadLock txn_id).1.toList,
          (infos b).isSome = true ∧
          (b = x.1 ∨ Relation.TransGen (fun a b => (a, b) ∈ edges) x.1 b)) := by
      rintro (h | ⟨h1, b, hb, h2⟩)
      · exact Or.inl h
      · exact Or.inr ⟨h1, b, List.mem_append_left _ hb, h2⟩
    by_cases hk : key_replica = k
    · subst hk
      simp only [if_true] at hxy
      rcases pair_sublist_snoc x y _ _ hxy with h | ⟨hy, hx⟩
      · exact hmono (inv.pending key_replica x y h hne hconf)
      · subst hy
        have hxw : x.2 = KeyType.WRITE := by
          rcases hconf with h | h
          · exact h
          · cases h
        have hcov : ∃ w, (table key_replica).write_lock_requester_ = some w ∧
            (x = (w, KeyType.WRITE) ∨ [x, (w, KeyType.WRITE)].Sublist (held key_replica)) := by
          rcases inv.covered key_replica x hx with ⟨h1, _⟩ | h
          · rw [hxw] at h1
            cases h1
          · exact h
        refine Or.inr ⟨rfl, ?_⟩
        refine inv.new_pair key_replica x hx hcov _ (fun b hb => List.mem_append_left _ hb) ?_
        intro w hw
        refine List.mem_append_right _ ?_
        simp [LockQueueTail.AcquireReadLock, hw]
    · simp only [if_neg hk] at hxy
      exact hmono (inv.pending k x y hxy hne hconf)

/-- The loop of `AcquireLocks` keeps its invariant when it requests a write lock. -/
theorem AcquireInvariant.write {txn_id : TxnId} {infos : TxnId → Option TxnInfo}
    {edges : List (TxnId × TxnId)} {held : KeyReplica → List (TxnId × KeyType)}
    {table : KeyReplica → LockQueueTail} {blocking : List TxnId}
    (inv : AcquireInvariant txn_id infos edges held table blocking)
    (hlive : (infos txn_id).isSome = true) (key_replica : KeyReplica) :
    AcquireInvariant txn_id infos edges
      (fun k => if key_replica = k then held k ++ [(txn_id, KeyType.WRITE)] else held k)
      (fun k => if k = key_replica then ((table key_replica).AcquireWriteLock txn_id).2
        else table k)
      (blocking ++ ((table key_replica).AcquireWriteLock txn_id).1) := by
  refine ⟨?_, ?_, ?_⟩
  · intro k e he
    by_cases hk : key_replica = k
    · simp only [if_pos hk] at he
      rcases List.mem_append.mp he with h | h
      · exact inv.live k e h
      · rw [List.mem_singleton.mp h]
        exact hlive
    · simp only [if_neg hk] at he
      exact inv.live k e he
  · intro k e he
    by_cases hk : key_replica = k
    · subst hk
      simp only [if_true] at he ⊢
      refine Or.inr ⟨txn_id, rfl, ?_⟩
      rcases List.mem_append.mp he with h | h
      · exact Or.inr (pair_sublist_of_mem e _ _ h)
      · exact Or.inl (List.mem_singleton.mp h)
    · have hk2 : ¬ k = key_replica := fun e => hk e.symm
      simp only [if_neg hk, if_neg hk2] at he ⊢
      exact inv.covered k e he
  · intro k x y hxy hne hconf
    have hmono : Relation.TransGen (fun a b => (a, b) ∈ edges) x.1 y.1 ∨
        (y.1 = txn_id ∧ ∃ b ∈ blocking, (infos b).isSome = true ∧
          (b = x.1 ∨ Relation.TransGen (fun a b => (a, b) ∈ edges) x.1 b)) →
        Relation.TransGen (fun a b => (a, b) ∈ edges) x.1 y.1 ∨
        (y.1 = txn_id ∧ ∃ b ∈ blocking ++ ((table key_replica).AcquireWriteLock txn_id).1,
          (infos b).isSome = true ∧
          (b = x.1 ∨ Relation.TransGen (fun a b => (a, b) ∈ edges) x.1 b)) := by
      rintro (h | ⟨h1, b, hb, h2⟩)
      · exact Or.inl h
      · exact Or.inr ⟨h1, b, List.mem_append_left _ hb, h2⟩
    by_cases hk : key_replica = k
    · subst hk
      simp only [if_true] at hxy
      rcases pair_sublist_snoc x y _ _ hxy with h | ⟨hy, hx⟩
      · exact hmono (inv.pending key_replica x y h hne hconf)
      · subst hy
        refine Or.inr ⟨rfl, ?_⟩
        rcases inv.covered key_replica x hx with ⟨_, h2⟩ | hcov
        · refine ⟨x.1, ?_, inv.live key_replica x hx, Or.inl rfl⟩
          refine List.mem_append_right _ ?_
          exact List.mem_append_right _ h2
        · refine inv.new_pair key_replica x hx hcov _
            (fun b hb => List.mem_append_left _ hb) ?_
          intro w hw
          refine List.mem_append_right _ ?_
          simp [LockQueueTail.AcquireWriteLock, hw]
    · simp only [if_neg hk] at hxy
      exact hmono (inv.pending k x y hxy hne hconf)

/-- The loop of `AcquireLocks` keeps its invariant: after it, the requests of the
call are held too. -/
theorem AcquireInvariant.loop {txn_id : TxnId} {infos : TxnId → Option TxnInfo}
    {edges : List (TxnId × TxnId)} (hlive : (infos txn_id).isSome = true) :
    ∀ (locks : List (KeyReplica × KeyType)) (held : KeyReplica → List (TxnId × KeyType))
      (table : KeyReplica → LockQueueTail) (blocking : List TxnId),
      AcquireInvariant txn_id infos edges held table blocking →
      AcquireInvariant txn_id infos edges
        (fun k => held k ++
          (locks.filter (fun l => decide (l.1 = k))).map (fun l => (txn_id, l.2)))
        (acquireLoop txn_id locks table blocking).1
        (acquireLoop txn_id locks table blocking).2
  | [], held, table, blocking, inv => by
    simpa [acquireLoop] using inv
  | (key_replica, KeyType.READ) :: rest, held, table, blocking, inv => by
    have step := AcquireInvariant.loop hlive rest _ _ _ (inv.read hlive key_replica)
    have heq : (fun k => (if key_replica = k then held k ++ [(txn_id, KeyType.READ)] else held k)
          ++ (rest.filter (fun l => decide (l.1 = k))).map (fun l => (txn_id, l.2)))
        = (fun k => held k ++
          (((key_replica, KeyType.READ) :: rest).filter (fun l => decide (l.1 = k))).map
            (fun l => (txn_id, l.2))) := by
      funext k
      by_cases hk : key_replica = k
      · simp [hk, List.filter_cons]
      · simp [hk, List.filter_cons]
    rw [heq] at step
    rw [acquireLoop]
    exact step
  | (key_replica, KeyType.WRITE) :: rest, held, table, blocking, inv => by
    have step := AcquireInvariant.loop hlive rest _ _ _ (inv.write hlive key_replica)
    have heq : (fun k => (if key_replica = k then held k ++ [(txn_id, KeyType.WRITE)] else held k)
          ++ (rest.filter (fun l => decide (l.1 = k))).map (fun l => (txn_id, l.2)))
        = (fun k => held k ++
          (((key_replica, KeyType.WRITE) :: rest).filter (fun l => decide (l.1 = k))).map
            (fun l => (txn_id, l.2))) := by
      funext k
      by_cases hk : key_replica = k
      · simp [hk, List.filter_cons]
      · simp [hk, List.filter_cons]
    rw [heq] at step
    rw [acquireLoop]
    exact step

/-- The first step of `AcceptTransaction` and of `AcquireLocks`, in terms of `touchInfo`. -/
theorem acceptTransaction_eq (mgr : DDRLockManager) (txn_id : TxnId) (n : Nat) :
    (mgr.AcceptTransaction txn_id n).1
      = { lock_table_ := mgr.lock_table_, txn_info_ := touchInfo txn_id n mgr.txn_info_ } :=
  rfl

/-- The call `AcquireLocks`, in terms of `touchInfo`, `livePredecessors` and `addWaits`. -/
theorem acquireLocks_eq (mgr : DDRLockManager) (txn_id : TxnId)
    (locks : List (KeyReplica × KeyType)) :
    (mgr.AcquireLocks txn_id locks).1
      = { lock_table_ := (acquireLoop txn_id locks mgr.lock_table_ []).1,
          txn_info_ := addWaits txn_id
            (livePredecessors (touchInfo txn_id (-1) mgr.txn_info_)
              (acquireLoop txn_id locks mgr.lock_table_ []).2)
            (touchInfo txn_id (-1) mgr.txn_info_) } :=
  rfl

/-- A transaction that has a `TxnInfo` keeps it in `touchInfo`. -/
theorem touchInfo_isSome (txn_id : TxnId) (change : Int) (infos : TxnId → Option TxnInfo)
    (t : TxnId) (h : (infos t).isSome = true) : (touchInfo txn_id change infos t).isSome = true := by
  unfold touchInfo
  by_cases ht : t = txn_id
  · rw [if_pos ht]
    rfl
  · rw [if_neg ht]
    exact h

/-- The transaction of `touchInfo` has a `TxnInfo`. -/
theorem touchInfo_self (txn_id : TxnId) (change : Int) (infos : TxnId → Option TxnInfo) :
    (touchInfo txn_id change infos txn_id).isSome = true := by
  unfold touchInfo
  rw [if_pos rfl]
  rfl

/-- A `TxnInfo` of `touchInfo` is one from before, up to `pending_parts`, or is new. -/
theorem touchInfo_some (txn_id : TxnId) (change : Int) (infos : TxnId → Option TxnInfo)
    (t : TxnId) (info : TxnInfo) (h : touchInfo txn_id change infos t = some info) :
    (∃ old, infos t = some old ∧ info.waited_by = old.waited_by
        ∧ info.waiting_for_cnt = old.waiting_for_cnt)
      ∨ (infos t = none ∧ info.waited_by = [] ∧ info.waiting_for_cnt = 0) := by
  unfold touchInfo at h
  by_cases ht : t = txn_id
  · rw [if_pos ht] at h
    simp only [Option.some.injEq] at h
    subst ht
    cases hold : infos t with
    | none =>
      rw [hold] at h
      right
      rw [← h]
      exact ⟨rfl, rfl, rfl⟩
    | some old =>
      rw [hold] at h
      left
      rw [← h]
      exact ⟨old, rfl, rfl, rfl⟩
  · rw [if_neg ht] at h
    exact Or.inl ⟨info, h, rfl, rfl⟩

/-- The invariant of the lock manager is kept when a transaction gets a
`TxnInfo` or its `pending_parts` change. -/
theorem LockInvariant.touch {held : KeyReplica → List (TxnId × KeyType)} {mgr : DDRLockManager}
    {edges : List (TxnId × TxnId)} (inv : LockInvariant held mgr edges)
    (txn_id : TxnId) (change : Int) :
    LockInvariant held
      { lock_table_ := mgr.lock_table_, txn_info_ := touchInfo txn_id change mgr.txn_info_ }
      edges := by
  refine ⟨?_, ?_, ?_, ?_, inv.covered, inv.blocked⟩
  · intro k e he
    exact touchInfo_isSome _ _ _ _ (inv.live k e he)
  · intro p info hinfo w
    rcases touchInfo_some _ _ _ _ _ hinfo with ⟨old, hold, h1, _⟩ | ⟨hnone, h1, _⟩
    · rw [h1]
      exact inv.waited p old hold w
    · rw [h1, List.count_nil]
      symm
      refine List.count_eq_zero.mpr ?_
      intro hmem
      have := (inv.edges_live _ hmem).1
      simp only at this
      rw [hnone] at this
      cases this
  · intro w info hinfo
    rcases touchInfo_some _ _ _ _ _ hinfo with ⟨old, hold, _, h2⟩ | ⟨hnone, _, h2⟩
    · rw [h2]
      exact inv.counted w old hold
    · rw [h2]
      have hzero : edges.countP (fun e => decide (e.2 = w)) = 0 := by
        refine List.countP_eq_zero.mpr ?_
        intro e he h
        have hlive := (inv.edges_live e he).2
        simp only [decide_eq_true_eq] at h
        rw [h, hnone] at hlive
        cases hlive
      rw [hzero]
      rfl
  · intro e he
    exact ⟨touchInfo_isSome _ _ _ _ (inv.edges_live e he).1,
      touchInfo_isSome _ _ _ _ (inv.edges_live e he).2⟩

/-- The new waits of a transaction for one predecessor. -/
theorem count_new_edges (txn_id : TxnId) (predecessors : List TxnId) (hnd : predecessors.Nodup)
    (p w : TxnId) :
    (predecessors.map (fun b => (b, txn_id))).count (p, w)
      = if p ∈ predecessors ∧ w = txn_id then 1 else 0 := by
  induction predecessors with
  | nil => simp
  | cons b rest ih =>
    obtain ⟨hb, hrest⟩ := List.nodup_cons.mp hnd
    rw [List.map_cons, List.count_cons, ih hrest]
    by_cases hp : b = p
    · subst hp
      by_cases hw : w = txn_id
      · subst hw
        simp [hb]
      · have hw2 : ¬ txn_id = w := fun e => hw e.symm
        simp [hw, hw2]
    · have hp2 : ¬ p = b := fun e => hp e.symm
      by_cases hmem : p ∈ rest <;> by_cases hw : w = txn_id <;> simp [hp, hp2, hmem, hw]

/-- The number of new waits of a transaction. -/
theorem countP_new_edges (txn_id : TxnId) (predecessors : List TxnId) (w : TxnId) :
    (predecessors.map (fun b => (b, txn_id))).countP (fun e => decide (e.2 = w))
      = if w = txn_id then predecessors.length else 0 := by
  induction predecessors with
  | nil => simp
  | cons b rest ih =>
    by_cases hw : w = txn_id
    · rw [if_pos hw] at ih ⊢
      simp [List.countP_cons, ih, hw]
    · rw [if_neg hw] at ih ⊢
      have hw2 : ¬ txn_id = w := fun e => hw e.symm
      simp [List.countP_cons, ih, hw2]

/-- A `TxnInfo` of `addWaits` comes from one before. -/
theorem addWaits_some (txn_id : TxnId) (predecessors : List TxnId)
    (infos : TxnId → Option TxnInfo) (t : TxnId) (info : TxnInfo)
    (h : addWaits txn_id predecessors infos t = some info) :
    ∃ old, infos t = some old
      ∧ info.waited_by
          = (if t ∈ predecessors then old.waited_by ++ [txn_id] else old.waited_by)
      ∧ info.waiting_for_cnt
          = (if t = txn_id then old.waiting_for_cnt + predecessors.length
             else old.waiting_for_cnt)
      ∧ info.pending_parts = old.pending_parts := by
  unfold addWaits at h
  cases hold : infos t with
  | none =>
    rw [hold] at h
    cases h
  | some old =>
    rw [hold] at h
    simp only [Option.map_some', Option.some.injEq] at h
    rw [← h]
    exact ⟨old, rfl, rfl, rfl, rfl⟩

/-- The transactions with a `TxnInfo` are the same after `addWaits`. -/
theorem addWaits_isSome (txn_id : TxnId) (predecessors : List TxnId)
    (infos : TxnId → Option TxnInfo) (t : TxnId) :
    (addWaits txn_id predecessors infos t).isSome = (infos t).isSome := by
  unfold addWaits
  cases infos t <;> rfl

/-- The invariant of the lock manager is kept by the loop of `AcquireLocks` and
the waits added after it, for a transaction that has a `TxnInfo`. -/
theorem LockInvariant.acquire {held : KeyReplica → List (TxnId × KeyType)}
    {mgr : DDRLockManager} {edges : List (TxnId × TxnId)} (inv : LockInvariant held mgr edges)
    (txn_id : TxnId) (hlive : (mgr.txn_info_ txn_id).isSome = true)
    (locks : List (KeyReplica × KeyType)) :
    LockInvariant
      (fun k => held k ++
        (locks.filter (fun l => decide (l.1 = k))).map (fun l => (txn_id, l.2)))
      { lock_table_ := (acquireLoop txn_id locks mgr.lock_table_ []).1,
        txn_info_ := addWaits txn_id
          (livePredecessors mgr.txn_info_ (acquireLoop txn_id locks mgr.lock_table_ []).2)
          mgr.txn_info_ }
      (edges ++ (livePredecessors mgr.txn_info_
        (acquireLoop txn_id locks mgr.lock_table_ []).2).map (fun b => (b, txn_id))) := by
  have start : AcquireInvariant txn_id mgr.txn_info_ edges held mgr.lock_table_ [] :=
    ⟨inv.live, inv.covered, fun k x y h hne hconf => Or.inl (inv.blocked k x y h hne hconf)⟩
  have loop := AcquireInvariant.loop hlive locks held mgr.lock_table_ [] start
  have hnd : (livePredecessors mgr.txn_info_
      (acquireLoop txn_id locks mgr.lock_table_ []).2).Nodup :=
    (List.nodup_dedup _).filter _
  have hpred : ∀ b, b ∈ (acquireLoop txn_id locks mgr.lock_table_ []).2 →
      (mgr.txn_info_ b).isSome = true →
      b ∈ livePredecessors mgr.txn_info_ (acquireLoop txn_id locks mgr.lock_table_ []).2 :=
    fun b hb hl => List.mem_filter.mpr ⟨List.mem_dedup.mpr hb, hl⟩
  refine ⟨?_, ?_, ?_, ?_, loop.covered, ?_⟩
  · intro k e he
    simp only [addWaits_isSome]
    exact loop.live k e he
  · intro p info hinfo w
    obtain ⟨old, hold, h1, _, _⟩ := addWaits_some _ _ _ _ _ hinfo
    rw [h1, List.count_append, count_new_edges txn_id _ hnd, ← inv.waited p old hold w]
    by_cases hp : p ∈ livePredecessors mgr.txn_info_
        (acquireLoop txn_id locks mgr.lock_table_ []).2
    · rw [if_pos hp, List.count_append, List.count_singleton]
      by_cases hw : w = txn_id
      · simp [hp, hw]
      · have hw2 : ¬ txn_id = w := fun e => hw e.symm
        simp [hp, hw, hw2]
    · rw [if_neg hp]
      simp [hp]
  · intro w info hinfo
    obtain ⟨old, hold, _, h2, _⟩ := addWaits_some _ _ _ _ _ hinfo
    rw [h2, List.countP_append, countP_new_edges, inv.counted w old hold]
    by_cases hw : w = txn_id
    · simp [hw]
    · simp [hw]
  · intro e he
    simp only [addWaits_isSome]
    rcases List.mem_append.mp he with h | h
    · exact inv.edges_live e h
    · obtain ⟨b, hb, rfl⟩ := List.mem_map.mp h
      exact ⟨(List.mem_filter.mp hb).2, hlive⟩
  · intro k x y hxy hne hconf
    rcases loop.pending k x y hxy hne hconf with h | ⟨hy, b, hb, hbl, h⟩
    · exact chain_mono _ _ (fun e he => List.mem_append_left _ he) _ _ h
    · have hedge : (b, y.1) ∈ edges ++ (livePredecessors mgr.txn_info_
          (acquireLoop txn_id locks mgr.lock_table_ []).2).map (fun b => (b, txn_id)) := by
        refine List.mem_append_right _ ?_
        rw [hy]
        exact List.mem_map.mpr ⟨b, hpred b hb hbl, rfl⟩
      rcases h with h | h
      · rw [← h]
        exact Relation.TransGen.single hedge
      · exact Relation.TransGen.tail
          (chain_mono _ _ (fun e he => List.mem_append_left _ he) _ _ h) hedge

/-- The call `ReleaseLocks` on a transaction with a `TxnInfo`. -/
theorem releaseLocks_some (mgr : DDRLockManager) (txn_id : TxnId) (info : TxnInfo)
    (h : mgr.txn_info_ txn_id = some info) :
    (mgr.ReleaseLocks txn_id).1
      = { lock_table_ := mgr.lock_table_,
          txn_info_ := fun t =>
            if t = txn_id then none
            else (mgr.txn_info_ t).map (fun i =>
              { i with waiting_for_cnt := i.waiting_for_cnt - info.waited_by.count t }) } := by
  unfold DDRLockManager.ReleaseLocks
  rw [h]

/-- The call `ReleaseLocks` on a transaction without a `TxnInfo`. -/
theorem releaseLocks_none (mgr : DDRLockManager) (txn_id : TxnId)
    (h : mgr.txn_info_ txn_id = none) : (mgr.ReleaseLocks txn_id).1 = mgr := by
  unfold DDRLockManager.ReleaseLocks
  rw [h]

/-- The invariant of the lock manager is kept when a ready transaction is released. -/
theorem LockInvariant.release {held : KeyReplica → List (TxnId × KeyType)}
    {mgr : DDRLockManager} {edges : List (TxnId × TxnId)} (inv : LockInvariant held mgr edges)
    (txn_id : TxnId) (info : TxnInfo) (hinfo : mgr.txn_info_ txn_id = some info)
    (hready : info.is_ready = true) :
    LockInvariant
      (fun k => (held k).filter (fun e => decide (e.1 ≠ txn_id)))
      { lock_table_ := mgr.lock_table_,
        txn_info_ := fun t =>
          if t = txn_id then none
          else (mgr.txn_info_ t).map (fun i =>
            { i with waiting_for_cnt := i.waiting_for_cnt - info.waited_by.count t }) }
      (edges.filter (fun e => decide (e.1 ≠ txn_id))) := by
  have hcnt : info.waiting_for_cnt = 0 := by
    simp only [TxnInfo.is_ready, Bool.and_eq_true, beq_iff_eq] at hready
    exact hready.1
  have hno : ∀ e ∈ edges, e.2 ≠ txn_id := by
    have hzero : edges.countP (fun e => decide (e.2 = txn_id)) = 0 := by
      have := inv.counted txn_id info hinfo
      rw [hcnt] at this
      exact_mod_cast this.symm
    intro e he h
    exact List.countP_eq_zero.mp hzero e he (by simpa using h)
  have hsome : ∀ t, t ≠ txn_id →
      ((if t = txn_id then none
        else (mgr.txn_info_ t).map (fun i =>
          { i with waiting_for_cnt := i.waiting_for_cnt - info.waited_by.count t })
        : Option TxnInfo)).isSome = (mgr.txn_info_ t).isSome := by
    intro t ht
    rw [if_neg ht]
    cases mgr.txn_info_ t <;> rfl
  have hget : ∀ t (i2 : TxnInfo),
      ((if t = txn_id then none
        else (mgr.txn_info_ t).map (fun i =>
          { i with waiting_for_cnt := i.waiting_for_cnt - info.waited_by.count t })
        : Option TxnInfo)) = some i2 →
      t ≠ txn_id ∧ ∃ old, mgr.txn_info_ t = some old ∧ i2.waited_by = old.waited_by ∧
        i2.waiting_for_cnt = old.waiting_for_cnt - info.waited_by.count t := by
    intro t i2 h
    by_cases ht : t = txn_id
    · rw [if_pos ht] at h
      cases h
    · rw [if_neg ht] at h
      cases hold : mgr.txn_info_ t with
      | none =>
        rw [hold] at h
        cases h
      | some old =>
        rw [hold] at h
        simp only [Option.map_some', Option.some.injEq] at h
        rw [← h]
        exact ⟨ht, old, rfl, rfl, rfl⟩
  refine ⟨?_, ?_, ?_, ?_, ?_, ?_⟩
  · intro k e he
    obtain ⟨he1, he2⟩ := List.mem_filter.mp he
    simp only [ne_eq, decide_eq_true_eq] at he2
    show (if e.1 = txn_id then none else _ : Option TxnInfo).isSome = true
    rw [hsome e.1 he2]
    exact inv.live k e he1
  · intro p i2 hi2 w
    obtain ⟨hp, old, hold, h1, _⟩ := hget p i2 hi2
    rw [h1, inv.waited p old hold w]
    symm
    exact List.count_filter (by simpa using hp)
  · intro w i2 hi2
    obtain ⟨hw, old, hold, _, h2⟩ := hget w i2 hi2
    rw [h2, inv.counted w old hold, inv.waited txn_id info hinfo w, countP_split txn_id w edges]
    push_cast
    omega
  · intro e he
    obtain ⟨he1, he2⟩ := List.mem_filter.mp he
    simp only [ne_eq, decide_eq_true_eq] at he2
    have he3 := hno e he1
    constructor
    · show (if e.1 = txn_id then none else _ : Option TxnInfo).isSome = true
      rw [hsome e.1 he2]
      exact (inv.edges_live e he1).1
    · show (if e.2 = txn_id then none else _ : Option TxnInfo).isSome = true
      rw [hsome e.2 he3]
      exact (inv.edges_live e he1).2
  · intro k e he
    obtain ⟨he1, he2⟩ := List.mem_filter.mp he
    simp only [ne_eq, decide_eq_true_eq] at he2
    rcases inv.covered k e he1 with h | ⟨w, hw, h⟩
    · exact Or.inl h
    · refine Or.inr ⟨w, hw, ?_⟩
      rcases h with h | h
      · exact Or.inl h
      · right
        have hwz : w ≠ txn_id := by
          intro e2
          have hne : e.1 ≠ (w, KeyType.WRITE).1 := by
            rw [e2]
            exact he2
          obtain ⟨p, hp⟩ := chain_last_edge edges _ _ (inv.blocked k e _ h hne (Or.inr rfl))
          exact hno (p, w) hp e2
        have hf := h.filter (fun e => decide (e.1 ≠ txn_id))
        simpa [List.filter_cons, he2, hwz] using hf
  · intro k x y hxy hne hconf
    have hxy2 : [x, y].Sublist (held k) := hxy.trans (List.filter_sublist _)
    have hx : x ∈ (held k).filter (fun e => decide (e.1 ≠ txn_id)) := hxy.subset (by simp)
    have hx2 : x.1 ≠ txn_id := by simpa using (List.mem_filter.mp hx).2
    exact chain_filter edges txn_id hno x.1 y.1 hx2 (inv.blocked k x y hxy2 hne hconf)

/-- The requests held after one more call. -/
theorem heldLocks_snoc (k : KeyReplica) (calls : List LockCall) (call : LockCall) :
    heldLocks k (calls ++ [call])
      = (match call with
        | LockCall.AcceptTransaction _ _ => heldLocks k calls
        | LockCall.AcquireLocks txn_id locks =>
          heldLocks k calls ++
            (locks.filter (fun l => decide (l.1 = k))).map (fun l => (txn_id, l.2))
        | LockCall.ReleaseLocks txn_id =>
          (heldLocks k calls).filter (fun e => decide (e.1 ≠ txn_id))) := by
  simp only [heldLocks, List.foldl_append, List.foldl_cons, List.foldl_nil]

/-- The lock manager that the check of the releases carries along is the one
after the calls. -/
theorem releasesReady_fold_fst (calls : List LockCall) :
    ∀ start : DDRLockManager × Bool,
      (calls.foldl (fun acc call => (acc.1.step call, acc.2 && releaseAllowed acc.1 call))
        start).1 = calls.foldl DDRLockManager.step start.1 := by
  induction calls with
  | nil => intro start; rfl
  | cons call rest ih =>
    intro start
    simp only [List.foldl_cons, ih]

/-- Checking the releases for one more call. -/
theorem releasesReady_snoc (calls : List LockCall) (call : LockCall) :
    releasesReady (calls ++ [call])
      = (releasesReady calls && releaseAllowed (runLocks calls) call) := by
  simp only [releasesReady, List.foldl_append, List.foldl_cons, List.foldl_nil,
    releasesReady_fold_fst, runLocks]

/-- When only ready transactions are released, the invariant of the lock manager
holds after every sequence of calls. -/
theorem lockInvariant_run (calls : List LockCall) :
    releasesReady calls = true →
      ∃ edges, LockInvariant (fun k => heldLocks k calls) (runLocks calls) edges := by
  induction calls using List.reverseRecOn with
  | nil =>
    intro _
    refine ⟨[], ?_, ?_, ?_, ?_, ?_, ?_⟩
    · intro k e he
      simp [heldLocks] at he
    · intro p info hinfo
      simp [runLocks, DDRLockManager.fresh] at hinfo
    · intro w info hinfo
      simp [runLocks, DDRLockManager.fresh] at hinfo
    · intro e he
      cases he
    · intro k e he
      simp [heldLocks] at he
    · intro k x y hxy
      have : x ∈ heldLocks k [] := hxy.subset (by simp)
      simp [heldLocks] at this
  | append_singleton calls call ih =>
    intro h
    rw [releasesReady_snoc, Bool.and_eq_true] at h
    obtain ⟨edges, inv⟩ := ih h.1
    have hcall := h.2
    rw [runLocks_snoc]
    cases call with
    | AcceptTransaction txn_id n =>
      have heq : (fun k => heldLocks k (calls ++ [LockCall.AcceptTransaction txn_id n]))
          = fun k => heldLocks k calls := by
        funext k
        rw [heldLocks_snoc]
      rw [heq]
      exact ⟨edges, inv.touch txn_id n⟩
    | AcquireLocks txn_id locks =>
      have heq : (fun k => heldLocks k (calls ++ [LockCall.AcquireLocks txn_id locks]))
          = fun k => heldLocks k calls ++
            (locks.filter (fun l => decide (l.1 = k))).map (fun l => (txn_id, l.2)) := by
        funext k
        rw [heldLocks_snoc]
      rw [heq]
      exact ⟨_, (inv.touch txn_id (-1)).acquire txn_id (touchInfo_self _ _ _) locks⟩
    | ReleaseLocks txn_id =>
      have heq : (fun k => heldLocks k (calls ++ [LockCall.ReleaseLocks txn_id]))
          = fun k => (heldLocks k calls).filter (fun e => decide (e.1 ≠ txn_id)) := by
        funext k
        rw [heldLocks_snoc]
      rw [heq]
      cases hinfo : (runLocks calls).txn_info_ txn_id with
      | none =>
        have hstep : (runLocks calls).step (LockCall.ReleaseLocks txn_id) = runLocks calls :=
          releaseLocks_none _ _ hinfo
        rw [hstep]
        have hsame : (fun k => (heldLocks k calls).filter (fun e => decide (e.1 ≠ txn_id)))
            = fun k => heldLocks k calls := by
          funext k
          refine List.filter_eq_self.mpr ?_
          intro e he
          have hlive := inv.live k e he
          simp only [ne_eq, decide_eq_true_eq]
          intro e2
          rw [e2, hinfo] at hlive
          cases hlive
        rw [hsame]
        exact ⟨edges, inv⟩
      | some info =>
        have hstep : (runLocks calls).step (LockCall.ReleaseLocks txn_id) = _ :=
          releaseLocks_some _ _ info hinfo
        rw [hstep]
        have hready : info.is_ready = true := by
          simpa [releaseAllowed, hinfo] using hcall
        exact ⟨_, inv.release txn_id info hinfo hready⟩

/-- When only ready transactions are released, a transaction that requested a
`KeyReplica` after a conflicting request of another transaction, not yet
released, is not ready. -/
theorem later_not_ready (calls : List LockCall) (hready : releasesReady calls = true)
    (k : KeyReplica) (x y : TxnId × KeyType) (hxy : [x, y].Sublist (heldLocks k calls))
    (hne : x.1 ≠ y.1) (hconf : x.2 = KeyType.WRITE ∨ y.2 = KeyType.WRITE) :
    isReady (runLocks calls) y.1 = false := by
  obtain ⟨edges, inv⟩ := lockInvariant_run calls hready
  obtain ⟨p, hp⟩ := chain_last_edge edges _ _ (inv.blocked k x y hxy hne hconf)
  have hlive := (inv.edges_live _ hp).2
  simp only at hlive
  cases hinfo : (runLocks calls).txn_info_ y.1 with
  | none =>
    rw [hinfo] at hlive
    cases hlive
  | some info =>
    have hcount : 0 < edges.countP (fun e => decide (e.2 = y.1)) :=
      List.countP_pos_iff.mpr ⟨(p, y.1), hp, by simp⟩
    have hcnt := inv.counted y.1 info hinfo
    have hpos : info.waiting_for_cnt ≠ 0 := by
      rw [hcnt]
      exact_mod_cast (Nat.pos_iff_ne_zero.mp hcount)
    simp only [isReady, hinfo, TxnInfo.is_ready, Bool.and_eq_false_iff, beq_eq_false_iff_ne]
    exact Or.inl hpos

/-- What the lock manager as specified does when a transaction is released while
it waits: of three transactions that write the same `KeyReplica`, the third
waits for the second only, and once the second is released, the first and the
third are both ready and not released.  The specification of `ReleaseLocks`
hands the waiters of the released transaction nothing to wait for in its place. -/
theorem ddr_release_waiting_sample :
    (1, KeyType.WRITE) ∈ heldLocks "k:0" releaseWaitingCalls ∧
    (3, KeyType.WRITE) ∈ heldLocks "k:0" releaseWaitingCalls ∧
    isReady (runLocks releaseWaitingCalls) 1 = true ∧
    isReady (runLocks releaseWaitingCalls) 3 = true := by
  decide

/-- Of the lock manager as specified, after every sequence of
`AcceptTransaction`, `AcquireLocks` and `ReleaseLocks` calls in which
`ReleaseLocks` is called only on transactions that are ready or have no
`TxnInfo`: no two distinct transactions that are both ready and not yet released
have requested the same `KeyReplica` with at least one of the two requests being
a WRITE; and if `X` requested it before a conflicting `Y`, then `Y` is not ready
before `X` is released. -/
theorem ddr_exclusion_of_ready_releases (calls : List LockCall)
    (hready : releasesReady calls = true)
    (k : KeyReplica) (X Y : TxnId) (m1 m2 : KeyType)
    (hX : (X, m1) ∈ heldLocks k calls) (hY : (Y, m2) ∈ heldLocks k calls) (hne : X ≠ Y)
    (hconf : m1 = KeyType.WRITE ∨ m2 = KeyType.WRITE) :
    ¬ (isReady (runLocks calls) X = true ∧ isReady (runLocks calls) Y = true) ∧
    ([(X, m1), (Y, m2)].Sublist (heldLocks k calls) → isReady (runLocks calls) Y = false) := by
  have hpair : (X, m1) ≠ (Y, m2) := fun e => hne (Prod.mk.injEq _ _ _ _ ▸ e).1
  refine ⟨?_, fun h => later_not_ready calls hready k (X, m1) (Y, m2) h hne hconf⟩
  rintro ⟨h1, h2⟩
  rcases pair_sublist_total _ _ hpair _ hX hY with h | h
  · have := later_not_ready calls hready k (X, m1) (Y, m2) h hne hconf
    simp only at this
    rw [this] at h2
    cases h2
  · have := later_not_ready calls hready k (Y, m2) (X, m1) h (fun e => hne e.symm) hconf.symm
    simp only at this
    rw [this] at h1
    cases h1

/-- Two writers and a reader of one `KeyReplica`, after the first writer is
released when ready: the second writer is ready and the reader is not. -/
theorem ddr_exclusion_of_ready_releases_sample :
    isReady (runLocks orderlyCalls) 2 = true ∧
    ¬ (isReady (runLocks orderlyCalls) 2 = true ∧ isReady (runLocks orderlyCalls) 3 = true) ∧
    ([(2, KeyType.WRITE), (3, KeyType.READ)].Sublist (heldLocks "k:0" orderlyCalls) →
      isReady (runLocks orderlyCalls) 3 = false) :=
  ⟨by decide,
   ddr_exclusion_of_ready_releases orderlyCalls (by decide) "k:0" 2 3 KeyType.WRITE KeyType.READ
     (by decide) (by decide) (by decide) (Or.inl rfl)⟩

/-- The keys of the lock table that `MakeKeyReplica` builds for two samples. -/
theorem makeKeyReplica_samples :
    MakeKeyReplica "a:1" 2 = "a:1:2" ∧ MakeKeyReplica "a" 12 = "a:12" := by
  decide

end slog
